import Mathlib

/-! Commit-correspondence engine of publishing-bot.

A shallow embedding of `pkg/git/kube.go` (`SourceHash`), `pkg/git/mainline.go`
(`FirstParent`, `FirstParentList`, `MergePoints`) and the printing loop of
`cmd/collapsed-kube-commit-mapper/main.go`, followed by theorems about them.  The commit
store is not among the sources and is modelled from the specification.

Modelling conventions

* `plumbing.Hash` is a 20 byte array.  It is represented by the natural number whose
  big-endian base-256 digits are the 20 bytes, so `plumbing.ZeroHash` is `0`.
* Go strings are represented by Lean strings (sequences of code points); the Go code
  is byte oriented, the two views agree on valid UTF-8 text.
* A Go map is an association list with at most one entry per key; the order of the
  entries plays the part of Go's unspecified iteration order.
* A call either returns a value, returns an error, panics, or does not return.
* Where a statement counts visits or store lookups, the run is taken with its trace of
  events (`visitT`), which returns the same outcome as the plain run (`visit`).
-/

namespace PublishingBot

/-! ## Hashes and commits -/

/-- The type `plumbing.Hash`: the big-endian value of the 20 bytes. -/
abbrev Hash := Nat

/-- The constant `plumbing.ZeroHash`. -/
def ZeroHash : Hash := 0

/-- The fields of `object.Commit` that the code reads. -/
structure Commit where
  Hash : PublishingBot.Hash
  ParentHashes : List PublishingBot.Hash
  Message : String
  deriving DecidableEq, Repr

/-! ## Library functions used by the code (Go standard library and go-git) -/

/-- Value of a hexadecimal digit, as `encoding/hex` reads it (both cases accepted). -/
def fromHexChar (c : Char) : Option Nat :=
  if '0' ≤ c ∧ c ≤ '9' then some (c.toNat - '0'.toNat)
  else if 'a' ≤ c ∧ c ≤ 'f' then some (c.toNat - 'a'.toNat + 10)
  else if 'A' ≤ c ∧ c ≤ 'F' then some (c.toNat - 'A'.toNat + 10)
  else none

/-- The bytes `hex.DecodeString` returns next to its error: the pairs of digits decoded
before the first invalid character or the dangling last digit. -/
def hexDecode : List Char → List Nat
  | a :: b :: rest =>
    match fromHexChar a, fromHexChar b with
    | some x, some y => (16 * x + y) :: hexDecode rest
    | _, _ => []
  | _ => []

/-- Big-endian value of a byte sequence. -/
def bytesValue (bs : List Nat) : Nat :=
  bs.foldl (fun acc b => acc * 256 + b) 0

/-- The go-git function `plumbing.NewHash`: the decoded bytes are copied into a zeroed
20 byte array (`copy` keeps at most 20 of them). -/
def NewHash (s : List Char) : Hash :=
  let b := (hexDecode s).take 20
  bytesValue (b ++ List.replicate (20 - b.length) 0)

/-- Lower-case hexadecimal digit. -/
def hexDigit (n : Nat) : Char :=
  if n < 10 then Char.ofNat ('0'.toNat + n) else Char.ofNat ('a'.toNat + (n - 10))

/-- The method `Hash.String`: 40 lower-case hexadecimal digits. -/
def hashString (h : Hash) : String :=
  String.mk ((List.range 20).flatMap fun i =>
    let b := (h / 256 ^ (19 - i)) % 256
    [hexDigit (b / 16), hexDigit (b % 16)])

/-- The predicate `unicode.IsSpace`. -/
def isSpace (c : Char) : Bool :=
  c = '\t' || c = '\n' || c.toNat = 0x0B || c.toNat = 0x0C || c = '\r' || c = ' ' ||
  c.toNat = 0x85 || c.toNat = 0xA0 || c.toNat = 0x1680 ||
  (0x2000 ≤ c.toNat && c.toNat ≤ 0x200A) ||
  c.toNat = 0x2028 || c.toNat = 0x2029 || c.toNat = 0x202F || c.toNat = 0x205F ||
  c.toNat = 0x3000

/-- The function `strings.TrimSpace`. -/
def TrimSpace (s : List Char) : List Char :=
  ((s.dropWhile isSpace).reverse.dropWhile isSpace).reverse

/-- The call `strings.Split(s, "\n")`: the pieces between line feeds; never empty. -/
def splitLines : List Char → List (List Char)
  | [] => [[]]
  | c :: cs =>
    if c = '\n' then [] :: splitLines cs
    else
      match splitLines cs with
      | l :: ls => (c :: l) :: ls
      | [] => [[c]]

/-- The function `strings.HasPrefix`. -/
def HasPrefix (s pre : List Char) : Bool := pre.isPrefixOf s

/-! ## `kube.go` -/

/-- The loop of `SourceHash` over the lines of the message. -/
def SourceHash.scan (sourceCommitPrefix : List Char) : List (List Char) → Hash
  | [] => ZeroHash
  | line :: lines =>
    if HasPrefix line sourceCommitPrefix then
      NewHash (TrimSpace (line.drop sourceCommitPrefix.length))
    else SourceHash.scan sourceCommitPrefix lines

/-- The function `SourceHash` of `kube.go`. -/
def SourceHash (c : Commit) (tag : String) : Hash :=
  let lines := splitLines c.Message.data
  let sourceCommitPrefix := tag.data ++ ": ".data
  SourceHash.scan sourceCommitPrefix lines

/-! ## Results of calls, Go maps and the commit store -/

/-- What a call does: it returns a value (`ok`), returns an error (`error`), stops with a
run-time panic (`panic`), or is still running when the recursion budget of the model
is used up (`diverge`). -/
inductive Outcome (α : Type) where
  | ok (a : α)
  | error (msg : String)
  | panic
  | diverge
  deriving DecidableEq, Repr

/-- A Go map keyed by hashes: at most one entry per key. -/
abbrev GoMap (β : Type) := List (Hash × β)

/-- The map read `v, found := m[k]`. -/
def mapGet {β : Type} (m : GoMap β) (k : Hash) : Option β := List.lookup k m

/-- The map write `m[k] = v`: an older entry for `k` is replaced. -/
def mapSet {β : Type} (m : GoMap β) (k : Hash) (v : β) : GoMap β :=
  (k, v) :: m.filter (fun e => e.1 != k)

/-- Modelled from the spec: the commit store behind `cache.CommitObject` (package
`pkg/cache` and the go-git object database are missing from the sources).  The spec
gives its contract as `resolve(hash) -> Commit | NotFound`, deterministic and over a
finite commit graph; it is a finite list of the stored objects with their hashes. -/
abbrev Repository := List (Hash × Commit)

/-- Modelled from the spec: the call `cache.CommitObject(r, h)`, which resolves `h` to
the stored commit or fails with the store's not-found error. -/
def CommitObject (r : Repository) (h : Hash) : Except String Commit :=
  match List.lookup h r with
  | some c => .ok c
  | none => .error "object not found"

/-! ## `mainline.go` -/

/-- The function `FirstParent`; a nil commit is `none`. -/
def FirstParent (r : Repository) (c : Option Commit) : Except String (Option Commit) :=
  match c with
  | none => .ok none
  | some c =>
    match c.ParentHashes with
    | [] => .ok none
    | ph :: _ =>
      match CommitObject r ph with
      | .error err => .error ("failed to get " ++ hashString ph ++ ": " ++ err)
      | .ok p => .ok (some p)

/-- The loop of `FirstParentList`, with the list `l` built so far and the current
commit `c`; `fuel` bounds the number of iterations. -/
def FirstParentList.loop (r : Repository) :
    Nat → List Commit → Option Commit → Outcome (List Commit)
  | 0, _, _ => .diverge
  | _ + 1, l, none => .ok l
  | fuel + 1, l, some c =>
    match FirstParent r (some c) with
    | .error err =>
      .error ("failed to get first parent of " ++ hashString c.Hash ++ ": " ++ err)
    | .ok next => FirstParentList.loop r fuel (l ++ [c]) next

/-- The function `FirstParentList`, run for at most `fuel` iterations of its loop. -/
def FirstParentList (fuel : Nat) (r : Repository) (c : Option Commit) :
    Outcome (List Commit) :=
  FirstParentList.loop r fuel [] c

/-- The two maps the closure `visit` of `MergePoints` writes to. -/
structure VisitState where
  earliestMergePoints : GoMap Nat
  seen : GoMap Commit
  deriving DecidableEq, Repr

/-- The loop `for _, ph := range c.ParentHashes` with its early return on an error. -/
def forParents (visit : Hash → VisitState → Outcome VisitState) :
    List Hash → VisitState → Outcome VisitState
  | [], st => .ok st
  | ph :: phs, st =>
    match visit ph st with
    | .ok st1 => forParents visit phs st1
    | .error e => .error e
    | .panic => .panic
    | .diverge => .diverge

/-- The closure `visit` of `MergePoints`; `fuel` bounds the depth of the recursion. -/
def visit (r : Repository) (mainLinePos : GoMap Nat) :
    Nat → Nat → Hash → VisitState → Outcome VisitState
  | 0, _, _, _ => .diverge
  | fuel + 1, pos, h, st =>
    -- stop if we reached the mainline
    if (mapGet mainLinePos h).isSome then .ok st
    -- was h seen before as descendent of a mainline commit?
    else if (mapGet st.earliestMergePoints h).isSome then .ok st
    else
      let st1 : VisitState :=
        { st with earliestMergePoints := mapSet st.earliestMergePoints h pos }
      -- resolve hash
      match mapGet st1.seen h with
      | some c => forParents (visit r mainLinePos fuel pos) c.ParentHashes st1
      | none =>
        match CommitObject r h with
        | .error err => .error ("failed to get " ++ hashString h ++ ": " ++ err)
        | .ok c =>
          forParents (visit r mainLinePos fuel pos) c.ParentHashes
            { st1 with seen := mapSet st1.seen h c }

/-- The first loop of `MergePoints`: `mainLinePos[c.Hash] = i`. -/
def buildMainLinePos : List Commit → Nat → GoMap Nat → GoMap Nat
  | [], _, m => m
  | c :: cs, i, m => buildMainLinePos cs (i + 1) (mapSet m c.Hash i)

/-- The loop `for pos := len(mainLine) - 1; pos >= 0; pos--` of `MergePoints`; the first
argument is `pos + 1`. -/
def mainLoop (r : Repository) (mainLine : List Commit) (mainLinePos : GoMap Nat)
    (fuel : Nat) : Nat → VisitState → Outcome VisitState
  | 0, st => .ok st
  | pos + 1, st =>
    match mainLine[pos]? with
    | none => .panic
    | some c =>
      let st1 : VisitState :=
        { earliestMergePoints := mapSet st.earliestMergePoints c.Hash pos
          seen := mapSet st.seen c.Hash c }
      match forParents (visit r mainLinePos fuel pos) c.ParentHashes st1 with
      | .ok st2 => mainLoop r mainLine mainLinePos fuel pos st2
      | .error e => .error e
      | .panic => .panic
      | .diverge => .diverge

/-- The last loop of `MergePoints`, over the entries of `seen`:
`result[c.Hash] = mainLine[earliestMergePoints[c.Hash]]`; a missing key reads as `0`
and an index out of range panics. -/
def buildResult (mainLine : List Commit) (earliestMergePoints : GoMap Nat) :
    List (Hash × Commit) → GoMap Commit → Outcome (GoMap Commit)
  | [], result => .ok result
  | (_, c) :: rest, result =>
    match mainLine[(mapGet earliestMergePoints c.Hash).getD 0]? with
    | none => .panic
    | some m => buildResult mainLine earliestMergePoints rest (mapSet result c.Hash m)

/-- The function `MergePoints` with recursion budget `fuel` for each outer call of
`visit`. -/
def MergePointsFuel (fuel : Nat) (r : Repository) (mainLine : List Commit) :
    Outcome (GoMap Commit) :=
  let mainLinePos := buildMainLinePos mainLine 0 []
  match mainLoop r mainLine mainLinePos fuel mainLine.length ⟨[], []⟩ with
  | .ok st => buildResult mainLine st.earliestMergePoints st.seen []
  | .error e => .error e
  | .panic => .panic
  | .diverge => .diverge

/-- The function `MergePoints`.  A call of `visit` that does not return at once marks a
hash that was unmarked, and it recurses only after the store has resolved that hash, so
the recursion is never deeper than the number of stored objects plus one: that is the
budget (`MergePoints_never_diverges` shows it is never used up). -/
def MergePoints (r : Repository) (mainLine : List Commit) : Outcome (GoMap Commit) :=
  MergePointsFuel (r.length + 1) r mainLine

/-! ## The commit graph -/

/-- The store resolves `a` and lists `b` among its parent hashes. -/
def Parent (r : Repository) (a b : Hash) : Prop :=
  ∃ c, CommitObject r a = .ok c ∧ b ∈ c.ParentHashes

/-- The hash `b` is reached from `a` by parent edges of the store (`a` itself included). -/
def Reaches (r : Repository) (a b : Hash) : Prop := Relation.ReflTransGen (Parent r) a b

/-- No commit of the store is its own proper ancestor. -/
def Acyclic (r : Repository) : Prop := ∀ h, ¬ Relation.TransGen (Parent r) h h

/-- Every commit the store returns carries the hash it was asked for. -/
def StoreConsistent (r : Repository) : Prop :=
  ∀ h c, CommitObject r h = .ok c → c.Hash = h

/-- The hash `h` is the hash of a commit of the chain. -/
def OnChain (mainLine : List Commit) (h : Hash) : Prop := h ∈ mainLine.map (·.Hash)

/-- A parent edge of the store that leaves a commit which is not on the chain. -/
def OffStep (r : Repository) (mainLine : List Commit) (a b : Hash) : Prop :=
  ¬ OnChain mainLine a ∧ Parent r a b

/-- The off-chain hash `h` is reached from a parent of `mainLine[p]` through resolvable
commits that are not on the chain. -/
def SideReach (r : Repository) (mainLine : List Commit) (p : Nat) (h : Hash) : Prop :=
  ∃ c, mainLine[p]? = some c ∧ ∃ ph ∈ c.ParentHashes,
    Relation.ReflTransGen (OffStep r mainLine) ph h ∧ ¬ OnChain mainLine h

/-- The text of the error `MergePoints` returns when the store cannot resolve `h`. -/
def lookupFailure (h : Hash) (err : String) : String :=
  "failed to get " ++ hashString h ++ ": " ++ err

/-! ## Specification of `visit` -/

/-- Number of stored objects whose hash has no entry in `earliestMergePoints`. -/
def pending (r : Repository) (em : GoMap Nat) : Nat :=
  r.countP fun e => (mapGet em e.1).isNone

/-- Every key of `seen` is a key of `earliestMergePoints`. -/
def SeenMarked (st : VisitState) : Prop :=
  ∀ e ∈ st.seen, (mapGet st.earliestMergePoints e.1).isSome

/-- What a run of visits at position `pos`, started from the hashes `roots`, has done to
the two maps when it returned without error. -/
structure VisitPost (r : Repository) (mainLine : List Commit) (pos : Nat)
    (roots : Hash → Prop) (st st1 : VisitState) : Prop where
  mono : ∀ k v, mapGet st.earliestMergePoints k = some v →
    mapGet st1.earliestMergePoints k = some v
  fresh : ∀ k v, mapGet st.earliestMergePoints k = none →
    mapGet st1.earliestMergePoints k = some v →
    v = pos ∧ ¬ OnChain mainLine k ∧
    (∃ h, roots h ∧ Relation.ReflTransGen (OffStep r mainLine) h k) ∧
    ∃ c, CommitObject r k = .ok c ∧
      ∀ ph ∈ c.ParentHashes, OnChain mainLine ph ∨
        (mapGet st1.earliestMergePoints ph).isSome
  seen_iff : ∀ e, e ∈ st1.seen ↔ e ∈ st.seen ∨
    (mapGet st.earliestMergePoints e.1 = none ∧
      (mapGet st1.earliestMergePoints e.1).isSome ∧ CommitObject r e.1 = .ok e.2)
  done : ∀ h, roots h → OnChain mainLine h ∨ (mapGet st1.earliestMergePoints h).isSome

/-- What each kind of outcome of a run of visits from `roots` means. -/
def VisitSpec (r : Repository) (mainLine : List Commit) (pos budget : Nat)
    (roots : Hash → Prop) (st : VisitState) : Outcome VisitState → Prop
  | .ok st1 => VisitPost r mainLine pos roots st st1
  | .error e => ∃ h k err, roots h ∧ Relation.ReflTransGen (OffStep r mainLine) h k ∧
      ¬ OnChain mainLine k ∧ CommitObject r k = .error err ∧ e = lookupFailure k err
  | .panic => False
  | .diverge => budget ≤ pending r st.earliestMergePoints

/-! ## Specification of the loop over the chain -/

/-- State of the two maps when the positions `q`, `q + 1`, ... of the chain have been
processed. -/
structure LoopInv (r : Repository) (mainLine : List Commit) (q : Nat)
    (st : VisitState) : Prop where
  chain : ∀ i c, q ≤ i → mainLine[i]? = some c →
    ∃ j cj, q ≤ j ∧ j ≤ i ∧ mainLine[j]? = some cj ∧ cj.Hash = c.Hash ∧
      mapGet st.earliestMergePoints c.Hash = some j ∧ (c.Hash, cj) ∈ st.seen
  onChain : ∀ k v, OnChain mainLine k → mapGet st.earliestMergePoints k = some v →
    q ≤ v ∧ ∃ c, mainLine[v]? = some c ∧ c.Hash = k
  side : ∀ k v, ¬ OnChain mainLine k → mapGet st.earliestMergePoints k = some v →
    q ≤ v ∧ SideReach r mainLine v k ∧ (∀ p, SideReach r mainLine p k → p ≤ v) ∧
    ∃ c, CommitObject r k = .ok c ∧
      ∀ ph ∈ c.ParentHashes, OnChain mainLine ph ∨
        (mapGet st.earliestMergePoints ph).isSome
  proc : ∀ p c, q ≤ p → mainLine[p]? = some c →
    ∀ ph ∈ c.ParentHashes, OnChain mainLine ph ∨ (mapGet st.earliestMergePoints ph).isSome
  seen : ∀ e ∈ st.seen, (mapGet st.earliestMergePoints e.1).isSome ∧
    ((OnChain mainLine e.1 ∧ e.2 ∈ mainLine ∧ e.2.Hash = e.1) ∨
      (¬ OnChain mainLine e.1 ∧ CommitObject r e.1 = .ok e.2))
  seen_side : ∀ k c, ¬ OnChain mainLine k → (mapGet st.earliestMergePoints k).isSome →
    CommitObject r k = .ok c → (k, c) ∈ st.seen

/-- The error `e` reports an off-chain hash that a side branch reaches and the store
cannot resolve. -/
def SideFailure (r : Repository) (mainLine : List Commit) (e : String) : Prop :=
  ∃ p k err, SideReach r mainLine p k ∧ CommitObject r k = .error err ∧
    e = lookupFailure k err

/-- What each kind of outcome of the loop over the chain means. -/
def LoopSpec (r : Repository) (mainLine : List Commit) : Outcome VisitState → Prop
  | .ok st => LoopInv r mainLine 0 st
  | .error e => SideFailure r mainLine e
  | .panic => False
  | .diverge => False

/-- The table `MergePoints` builds from the final maps: its keys are the hashes of the
commits stored in `seen` and each key is sent to the chain commit at its recorded
position. -/
structure TableOf (mainLine : List Commit) (st : VisitState) (table : GoMap Commit) :
    Prop where
  hit : ∀ e ∈ st.seen, ∃ m,
    mainLine[(mapGet st.earliestMergePoints e.2.Hash).getD 0]? = some m ∧
      mapGet table e.2.Hash = some m
  miss : ∀ k, (∀ e ∈ st.seen, e.2.Hash ≠ k) → mapGet table k = none

/-! ## Notions used in the statements about `MergePoints` -/

/-- The hash `b` is a parent hash of a commit with hash `a`, where the commits are those
of the chain and those the store returns. -/
def Edge (r : Repository) (mainLine : List Commit) (a b : Hash) : Prop :=
  ∃ c, ((c ∈ mainLine ∧ c.Hash = a) ∨ CommitObject r a = .ok c) ∧ b ∈ c.ParentHashes

/-- A hash names one commit: the store returns commits under their own hash, and where
it resolves the hash of a chain commit it returns that chain commit. -/
def HashConsistent (r : Repository) (mainLine : List Commit) : Prop :=
  StoreConsistent r ∧ ∀ c ∈ mainLine, ∀ c1, CommitObject r c.Hash = .ok c1 → c1 = c

/-- The chain is a first-parent chain of the store: its commits are stored, and each
commit but the last has the next one as its first parent. -/
def ValidChain (r : Repository) (mainLine : List Commit) : Prop :=
  (∀ c ∈ mainLine, CommitObject r c.Hash = .ok c) ∧
  ∀ i c d, mainLine[i]? = some c → mainLine[i + 1]? = some d →
    c.ParentHashes.head? = some d.Hash

/-- The text `e` contains the text `t`. -/
def Contains (e t : String) : Prop := ∃ pre post : String, e = pre ++ t ++ post

/-! ## Notions used in the statements about `FirstParentList` -/

/-- The list `l` is the first-parent walk from `c`: it is empty when `c` is nil, and
otherwise starts with `c` and goes on with the walk from what `FirstParent` returns. -/
def IsFirstParentWalk (r : Repository) : List Commit → Option Commit → Prop
  | [], c => c = none
  | x :: rest, c =>
    c = some x ∧ ∃ next, FirstParent r (some x) = .ok next ∧ IsFirstParentWalk r rest next

/-- The head-first first-parent chain of `start`, in the words of the specification:
empty exactly for a nil start, beginning with the start commit, each later commit the store's resolution
of the first parent hash of the one before, and ending in a commit without parents. -/
def IsFirstParentChain (r : Repository) (start : Option Commit) (l : List Commit) : Prop :=
  (l = [] ↔ start = none) ∧
  (∀ s, start = some s → l[0]? = some s) ∧
  (∀ i c d, l[i]? = some c → l[i + 1]? = some d →
    ∃ ph, c.ParentHashes.head? = some ph ∧ CommitObject r ph = .ok d) ∧
  (∀ c, l.getLast? = some c → c.ParentHashes = [])

/-! ## Example repositories -/

/-- A commit with an empty message. -/
def mkCommit (h : Hash) (parents : List Hash) : Commit := ⟨h, parents, ""⟩

/-- The store made of the given commits, each under its own hash. -/
def storeOf (cs : List Commit) : Repository := cs.map fun c => (c.Hash, c)

/-- The topology of the usage text, A = 1, ..., H = 8: mainline H G F C B A, and the side
branch C <- D <- E merged by F. -/
def demoCommits : List Commit :=
  [mkCommit 8 [7], mkCommit 7 [6], mkCommit 6 [3, 5], mkCommit 5 [4], mkCommit 4 [3],
   mkCommit 3 [2], mkCommit 2 [1], mkCommit 1 []]

/-- The store of `demoCommits`. -/
def demoRepo : Repository := storeOf demoCommits

/-- The mainline of `demoRepo`: H G F C B A. -/
def demoChain : List Commit :=
  [mkCommit 8 [7], mkCommit 7 [6], mkCommit 6 [3, 5], mkCommit 3 [2], mkCommit 2 [1],
   mkCommit 1 []]

/-- The table `MergePoints` returns for `demoChain`: D and E belong to F. -/
def demoTable : GoMap Commit :=
  [(1, mkCommit 1 []), (2, mkCommit 2 [1]), (3, mkCommit 3 [2]), (6, mkCommit 6 [3, 5]),
   (5, mkCommit 6 [3, 5]), (4, mkCommit 6 [3, 5]), (7, mkCommit 7 [6]), (8, mkCommit 8 [7])]

/-- A merge T of a side commit X that the older chain commit M had merged before:
chain T M R with T = 4, M = 3, R = 1 and X = 2. -/
def tieCommits : List Commit :=
  [mkCommit 4 [3, 2], mkCommit 3 [1, 2], mkCommit 1 [], mkCommit 2 [1]]

/-- The store of `tieCommits`. -/
def tieRepo : Repository := storeOf tieCommits

/-- The mainline of `tieRepo`: T M R. -/
def tieChain : List Commit := [mkCommit 4 [3, 2], mkCommit 3 [1, 2], mkCommit 1 []]

/-- A store that lacks the side commit E = 5 which F = 6 merges. -/
def brokenRepo : Repository :=
  storeOf [mkCommit 8 [7], mkCommit 7 [6], mkCommit 6 [3, 5], mkCommit 3 [2],
    mkCommit 2 [1], mkCommit 1 []]

/-- The table `MergePoints` returns for `tieChain`: X belongs to M. -/
def tieTable : GoMap Commit :=
  [(1, mkCommit 1 []), (3, mkCommit 3 [1, 2]), (2, mkCommit 3 [1, 2]),
   (4, mkCommit 4 [3, 2])]

/-! ## Notions used in the statements about `SourceHash` -/

/-- The text `tag + ": "` a cross-reference line starts with. -/
def tagPrefix (tag : String) : List Char := tag.data ++ ": ".data

/-- The lines of the message of `c`. -/
def messageLines (c : Commit) : List (List Char) := splitLines c.Message.data

/-- The line `line` is the first line of `c` that starts with `tag + ": "`. -/
def FirstTagLine (c : Commit) (tag : String) (line : List Char) : Prop :=
  ∃ before after, messageLines c = before ++ line :: after ∧
    (∀ l ∈ before, HasPrefix l (tagPrefix tag) = false) ∧
    HasPrefix line (tagPrefix tag) = true

/-- The hash `SourceHash` reads off a tag line: the text after the prefix, trimmed and
parsed by `NewHash`. -/
def lineHash (tag : String) (line : List Char) : Hash :=
  NewHash (TrimSpace (line.drop (tagPrefix tag).length))

/-- The commit message of the spec's example. -/
def signedCommit : Commit := ⟨1, [], "Kubernetes-commit: abc123\nSigned-off-by: X"⟩

/-- A message whose lines carry the tag only after a leading blank, or without the blank
after the colon. -/
def nearMissCommit : Commit := ⟨1, [], " Kubernetes-commit: abc123\nKubernetes-commit:abc123"⟩

/-- A message whose tag line does not carry hexadecimal text. -/
def unknownCommit : Commit := ⟨1, [], "Kubernetes-commit: unknown\nSigned-off-by: X"⟩

/-! ## Notions used in the statements about the order of iteration -/

/-- The function `MergePoints` with the iteration order of the loop
`for _, c := range seen` made explicit: the loop walks the entries of `seen` in the
order `order seen`.  Go leaves that order unspecified. -/
def MergePointsOrdered (order : GoMap Commit → List (Hash × Commit)) (r : Repository)
    (mainLine : List Commit) : Outcome (GoMap Commit) :=
  let mainLinePos := buildMainLinePos mainLine 0 []
  match mainLoop r mainLine mainLinePos (r.length + 1) mainLine.length ⟨[], []⟩ with
  | .ok st => buildResult mainLine st.earliestMergePoints (order st.seen) []
  | .error e => .error e
  | .panic => .panic
  | .diverge => .diverge

/-- Two runs end alike: with tables that have the same keys and the same commit under
every key, or with the same error. -/
def SameOutcome : Outcome (GoMap Commit) → Outcome (GoMap Commit) → Prop
  | .ok t1, .ok t2 => ∀ k, mapGet t1 k = mapGet t2 k
  | .error e1, .error e2 => e1 = e2
  | _, _ => False

/-! ## Notions used in the statements about the order of parents -/

/-- Two commits that differ at most in the order of their parent hashes. -/
def SameCommit (c1 c2 : Commit) : Prop :=
  c1.Hash = c2.Hash ∧ c1.Message = c2.Message ∧ c1.ParentHashes.Perm c2.ParentHashes

instance decidableSameCommit (c1 c2 : Commit) : Decidable (SameCommit c1 c2) := by
  unfold SameCommit; infer_instance

/-- Two chains that differ at most in the order in which their commits list parents. -/
def SameChain (mainLine1 mainLine2 : List Commit) : Prop :=
  List.Forall₂ SameCommit mainLine1 mainLine2

/-- Two stores that hold, under the same hashes, commits that differ at most in the
order of their parent hashes. -/
def SameStore (r1 r2 : Repository) : Prop :=
  List.Forall₂ (fun e1 e2 => e1.1 = e2.1 ∧ SameCommit e1.2 e2.2) r1 r2

/-- The store of `demoCommits` with the parents of the merge F listed the other way
round. -/
def swappedRepo : Repository :=
  storeOf [mkCommit 8 [7], mkCommit 7 [6], mkCommit 6 [5, 3], mkCommit 5 [4], mkCommit 4 [3],
    mkCommit 3 [2], mkCommit 2 [1], mkCommit 1 []]

/-- The chain `demoChain` with the parents of the merge F listed the other way round. -/
def swappedChain : List Commit :=
  [mkCommit 8 [7], mkCommit 7 [6], mkCommit 6 [5, 3], mkCommit 3 [2], mkCommit 2 [1],
   mkCommit 1 []]

/-! ## Notions used in the statements about failures of `FirstParentList` -/

/-- One step of the first-parent walk: `FirstParent` sends the commit `c` to `d`. -/
def FirstParentStep (r : Repository) (c d : Commit) : Prop :=
  FirstParent r (some c) = .ok (some d)

/-- The commit `c` lies on the first-parent walk from `start`. -/
def OnWalk (r : Repository) (start c : Commit) : Prop :=
  Relation.ReflTransGen (FirstParentStep r) start c

/-- The first parent hash of `c` is `ph`, and the store fails to resolve it with the
error `err`. -/
def UnresolvedFirstParent (r : Repository) (c : Commit) (ph : Hash) (err : String) :
    Prop :=
  c.ParentHashes.head? = some ph ∧ CommitObject r ph = .error err

/-- The text of the error `FirstParentList` returns when the first parent `ph` of `c`
does not resolve. -/
def firstParentFailure (c : Commit) (ph : Hash) (err : String) : String :=
  "failed to get first parent of " ++ hashString c.Hash ++ ": " ++
    ("failed to get " ++ hashString ph ++ ": " ++ err)

/-! ## The run of `MergePoints` with its trace -/

/-- What a visit does besides changing the maps: it writes an entry of
`earliestMergePoints` for a hash that had none (`mark`), and it asks the store to
resolve a hash with `cache.CommitObject` (`lookup`). -/
inductive Event where
  | mark (h : Hash)
  | lookup (h : Hash)
  deriving DecidableEq, Repr

/-- The loop over the parent hashes, with the events of its visits in order. -/
def forParentsT (visit : Hash → VisitState → Outcome VisitState × List Event) :
    List Hash → VisitState → Outcome VisitState × List Event
  | [], st => (.ok st, [])
  | ph :: phs, st =>
    match visit ph st with
    | (.ok st1, evs) =>
      let rest := forParentsT visit phs st1
      (rest.1, evs ++ rest.2)
    | (.error e, evs) => (.error e, evs)
    | (.panic, evs) => (.panic, evs)
    | (.diverge, evs) => (.diverge, evs)

/-- The closure `visit` of `MergePoints` as in `visit`, with the events of the call in
order: a call that returns at once has none. -/
def visitT (r : Repository) (mainLinePos : GoMap Nat) :
    Nat → Nat → Hash → VisitState → Outcome VisitState × List Event
  | 0, _, _, _ => (.diverge, [])
  | fuel + 1, pos, h, st =>
    if (mapGet mainLinePos h).isSome then (.ok st, [])
    else if (mapGet st.earliestMergePoints h).isSome then (.ok st, [])
    else
      let st1 : VisitState :=
        { st with earliestMergePoints := mapSet st.earliestMergePoints h pos }
      match mapGet st1.seen h with
      | some c =>
        let rest := forParentsT (visitT r mainLinePos fuel pos) c.ParentHashes st1
        (rest.1, .mark h :: rest.2)
      | none =>
        match CommitObject r h with
        | .error err =>
          (.error ("failed to get " ++ hashString h ++ ": " ++ err), [.mark h, .lookup h])
        | .ok c =>
          let rest := forParentsT (visitT r mainLinePos fuel pos) c.ParentHashes
            { st1 with seen := mapSet st1.seen h c }
          (rest.1, .mark h :: .lookup h :: rest.2)

/-- The loop over the chain as in `mainLoop`, with the events of its visits in order. -/
def mainLoopT (r : Repository) (mainLine : List Commit) (mainLinePos : GoMap Nat)
    (fuel : Nat) : Nat → VisitState → Outcome VisitState × List Event
  | 0, st => (.ok st, [])
  | pos + 1, st =>
    match mainLine[pos]? with
    | none => (.panic, [])
    | some c =>
      let st1 : VisitState :=
        { earliestMergePoints := mapSet st.earliestMergePoints c.Hash pos
          seen := mapSet st.seen c.Hash c }
      match forParentsT (visitT r mainLinePos fuel pos) c.ParentHashes st1 with
      | (.ok st2, evs) =>
        let rest := mainLoopT r mainLine mainLinePos fuel pos st2
        (rest.1, evs ++ rest.2)
      | (.error e, evs) => (.error e, evs)
      | (.panic, evs) => (.panic, evs)
      | (.diverge, evs) => (.diverge, evs)

/-- The events of a call of `MergePoints`, in order (the last loop, over `seen`, visits
nothing and looks nothing up). -/
def MergePointsEvents (r : Repository) (mainLine : List Commit) : List Event :=
  (mainLoopT r mainLine (buildMainLinePos mainLine 0 []) (r.length + 1) mainLine.length
    ⟨[], []⟩).2

/-- The hashes of the visits that did not return at once, in order. -/
def nonTrivialVisits (r : Repository) (mainLine : List Commit) : List Hash :=
  (MergePointsEvents r mainLine).filterMap fun
    | .mark h => some h
    | .lookup _ => none

/-- The hashes the store was asked to resolve, in order. -/
def storeLookups (r : Repository) (mainLine : List Commit) : List Hash :=
  (MergePointsEvents r mainLine).filterMap fun
    | .mark _ => none
    | .lookup h => some h

/-- The distinct hashes of the store. -/
def storeHashes (r : Repository) : List Hash := (r.map Prod.fst).dedup

/-- The events of non-trivial visits of the hashes `new`, each with its lookup. -/
def eventsOf (new : List Hash) : List Event :=
  new.flatMap fun k => [.mark k, .lookup k]

/-- What the events of a run of visits from `roots` are, by outcome: the visits that do
not return at once take distinct unmarked off-chain hashes that the roots reach, each
is looked up once, and the store resolves all of them but the last one of a failing
run. -/
def TraceSpec (r : Repository) (mainLine : List Commit) (roots : Hash → Prop)
    (st : VisitState) (res : Outcome VisitState × List Event) : Prop :=
  ∃ new : List Hash, res.2 = eventsOf new ∧ new.Nodup ∧
    (∀ k ∈ new, mapGet st.earliestMergePoints k = none ∧ ¬ OnChain mainLine k ∧
      ∃ h, roots h ∧ Relation.ReflTransGen (OffStep r mainLine) h k) ∧
    match res.1 with
    | .ok st1 => ∀ k ∈ new, (mapGet st1.earliestMergePoints k).isSome ∧
        ∃ c, CommitObject r k = .ok c
    | .error _ => ∃ front last, new = front ++ [last] ∧
        (∀ k ∈ front, ∃ c, CommitObject r k = .ok c) ∧
        ∃ err, CommitObject r last = .error err
    | .panic => True
    | .diverge => True

/-- The hash `h` is a parent hash of a commit of the chain. -/
def ChainParent (mainLine : List Commit) (h : Hash) : Prop :=
  ∃ (p : Nat) (c : Commit), mainLine[p]? = some c ∧ h ∈ c.ParentHashes

/-- A store without objects and a chain whose only commit names a parent. -/
def orphanChain : List Commit := [mkCommit 1 [5]]

/-- A store with a cycle, 10 and 11 being parents of each other, reached from the chain
commit 1. -/
def cyclicRepo : Repository := storeOf [mkCommit 1 [10], mkCommit 10 [11], mkCommit 11 [10]]

/-- The chain of `cyclicRepo`. -/
def cyclicChain : List Commit := [mkCommit 1 [10]]

/-! ## The printed lookup table of `collapsed-kube-commit-mapper` -/

/-- The comparison `a <= b` of Go strings: lexicographic in the bytes, which on UTF-8
text is lexicographic in the code points. -/
def stringLE (a b : String) : Prop := a.data ≤ b.data

instance decidableStringLE (a b : String) : Decidable (stringLE a b) := by
  unfold stringLE; infer_instance

/-- The comparison `a < b` of Go strings. -/
def stringLT (a b : String) : Prop := a.data < b.data

/-- The call `sort.Strings(lines)`: the lines in increasing order. -/
def sortStrings (lines : List String) : List String :=
  lines.insertionSort stringLE

/-- The line `fmt.Sprintf("%s %s", kh, dh)` of an entry of the table. -/
def entryLine (e : Hash × Hash) : String := hashString e.1 ++ " " ++ hashString e.2

/-- The lines `main` prints without `-l` for the correspondence table whose entries the
loop `for kh, dh := range sourceCommitToDstCommits` meets in the order `entries`. -/
def printedLines (entries : List (Hash × Hash)) : List String :=
  sortStrings (entries.map entryLine)

/-- A correspondence table in which the mainline commits 2 and 1 go to one derived
commit, met by the loop in descending order. -/
def collapsedTable : List (Hash × Hash) := [(3, 8), (2, 7), (1, 7)]

/-- A store cut off below G = 7: the first parent F = 6 of G is missing. -/
def shallowRepo : Repository := storeOf [mkCommit 8 [7], mkCommit 7 [6]]

/-! ## Go maps -/

theorem lookup_filter_ne {β : Type} (m : List (Hash × β)) (k k1 : Hash) (h : k1 ≠ k) :
    List.lookup k1 (m.filter (fun e => e.1 != k)) = List.lookup k1 m := by
  induction m with
  | nil => rfl
  | cons e m ih =>
    obtain ⟨a, b⟩ := e
    rw [List.filter_cons]
    by_cases ha : a = k
    · subst ha
      have hk : (k1 == a) = false := by simpa using h
      simp [List.lookup, hk, ih]
    · have hne : ((a, b).1 != k) = true := by simpa using ha
      rw [if_pos hne]
      simp only [List.lookup_cons, ih]

theorem mapGet_mapSet {β : Type} (m : GoMap β) (k k1 : Hash) (v : β) :
    mapGet (mapSet m k v) k1 = if k1 = k then some v else mapGet m k1 := by
  unfold mapGet mapSet
  by_cases h : k1 = k
  · subst h; simp [List.lookup]
  · have hb : (k1 == k) = false := by simpa using h
    simp only [List.lookup_cons, hb, if_neg h]
    exact lookup_filter_ne m k k1 h

theorem mem_mapSet {β : Type} (m : GoMap β) (k : Hash) (v : β) (e : Hash × β) :
    e ∈ mapSet m k v ↔ e = (k, v) ∨ (e ∈ m ∧ e.1 ≠ k) := by
  simp [mapSet, List.mem_filter]

theorem mapGet_isSome_of_mem {β : Type} (m : GoMap β) (k : Hash) (v : β)
    (h : (k, v) ∈ m) : (mapGet m k).isSome := by
  unfold mapGet
  induction m with
  | nil => simp at h
  | cons e m ih =>
    obtain ⟨a, b⟩ := e
    by_cases hk : k = a
    · subst hk; simp [List.lookup]
    · have hb : (k == a) = false := by simpa using hk
      simp only [List.lookup, hb]
      apply ih
      rcases List.mem_cons.1 h with h1 | h1
      · exact absurd (congrArg Prod.fst h1) hk
      · exact h1

theorem mem_of_mapGet {β : Type} (m : GoMap β) (k : Hash) (v : β)
    (h : mapGet m k = some v) : (k, v) ∈ m := by
  unfold mapGet at h
  induction m with
  | nil => simp [List.lookup] at h
  | cons e m ih =>
    obtain ⟨a, b⟩ := e
    by_cases hk : k = a
    · subst hk
      simp [List.lookup] at h
      simp [h]
    · have hb : (k == a) = false := by simpa using hk
      simp only [List.lookup, hb] at h
      exact List.mem_cons_of_mem _ (ih h)

/-! ## The store and the budget -/

theorem CommitObject_ok_mem {r : Repository} {h : Hash} {c : Commit}
    (hc : CommitObject r h = .ok c) : (h, c) ∈ r := by
  unfold CommitObject at hc
  cases hl : List.lookup h r with
  | none => simp [hl] at hc
  | some c1 =>
    simp only [hl, Except.ok.injEq] at hc
    subst hc
    exact mem_of_mapGet r h c1 hl

theorem countP_lt_of_witness {α : Type} (p q : α → Bool) (l : List α)
    (hpq : ∀ x ∈ l, p x = true → q x = true)
    (hw : ∃ x ∈ l, q x = true ∧ p x = false) : l.countP p < l.countP q := by
  induction l with
  | nil => obtain ⟨x, hx, _⟩ := hw; simp at hx
  | cons a l ih =>
    obtain ⟨x, hx, hqx, hpx⟩ := hw
    have hmono : l.countP p ≤ l.countP q :=
      List.countP_mono_left fun y hy => hpq y (List.mem_cons_of_mem _ hy)
    rcases List.mem_cons.1 hx with rfl | hxl
    · rw [List.countP_cons_of_pos _ _ hqx, List.countP_cons_of_neg _ _ (by simp [hpx])]
      omega
    · have ih1 := ih (fun y hy => hpq y (List.mem_cons_of_mem _ hy)) ⟨x, hxl, hqx, hpx⟩
      by_cases hpa : p a = true
      · rw [List.countP_cons_of_pos _ _ hpa,
          List.countP_cons_of_pos _ _ (hpq a (List.mem_cons_self _ _) hpa)]
        omega
      · rw [List.countP_cons_of_neg _ _ hpa]
        by_cases hqa : q a = true
        · rw [List.countP_cons_of_pos _ _ hqa]; omega
        · rw [List.countP_cons_of_neg _ _ hqa]; exact ih1

theorem pending_mono (r : Repository) (em em1 : GoMap Nat)
    (hmono : ∀ k v, mapGet em k = some v → mapGet em1 k = some v) :
    pending r em1 ≤ pending r em := by
  unfold pending
  apply List.countP_mono_left
  intro x _ hx
  cases hg : mapGet em x.1 with
  | none => rfl
  | some v => rw [hmono _ _ hg] at hx; simp at hx

theorem pending_lt (r : Repository) (em em1 : GoMap Nat)
    (hmono : ∀ k v, mapGet em k = some v → mapGet em1 k = some v)
    (k : Hash) (c : Commit) (hk : (k, c) ∈ r) (h0 : mapGet em k = none)
    (h1 : (mapGet em1 k).isSome) : pending r em1 < pending r em := by
  unfold pending
  apply countP_lt_of_witness
  · intro x _ hx
    cases hg : mapGet em x.1 with
    | none => rfl
    | some v => rw [hmono _ _ hg] at hx; simp at hx
  · refine ⟨(k, c), hk, by simp [h0], ?_⟩
    cases hg : mapGet em1 k with
    | none => simp [hg] at h1
    | some v => simp [hg]

theorem pending_le_length (r : Repository) (em : GoMap Nat) : pending r em ≤ r.length :=
  List.countP_le_length _

/-! ## The visits -/

theorem VisitPost.of_done (r : Repository) (mainLine : List Commit) (pos : Nat)
    (roots : Hash → Prop) (st : VisitState)
    (hd : ∀ h, roots h → OnChain mainLine h ∨ (mapGet st.earliestMergePoints h).isSome) :
    VisitPost r mainLine pos roots st st where
  mono := fun _ _ h => h
  fresh := fun k v h0 h1 => by rw [h0] at h1; cases h1
  seen_iff := fun e => by
    constructor
    · exact Or.inl
    · rintro (h | ⟨h0, h1, _⟩)
      · exact h
      · rw [h0] at h1; cases h1
  done := hd

theorem VisitPost.isSome_mono {r : Repository} {mainLine : List Commit} {pos : Nat}
    {roots : Hash → Prop} {st st1 : VisitState}
    (hp : VisitPost r mainLine pos roots st st1) (k : Hash)
    (h : (mapGet st.earliestMergePoints k).isSome) :
    (mapGet st1.earliestMergePoints k).isSome := by
  cases hg : mapGet st.earliestMergePoints k with
  | none => rw [hg] at h; cases h
  | some v => rw [hp.mono k v hg]; rfl

theorem VisitPost.seenMarked {r : Repository} {mainLine : List Commit} {pos : Nat}
    {roots : Hash → Prop} {st st1 : VisitState}
    (hp : VisitPost r mainLine pos roots st st1) (hs : SeenMarked st) : SeenMarked st1 := by
  intro e he
  rcases (hp.seen_iff e).1 he with h | ⟨_, h, _⟩
  · exact hp.isSome_mono _ (hs e h)
  · exact h

theorem VisitPost.trans {r : Repository} {mainLine : List Commit} {pos : Nat}
    {R R1 R2 : Hash → Prop} {st st1 st2 : VisitState}
    (hR : ∀ h, R h ↔ R1 h ∨ R2 h)
    (h1 : VisitPost r mainLine pos R1 st st1) (h2 : VisitPost r mainLine pos R2 st1 st2) :
    VisitPost r mainLine pos R st st2 where
  mono := fun k v h => h2.mono k v (h1.mono k v h)
  fresh := fun k v h0 hv => by
    cases hg : mapGet st1.earliestMergePoints k with
    | none =>
      obtain ⟨e1, e2, ⟨h, hh, hp⟩, e4⟩ := h2.fresh k v hg hv
      exact ⟨e1, e2, ⟨h, (hR h).2 (Or.inr hh), hp⟩, e4⟩
    | some w =>
      obtain ⟨e1, e2, ⟨h, hh, hp⟩, c, hc, hcl⟩ := h1.fresh k w h0 hg
      have hvw : v = w := by
        have := h2.mono k w hg
        rw [hv] at this
        exact Option.some.inj this
      refine ⟨hvw ▸ e1, e2, ⟨h, (hR h).2 (Or.inl hh), hp⟩, c, hc, ?_⟩
      intro ph hph
      rcases hcl ph hph with h3 | h3
      · exact Or.inl h3
      · exact Or.inr (h2.isSome_mono _ h3)
  seen_iff := fun e => by
    rw [h2.seen_iff, h1.seen_iff]
    constructor
    · rintro ((h | ⟨a, b, c⟩) | ⟨a, b, c⟩)
      · exact Or.inl h
      · exact Or.inr ⟨a, h2.isSome_mono _ b, c⟩
      · refine Or.inr ⟨?_, b, c⟩
        cases hg : mapGet st.earliestMergePoints e.1 with
        | none => rfl
        | some v => rw [h1.mono _ _ hg] at a; cases a
    · rintro (h | ⟨a, b, c⟩)
      · exact Or.inl (Or.inl h)
      · cases hg : mapGet st1.earliestMergePoints e.1 with
        | none => exact Or.inr ⟨rfl, b, c⟩
        | some v => exact Or.inl (Or.inr ⟨a, by simp, c⟩)
  done := fun h hh => by
    rcases (hR h).1 hh with h3 | h3
    · rcases h1.done h h3 with h4 | h4
      · exact Or.inl h4
      · exact Or.inr (h2.isSome_mono _ h4)
    · exact h2.done h h3

theorem forParents_spec (r : Repository) (mainLine : List Commit) (pos budget : Nat)
    (f : Hash → VisitState → Outcome VisitState)
    (hf : ∀ h st, SeenMarked st → VisitSpec r mainLine pos budget (· = h) st (f h st)) :
    ∀ phs st, SeenMarked st →
      VisitSpec r mainLine pos budget (· ∈ phs) st (forParents f phs st) := by
  intro phs
  induction phs with
  | nil =>
    intro st _
    exact VisitPost.of_done r mainLine pos _ st (fun h hh => by simp at hh)
  | cons ph phs ih =>
    intro st hs
    have h1 := hf ph st hs
    unfold forParents
    cases hv : f ph st with
    | ok st1 =>
      rw [hv] at h1
      have h1p : VisitPost r mainLine pos (· = ph) st st1 := h1
      have h2 := ih st1 (h1p.seenMarked hs)
      simp only
      cases hw : forParents f phs st1 with
      | ok st2 =>
        rw [hw] at h2
        exact VisitPost.trans (fun h => by simp) h1p h2
      | error e =>
        rw [hw] at h2
        obtain ⟨h, k, err, hh, rest⟩ := h2
        exact ⟨h, k, err, List.mem_cons_of_mem _ hh, rest⟩
      | panic => rw [hw] at h2; exact h2
      | diverge =>
        rw [hw] at h2
        exact le_trans h2 (pending_mono r _ _ h1p.mono)
    | error e =>
      rw [hv] at h1
      obtain ⟨h, k, err, hh, rest⟩ := h1
      exact ⟨h, k, err, by simp [hh], rest⟩
    | panic => rw [hv] at h1; exact h1
    | diverge => rw [hv] at h1; exact h1

theorem visit_spec (r : Repository) (mainLine : List Commit) (mainLinePos : GoMap Nat)
    (hmlp : ∀ h, (mapGet mainLinePos h).isSome ↔ OnChain mainLine h) (pos : Nat) :
    ∀ fuel h st, SeenMarked st →
      VisitSpec r mainLine pos fuel (· = h) st (visit r mainLinePos fuel pos h st) := by
  intro fuel
  induction fuel with
  | zero =>
    intro h st _
    show 0 ≤ pending r st.earliestMergePoints
    exact Nat.zero_le _
  | succ fuel ih =>
    intro h st hs
    unfold visit
    by_cases hon : (mapGet mainLinePos h).isSome
    · rw [if_pos hon]
      exact VisitPost.of_done r mainLine pos _ st
        (fun k hk => Or.inl (by subst hk; exact (hmlp _).1 hon))
    rw [if_neg hon]
    by_cases hseen : (mapGet st.earliestMergePoints h).isSome
    · rw [if_pos hseen]
      exact VisitPost.of_done r mainLine pos _ st (fun k hk => Or.inr (by subst hk; exact hseen))
    rw [if_neg hseen]
    have hoff : ¬ OnChain mainLine h := fun hc => hon ((hmlp _).2 hc)
    have hnone : mapGet st.earliestMergePoints h = none := by
      cases hg : mapGet st.earliestMergePoints h with
      | none => rfl
      | some v => rw [hg] at hseen; exact absurd rfl hseen
    have hnoseen : mapGet st.seen h = none := by
      cases hg : mapGet st.seen h with
      | none => rfl
      | some c =>
        have := hs _ (mem_of_mapGet _ _ _ hg)
        rw [hnone] at this; cases this
    simp only [hnoseen]
    cases hc : CommitObject r h with
    | error err =>
      exact ⟨h, h, err, rfl, Relation.ReflTransGen.refl, hoff, hc, rfl⟩
    | ok c =>
      simp only
      let st2 : VisitState :=
        { earliestMergePoints := mapSet st.earliestMergePoints h pos
          seen := mapSet st.seen h c }
      have hget2 : ∀ k, mapGet st2.earliestMergePoints k =
          if k = h then some pos else mapGet st.earliestMergePoints k :=
        fun k => mapGet_mapSet _ _ _ _
      have hmono2 : ∀ k v, mapGet st.earliestMergePoints k = some v →
          mapGet st2.earliestMergePoints k = some v := by
        intro k v hk
        rw [hget2]
        by_cases hkh : k = h
        · subst hkh; rw [hnone] at hk; cases hk
        · rw [if_neg hkh]; exact hk
      have hs2 : SeenMarked st2 := by
        intro e he
        rw [hget2]
        rcases (mem_mapSet _ _ _ _).1 he with h1 | ⟨h1, h2⟩
        · subst h1; simp
        · rw [if_neg h2]; exact hs e h1
      have hrec := forParents_spec r mainLine pos fuel (visit r mainLinePos fuel pos)
        (fun k st hst => ih k st hst) c.ParentHashes st2 hs2
      show VisitSpec r mainLine pos (fuel + 1) (· = h) st
        (forParents (visit r mainLinePos fuel pos) c.ParentHashes st2)
      cases hw : forParents (visit r mainLinePos fuel pos) c.ParentHashes st2 with
      | ok st3 =>
        rw [hw] at hrec
        have hp : VisitPost r mainLine pos (· ∈ c.ParentHashes) st2 st3 := hrec
        have hh3 : mapGet st3.earliestMergePoints h = some pos :=
          hp.mono h pos (by rw [hget2]; simp)
        refine ⟨fun k v hk => hp.mono k v (hmono2 k v hk), ?_, ?_, ?_⟩
        · intro k v h0 hv
          by_cases hkh : k = h
          · subst hkh
            rw [hh3] at hv
            refine ⟨(Option.some.inj hv).symm, hoff, ⟨k, rfl, Relation.ReflTransGen.refl⟩,
              c, hc, hp.done⟩
          · have h02 : mapGet st2.earliestMergePoints k = none := by
              rw [hget2, if_neg hkh]; exact h0
            obtain ⟨e1, e2, ⟨ph, hph, hpath⟩, e4⟩ := hp.fresh k v h02 hv
            exact ⟨e1, e2, ⟨h, rfl, Relation.ReflTransGen.head ⟨hoff, c, hc, hph⟩ hpath⟩, e4⟩
        · intro e
          rw [hp.seen_iff, mem_mapSet, hget2]
          constructor
          · rintro ((h1 | ⟨h1, _⟩) | ⟨a, b, d⟩)
            · subst h1
              exact Or.inr ⟨hnone, by rw [hh3]; rfl, hc⟩
            · exact Or.inl h1
            · by_cases hkh : e.1 = h
              · rw [if_pos hkh] at a; cases a
              · rw [if_neg hkh] at a; exact Or.inr ⟨a, b, d⟩
          · rintro (h1 | ⟨a, b, d⟩)
            · refine Or.inl (Or.inr ⟨h1, ?_⟩)
              intro hkh
              have := hs e h1
              rw [hkh, hnone] at this; cases this
            · by_cases hkh : e.1 = h
              · left; left
                rw [hkh, hc] at d
                have hd : c = e.2 := Except.ok.inj d
                exact Prod.ext hkh hd.symm
              · exact Or.inr ⟨by rw [if_neg hkh]; exact a, b, d⟩
        · intro k hk
          subst hk
          exact Or.inr (by rw [hh3]; rfl)
      | error e =>
        rw [hw] at hrec
        obtain ⟨ph, k, err, hph, hpath, rest⟩ := hrec
        exact ⟨h, k, err, rfl, Relation.ReflTransGen.head ⟨hoff, c, hc, hph⟩ hpath, rest⟩
      | panic => rw [hw] at hrec; exact hrec
      | diverge =>
        rw [hw] at hrec
        have hle : fuel ≤ pending r st2.earliestMergePoints := hrec
        have hlt : pending r st2.earliestMergePoints < pending r st.earliestMergePoints :=
          pending_lt r _ _ hmono2 h c (CommitObject_ok_mem hc) hnone
            (by rw [hget2]; simp)
        show fuel + 1 ≤ pending r st.earliestMergePoints
        omega

/-! ## The loop over the chain -/

theorem onChain_of_getElem? {mainLine : List Commit} {i : Nat} {c : Commit}
    (h : mainLine[i]? = some c) : OnChain mainLine c.Hash :=
  List.mem_map.2 ⟨c, List.getElem?_mem h, rfl⟩

theorem buildMainLinePos_isSome (mainLine : List Commit) :
    ∀ (i : Nat) (m : GoMap Nat) (h : Hash),
      (mapGet (buildMainLinePos mainLine i m) h).isSome ↔
        (mapGet m h).isSome ∨ OnChain mainLine h := by
  induction mainLine with
  | nil => intro i m h; simp [buildMainLinePos, OnChain]
  | cons c cs ih =>
    intro i m h
    rw [buildMainLinePos, ih, mapGet_mapSet]
    unfold OnChain at *
    by_cases hh : h = c.Hash
    · simp [hh]
    · simp [hh]

theorem isSome_of_eq_some {β : Type} {o : Option β} {v : β} (h : o = some v) : o.isSome := by
  rw [h]; rfl

theorem LoopInv.complete {r : Repository} {mainLine : List Commit} {q : Nat}
    {st : VisitState} (hinv : LoopInv r mainLine q st) (p : Nat) (h : Hash) (hq : q ≤ p)
    (hr : SideReach r mainLine p h) : (mapGet st.earliestMergePoints h).isSome := by
  obtain ⟨c, hc, ph, hph, hpath, hoff⟩ := hr
  have hstart := hinv.proc p c hq hc ph hph
  clear hc hph
  revert hstart
  refine Relation.ReflTransGen.head_induction_on hpath ?_ ?_
  · intro hstart
    rcases hstart with h1 | h1
    · exact absurd h1 hoff
    · exact h1
  · intro a b hstep _ ih hstart
    apply ih
    obtain ⟨hoffa, c1, hc1, hb⟩ := hstep
    rcases hstart with h1 | h1
    · exact absurd h1 hoffa
    · cases hg : mapGet st.earliestMergePoints a with
      | none => rw [hg] at h1; cases h1
      | some v =>
        obtain ⟨_, _, _, c2, hc2, hcl⟩ := hinv.side a v hoffa hg
        rw [hc1] at hc2
        have : c1 = c2 := Except.ok.inj hc2
        subst this
        exact hcl b hb

theorem LoopInv.init (r : Repository) (mainLine : List Commit) :
    LoopInv r mainLine mainLine.length ⟨[], []⟩ where
  chain := fun i c hi hc => by
    rw [List.getElem?_eq_none hi] at hc; cases hc
  onChain := fun k v _ h => by simp [mapGet] at h
  side := fun k v _ h => by simp [mapGet] at h
  proc := fun p c hp hc => by
    rw [List.getElem?_eq_none hp] at hc; cases hc
  seen := fun e he => by simp at he
  seen_side := fun k c _ h => by simp [mapGet] at h

theorem LoopInv.step {r : Repository} {mainLine : List Commit} {p : Nat}
    {st st2 : VisitState} {cp : Commit} (hinv : LoopInv r mainLine (p + 1) st)
    (hcp : mainLine[p]? = some cp)
    (hpost : VisitPost r mainLine p (· ∈ cp.ParentHashes)
      { earliestMergePoints := mapSet st.earliestMergePoints cp.Hash p
        seen := mapSet st.seen cp.Hash cp } st2) :
    LoopInv r mainLine p st2 := by
  have hcpOn : OnChain mainLine cp.Hash := onChain_of_getElem? hcp
  have hget1 : ∀ k, mapGet (mapSet st.earliestMergePoints cp.Hash p) k =
      if k = cp.Hash then some p else mapGet st.earliestMergePoints k :=
    fun k => mapGet_mapSet _ _ _ _
  have hmono : ∀ k, (mapGet st.earliestMergePoints k).isSome →
      (mapGet st2.earliestMergePoints k).isSome := by
    intro k hk
    apply hpost.isSome_mono
    show (mapGet (mapSet st.earliestMergePoints cp.Hash p) k).isSome
    rw [hget1]
    by_cases hkc : k = cp.Hash
    · simp [hkc]
    · rw [if_neg hkc]; exact hk
  have hmonov : ∀ k v, k ≠ cp.Hash → mapGet st.earliestMergePoints k = some v →
      mapGet st2.earliestMergePoints k = some v := by
    intro k v hkc hk
    apply hpost.mono
    show mapGet (mapSet st.earliestMergePoints cp.Hash p) k = some v
    rw [hget1, if_neg hkc]; exact hk
  have hcp2 : mapGet st2.earliestMergePoints cp.Hash = some p := by
    apply hpost.mono
    show mapGet (mapSet st.earliestMergePoints cp.Hash p) cp.Hash = some p
    rw [hget1, if_pos rfl]
  have hseen1 : ∀ e, e ∈ st.seen → e.1 ≠ cp.Hash → e ∈ st2.seen := by
    intro e he hne
    exact (hpost.seen_iff e).2 (Or.inl ((mem_mapSet _ _ _ _).2 (Or.inr ⟨he, hne⟩)))
  have hcpseen : (cp.Hash, cp) ∈ st2.seen :=
    (hpost.seen_iff _).2 (Or.inl ((mem_mapSet _ _ _ _).2 (Or.inl rfl)))
  refine ⟨?_, ?_, ?_, ?_, ?_, ?_⟩
  · intro i c hi hc
    by_cases hh : c.Hash = cp.Hash
    · exact ⟨p, cp, le_refl _, hi, hcp, hh.symm, by rw [hh]; exact hcp2, by rw [hh]; exact hcpseen⟩
    · have hip : p + 1 ≤ i := by
        rcases Nat.lt_or_ge p i with h1 | h1
        · exact h1
        · have : i = p := le_antisymm h1 hi
          subst this
          rw [hcp] at hc
          exact absurd (congrArg Commit.Hash (Option.some.inj hc)).symm hh
      obtain ⟨j, cj, hj1, hj2, hj3, hj4, hj5, hj6⟩ := hinv.chain i c hip hc
      exact ⟨j, cj, by omega, hj2, hj3, hj4, hmonov _ _ hh hj5, hseen1 _ hj6 hh⟩
  · intro k v hk hv
    cases hg : mapGet (mapSet st.earliestMergePoints cp.Hash p) k with
    | none => exact absurd hk (hpost.fresh k v hg hv).2.1
    | some w =>
      have hvw : v = w := by
        have := hpost.mono k w hg
        rw [hv] at this
        exact Option.some.inj this
      subst hvw
      rw [hget1] at hg
      by_cases hkc : k = cp.Hash
      · rw [if_pos hkc] at hg
        have : p = v := Option.some.inj hg
        subst this
        exact ⟨le_refl _, cp, hcp, hkc.symm⟩
      · rw [if_neg hkc] at hg
        obtain ⟨h1, h2⟩ := hinv.onChain k v hk hg
        exact ⟨by omega, h2⟩
  · intro k v hk hv
    have hkc : k ≠ cp.Hash := fun h => hk (h ▸ hcpOn)
    cases hg : mapGet st.earliestMergePoints k with
    | none =>
      have hg1 : mapGet (mapSet st.earliestMergePoints cp.Hash p) k = none := by
        rw [hget1, if_neg hkc]; exact hg
      obtain ⟨e1, _, ⟨ph, hph, hpath⟩, e4⟩ := hpost.fresh k v hg1 hv
      subst e1
      refine ⟨le_refl _, ⟨cp, hcp, ph, hph, hpath, hk⟩, ?_, e4⟩
      intro p1 hp1
      by_contra hlt
      have := hinv.complete p1 k (by omega) hp1
      rw [hg] at this; cases this
    | some w =>
      have hvw : v = w := by
        have := hmonov k w hkc hg
        rw [hv] at this
        exact Option.some.inj this
      subst hvw
      obtain ⟨h1, h2, h3, c, hc, hcl⟩ := hinv.side k v hk hg
      refine ⟨by omega, h2, h3, c, hc, ?_⟩
      intro ph hph
      rcases hcl ph hph with h4 | h4
      · exact Or.inl h4
      · exact Or.inr (hmono _ h4)
  · intro p1 c hp1 hc ph hph
    rcases Nat.lt_or_ge p p1 with h1 | h1
    · rcases hinv.proc p1 c h1 hc ph hph with h4 | h4
      · exact Or.inl h4
      · exact Or.inr (hmono _ h4)
    · have : p1 = p := le_antisymm h1 hp1
      subst this
      rw [hcp] at hc
      have : cp = c := Option.some.inj hc
      subst this
      exact hpost.done ph hph
  · intro e he
    rcases (hpost.seen_iff e).1 he with h1 | ⟨h1, h2, h3⟩
    · rcases (mem_mapSet _ _ _ _).1 h1 with h4 | ⟨h4, h5⟩
      · subst h4
        exact ⟨isSome_of_eq_some hcp2, Or.inl ⟨hcpOn, List.getElem?_mem hcp, rfl⟩⟩
      · obtain ⟨h6, h7⟩ := hinv.seen e h4
        exact ⟨hmono _ h6, h7⟩
    · refine ⟨h2, Or.inr ⟨?_, h3⟩⟩
      cases hg : mapGet st2.earliestMergePoints e.1 with
      | none => rw [hg] at h2; cases h2
      | some v => exact (hpost.fresh e.1 v h1 hg).2.1
  · intro k c hk hs hc
    have hkc : k ≠ cp.Hash := fun h => hk (h ▸ hcpOn)
    cases hg : mapGet st.earliestMergePoints k with
    | none =>
      refine (hpost.seen_iff (k, c)).2 (Or.inr ⟨?_, hs, hc⟩)
      show mapGet (mapSet st.earliestMergePoints cp.Hash p) k = none
      rw [hget1, if_neg hkc]; exact hg
    | some v =>
      exact hseen1 (k, c) (hinv.seen_side k c hk (isSome_of_eq_some hg) hc) hkc

theorem mainLoop_spec (r : Repository) (mainLine : List Commit) (mainLinePos : GoMap Nat)
    (hmlp : ∀ h, (mapGet mainLinePos h).isSome ↔ OnChain mainLine h) (fuel : Nat)
    (hfuel : r.length < fuel) :
    ∀ q st, q ≤ mainLine.length → LoopInv r mainLine q st →
      LoopSpec r mainLine (mainLoop r mainLine mainLinePos fuel q st) := by
  intro q
  induction q with
  | zero => intro st _ hinv; exact hinv
  | succ p ih =>
    intro st hq hinv
    unfold mainLoop
    have hp : p < mainLine.length := hq
    rw [List.getElem?_eq_getElem hp]
    simp only
    have hcp : mainLine[p]? = some mainLine[p] := List.getElem?_eq_getElem hp
    generalize mainLine[p] = cp at hcp
    have hs1 : SeenMarked
        { earliestMergePoints := mapSet st.earliestMergePoints cp.Hash p
          seen := mapSet st.seen cp.Hash cp } := by
      intro e he
      show (mapGet (mapSet st.earliestMergePoints cp.Hash p) e.1).isSome
      rw [mapGet_mapSet]
      rcases (mem_mapSet _ _ _ _).1 he with h1 | ⟨h1, h2⟩
      · subst h1; simp
      · rw [if_neg h2]; exact (hinv.seen e h1).1
    have hrec := forParents_spec r mainLine p fuel (visit r mainLinePos fuel p)
      (fun k st hst => visit_spec r mainLine mainLinePos hmlp p fuel k st hst)
      cp.ParentHashes _ hs1
    cases hw : forParents (visit r mainLinePos fuel p) cp.ParentHashes
        { earliestMergePoints := mapSet st.earliestMergePoints cp.Hash p
          seen := mapSet st.seen cp.Hash cp } with
    | ok st2 =>
      rw [hw] at hrec
      exact ih st2 (Nat.le_of_lt hp) (hinv.step hcp hrec)
    | error e =>
      rw [hw] at hrec
      obtain ⟨ph, k, err, hph, hpath, hoff, herr, he⟩ := hrec
      exact ⟨p, k, err, ⟨cp, hcp, ph, hph, hpath, hoff⟩, herr, he⟩
    | panic => rw [hw] at hrec; exact hrec
    | diverge =>
      rw [hw] at hrec
      have h1 : fuel ≤ pending r (mapSet st.earliestMergePoints cp.Hash p) := hrec
      have h2 := pending_le_length r (mapSet st.earliestMergePoints cp.Hash p)
      exact absurd (le_trans h1 h2) (Nat.not_le.2 hfuel)

/-! ## The result table -/

theorem buildResult_ok (mainLine : List Commit) (em : GoMap Nat) :
    ∀ (l : List (Hash × Commit)) (res t : GoMap Commit),
      buildResult mainLine em l res = .ok t →
      (∀ e ∈ l, ∃ m, mainLine[(mapGet em e.2.Hash).getD 0]? = some m ∧
        mapGet t e.2.Hash = some m) ∧
      (∀ k, (∀ e ∈ l, e.2.Hash ≠ k) → mapGet t k = mapGet res k) := by
  intro l
  induction l with
  | nil =>
    intro res t h
    simp only [buildResult, Outcome.ok.injEq] at h
    subst h
    exact ⟨fun e he => by simp at he, fun _ _ => rfl⟩
  | cons e0 rest ih =>
    intro res t h
    obtain ⟨k0, c⟩ := e0
    unfold buildResult at h
    cases hm : mainLine[(mapGet em c.Hash).getD 0]? with
    | none => simp [hm] at h
    | some m =>
      simp only [hm] at h
      obtain ⟨iha, ihb⟩ := ih _ t h
      constructor
      · intro e he
        rcases List.mem_cons.1 he with h1 | h1
        · subst h1
          by_cases hex : ∃ e1 ∈ rest, e1.2.Hash = c.Hash
          · obtain ⟨e1, he1, heq⟩ := hex
            have := iha e1 he1
            rw [heq] at this
            exact this
          · refine ⟨m, hm, ?_⟩
            rw [ihb c.Hash (fun e1 he1 heq => hex ⟨e1, he1, heq⟩), mapGet_mapSet]
            simp
        · exact iha e h1
      · intro k hk
        rw [ihb k (fun e he => hk e (List.mem_cons_of_mem _ he)), mapGet_mapSet]
        have : k ≠ c.Hash := fun h1 => hk (k0, c) (List.mem_cons_self _ _) h1.symm
        rw [if_neg this]

theorem buildResult_total (mainLine : List Commit) (em : GoMap Nat) :
    ∀ (l : List (Hash × Commit)) (res : GoMap Commit),
      (∀ e ∈ l, ∃ m, mainLine[(mapGet em e.2.Hash).getD 0]? = some m) →
      ∃ t, buildResult mainLine em l res = .ok t := by
  intro l
  induction l with
  | nil => intro res _; exact ⟨res, rfl⟩
  | cons e0 rest ih =>
    intro res hv
    obtain ⟨k0, c⟩ := e0
    obtain ⟨m, hm⟩ := hv (k0, c) (List.mem_cons_self _ _)
    unfold buildResult
    simp only [hm]
    exact ih _ (fun e he => hv e (List.mem_cons_of_mem _ he))

theorem LoopInv.index_valid {r : Repository} {mainLine : List Commit} {q : Nat}
    {st : VisitState} (hinv : LoopInv r mainLine q st) (k : Hash) (v : Nat)
    (hv : mapGet st.earliestMergePoints k = some v) : ∃ m, mainLine[v]? = some m := by
  by_cases hk : OnChain mainLine k
  · obtain ⟨_, c, hc, _⟩ := hinv.onChain k v hk hv
    exact ⟨c, hc⟩
  · obtain ⟨_, ⟨c, hc, _⟩, _⟩ := hinv.side k v hk hv
    exact ⟨c, hc⟩

theorem LoopInv.lookup_valid {r : Repository} {mainLine : List Commit} {q : Nat}
    {st : VisitState} (hinv : LoopInv r mainLine q st) (e : Hash × Commit)
    (he : e ∈ st.seen) (k : Hash) :
    ∃ m, mainLine[(mapGet st.earliestMergePoints k).getD 0]? = some m := by
  cases hg : mapGet st.earliestMergePoints k with
  | some v => exact hinv.index_valid k v hg
  | none =>
    have h1 := (hinv.seen e he).1
    cases hg1 : mapGet st.earliestMergePoints e.1 with
    | none => rw [hg1] at h1; cases h1
    | some w =>
      obtain ⟨m, hm⟩ := hinv.index_valid e.1 w hg1
      have hlen : w < mainLine.length := (List.getElem?_eq_some.1 hm).1
      have h0 : 0 < mainLine.length := by omega
      exact ⟨mainLine[0], List.getElem?_eq_getElem h0⟩

theorem LoopInv.no_failure {r : Repository} {mainLine : List Commit} {st : VisitState}
    (hinv : LoopInv r mainLine 0 st) (p : Nat) (h : Hash) (hr : SideReach r mainLine p h) :
    ∃ v c, mapGet st.earliestMergePoints h = some v ∧ CommitObject r h = .ok c := by
  have hs := hinv.complete p h (Nat.zero_le _) hr
  have hoff : ¬ OnChain mainLine h := hr.choose_spec.2.choose_spec.2.2
  cases hg : mapGet st.earliestMergePoints h with
  | none => rw [hg] at hs; cases hs
  | some v =>
    obtain ⟨_, _, _, c, hc, _⟩ := hinv.side h v hoff hg
    exact ⟨v, c, rfl, hc⟩

/-- The two ways a call of `MergePoints` ends: with the table of the final maps, or with
the error of a side-branch hash the store cannot resolve. -/
theorem MergePoints_cases (r : Repository) (mainLine : List Commit) :
    (∃ st table, MergePoints r mainLine = .ok table ∧ LoopInv r mainLine 0 st ∧
      TableOf mainLine st table) ∨
    (∃ e, MergePoints r mainLine = .error e ∧ SideFailure r mainLine e) := by
  have hmlp : ∀ h, (mapGet (buildMainLinePos mainLine 0 []) h).isSome ↔
      OnChain mainLine h := by
    intro h
    rw [buildMainLinePos_isSome]
    simp [mapGet]
  have hloop := mainLoop_spec r mainLine _ hmlp (r.length + 1) (Nat.lt_succ_self _)
    mainLine.length ⟨[], []⟩ (le_refl _) (LoopInv.init r mainLine)
  unfold MergePoints MergePointsFuel
  simp only
  cases hw : mainLoop r mainLine (buildMainLinePos mainLine 0 []) (r.length + 1)
      mainLine.length ⟨[], []⟩ with
  | ok st =>
    rw [hw] at hloop
    have hinv : LoopInv r mainLine 0 st := hloop
    obtain ⟨t, ht⟩ := buildResult_total mainLine st.earliestMergePoints st.seen []
      (fun e he => hinv.lookup_valid e he _)
    obtain ⟨ha, hb⟩ := buildResult_ok mainLine st.earliestMergePoints st.seen [] t ht
    exact Or.inl ⟨st, t, ht, hinv, ha, fun k hk => by rw [hb k hk]; rfl⟩
  | error e =>
    rw [hw] at hloop
    exact Or.inr ⟨e, rfl, hloop⟩
  | panic => rw [hw] at hloop; exact hloop.elim
  | diverge => rw [hw] at hloop; exact hloop.elim

/-! ## Facts about the final maps -/

theorem index_unique {mainLine : List Commit} (hnd : (mainLine.map (·.Hash)).Nodup)
    {i j : Nat} {c d : Commit} (hi : mainLine[i]? = some c) (hj : mainLine[j]? = some d)
    (hh : c.Hash = d.Hash) : i = j := by
  have h1 : (mainLine.map (·.Hash))[i]? = some c.Hash := by
    rw [List.getElem?_map, hi]; rfl
  have h2 : (mainLine.map (·.Hash))[j]? = some c.Hash := by
    rw [List.getElem?_map, hj, hh]; rfl
  obtain ⟨hi1, hi2⟩ := List.getElem?_eq_some.1 h1
  obtain ⟨hj1, hj2⟩ := List.getElem?_eq_some.1 h2
  exact (hnd.getElem_inj_iff).1 (hi2.trans hj2.symm)

theorem table_of_assigned {r : Repository} {mainLine : List Commit} {st : VisitState}
    {table : GoMap Commit} (hinv : LoopInv r mainLine 0 st)
    (ht : TableOf mainLine st table)
    (hcons : ∀ k c, ¬ OnChain mainLine k → CommitObject r k = .ok c → c.Hash = k)
    (x : Hash) (v : Nat) (hx : mapGet st.earliestMergePoints x = some v) :
    ∃ m, mainLine[v]? = some m ∧ mapGet table x = some m := by
  have key : ∃ e ∈ st.seen, e.2.Hash = x := by
    by_cases hon : OnChain mainLine x
    · obtain ⟨_, c, hc, hcx⟩ := hinv.onChain x v hon hx
      obtain ⟨j, cj, _, _, _, h4, _, h6⟩ := hinv.chain v c (Nat.zero_le _) hc
      exact ⟨_, h6, h4.trans hcx⟩
    · obtain ⟨_, _, _, c, hc, _⟩ := hinv.side x v hon hx
      exact ⟨_, hinv.seen_side x c hon (isSome_of_eq_some hx) hc, hcons x c hon hc⟩
  obtain ⟨e, he, hex⟩ := key
  obtain ⟨m, hm1, hm2⟩ := ht.hit e he
  rw [hex, hx] at hm1
  rw [hex] at hm2
  exact ⟨m, hm1, hm2⟩

theorem MergePoints_ok_inv {r : Repository} {mainLine : List Commit} {table : GoMap Commit}
    (hok : MergePoints r mainLine = .ok table) :
    ∃ st, LoopInv r mainLine 0 st ∧ TableOf mainLine st table := by
  rcases MergePoints_cases r mainLine with ⟨st, t, h1, h2, h3⟩ | ⟨e, h1, _⟩
  · rw [hok] at h1
    have : table = t := Outcome.ok.inj h1
    subst this
    exact ⟨st, h2, h3⟩
  · rw [hok] at h1; cases h1

theorem contains_lookupFailure (k : Hash) (err : String) :
    Contains (lookupFailure k err) (hashString k) :=
  ⟨"failed to get ", ": " ++ err, by simp [lookupFailure, String.append_assoc]⟩

/-! ## Evaluation on the example repositories -/

theorem demo_MergePoints : MergePoints demoRepo demoChain = .ok demoTable := by decide

theorem tie_MergePoints : MergePoints tieRepo tieChain = .ok tieTable := by decide

theorem broken_MergePoints : MergePoints brokenRepo demoChain =
    .error "failed to get 0000000000000000000000000000000000000005: object not found" := by
  decide

theorem CommitObject_eq_ok_iff (r : Repository) (h : Hash) (c : Commit) :
    CommitObject r h = .ok c ↔ List.lookup h r = some c := by
  unfold CommitObject
  cases hl : List.lookup h r with
  | none => simp
  | some c1 => simp

theorem storeOf_consistent (cs : List Commit) : StoreConsistent (storeOf cs) := by
  intro h c hc
  have hm := CommitObject_ok_mem hc
  obtain ⟨c1, _, h1⟩ := List.mem_map.1 hm
  have h2 : c1.Hash = h := congrArg Prod.fst h1
  have h3 : c1 = c := congrArg Prod.snd h1
  rw [← h3]; exact h2

theorem hashConsistent_of_stored (cs mainLine : List Commit)
    (h : ∀ c ∈ mainLine, List.lookup c.Hash (storeOf cs) = some c) :
    HashConsistent (storeOf cs) mainLine := by
  refine ⟨storeOf_consistent cs, fun c hc c1 h1 => ?_⟩
  rw [CommitObject_eq_ok_iff, h c hc] at h1
  exact (Option.some.inj h1).symm

/-! ## The first-parent walk -/

theorem FirstParent_ok_some (r : Repository) (c d : Commit) :
    FirstParent r (some c) = .ok (some d) ↔
      ∃ ph, c.ParentHashes.head? = some ph ∧ CommitObject r ph = .ok d := by
  obtain ⟨h, ps, msg⟩ := c
  cases ps with
  | nil => simp [FirstParent]
  | cons ph rest =>
    cases hc : CommitObject r ph with
    | error err => simp [FirstParent, hc]
    | ok p1 => simp [FirstParent, hc]

theorem FirstParent_ok_none (r : Repository) (c : Commit) :
    FirstParent r (some c) = .ok none ↔ c.ParentHashes = [] := by
  obtain ⟨h, ps, msg⟩ := c
  cases ps with
  | nil => simp [FirstParent]
  | cons ph rest =>
    cases hc : CommitObject r ph with
    | error err => simp [FirstParent, hc]
    | ok p1 => simp [FirstParent, hc]

theorem loop_ok_walk (r : Repository) :
    ∀ (fuel : Nat) (acc : List Commit) (c : Option Commit) (l : List Commit),
      FirstParentList.loop r fuel acc c = .ok l →
      ∃ suffix, l = acc ++ suffix ∧ IsFirstParentWalk r suffix c := by
  intro fuel
  induction fuel with
  | zero => intro acc c l h; simp [FirstParentList.loop] at h
  | succ fuel ih =>
    intro acc c l h
    cases c with
    | none =>
      simp only [FirstParentList.loop, Outcome.ok.injEq] at h
      exact ⟨[], by simp [h], rfl⟩
    | some x =>
      unfold FirstParentList.loop at h
      cases hf : FirstParent r (some x) with
      | error err => simp [hf] at h
      | ok next =>
        simp only [hf] at h
        obtain ⟨suffix, h1, h2⟩ := ih _ _ _ h
        exact ⟨x :: suffix, by simp [h1], rfl, next, hf, h2⟩

theorem walk_loop_ok (r : Repository) :
    ∀ (l : List Commit) (fuel : Nat) (acc : List Commit) (c : Option Commit),
      IsFirstParentWalk r l c → l.length < fuel →
      FirstParentList.loop r fuel acc c = .ok (acc ++ l) := by
  intro l
  induction l with
  | nil =>
    intro fuel acc c hw hf
    have hc : c = none := hw
    subst hc
    cases fuel with
    | zero => simp at hf
    | succ fuel => simp [FirstParentList.loop]
  | cons x rest ih =>
    intro fuel acc c hw hf
    obtain ⟨hc, next, hn, hrest⟩ := hw
    subst hc
    cases fuel with
    | zero => simp at hf
    | succ fuel =>
      unfold FirstParentList.loop
      simp only [hn]
      rw [ih fuel (acc ++ [x]) next hrest (by simpa using hf)]
      simp

theorem walk_iff_chain (r : Repository) :
    ∀ (l : List Commit) (start : Option Commit),
      IsFirstParentWalk r l start ↔ IsFirstParentChain r start l := by
  intro l
  induction l with
  | nil =>
    intro start
    constructor
    · intro h
      have hs : start = none := h
      subst hs
      exact ⟨by simp, by simp, by simp, by simp⟩
    · intro h
      exact h.1.1 rfl
  | cons x rest ih =>
    intro start
    constructor
    · rintro ⟨hs, next, hn, hrest⟩
      subst hs
      obtain ⟨h1, h2, h3, h4⟩ := (ih next).1 hrest
      refine ⟨by simp, ?_, ?_, ?_⟩
      · intro s hs
        simp only [Option.some.injEq] at hs
        simp [hs]
      · intro i c d hc hd
        cases i with
        | zero =>
          simp only [List.getElem?_cons_zero, Option.some.injEq] at hc
          subst hc
          simp only [List.getElem?_cons_succ] at hd
          cases next with
          | none => rw [h1.2 rfl] at hd; simp at hd
          | some y =>
            rw [h2 y rfl] at hd
            have : y = d := Option.some.inj hd
            subst this
            exact (FirstParent_ok_some r _ y).1 hn
        | succ i =>
          simp only [List.getElem?_cons_succ] at hc hd
          exact h3 i c d hc hd
      · intro c hc
        cases rest with
        | nil =>
          simp only [List.getLast?_singleton, Option.some.injEq] at hc
          subst hc
          have : next = none := h1.1 rfl
          subst this
          exact (FirstParent_ok_none r x).1 hn
        | cons y rest1 =>
          rw [List.getLast?_cons_cons] at hc
          exact h4 c hc
    · rintro ⟨h1, h2, h3, h4⟩
      cases start with
      | none => exact absurd (h1.2 rfl) (by simp)
      | some s =>
        have hs := h2 s rfl
        simp only [List.getElem?_cons_zero, Option.some.injEq] at hs
        subst hs
        refine ⟨rfl, ?_⟩
        cases rest with
        | nil =>
          refine ⟨none, (FirstParent_ok_none r x).2 (h4 x (by simp)), rfl⟩
        | cons y rest1 =>
          refine ⟨some y, (FirstParent_ok_some r x y).2 (h3 0 x y (by simp) (by simp)), ?_⟩
          apply (ih (some y)).2
          refine ⟨by simp, ?_, ?_, ?_⟩
          · intro s hs
            simp only [Option.some.injEq] at hs
            simp [hs]
          · intro i c d hc hd
            exact h3 (i + 1) c d (by simpa using hc) (by simpa using hd)
          · intro c hc
            apply h4 c
            rw [List.getLast?_cons_cons]
            exact hc

theorem FirstParentList_ok_iff_walk (r : Repository) (start : Option Commit)
    (l : List Commit) :
    (∃ fuel, FirstParentList fuel r start = .ok l) ↔ IsFirstParentWalk r l start := by
  constructor
  · rintro ⟨fuel, h⟩
    obtain ⟨suffix, h1, h2⟩ := loop_ok_walk r fuel [] start l h
    simp only [List.nil_append] at h1
    subst h1
    exact h2
  · intro h
    exact ⟨l.length + 1, by
      have := walk_loop_ok r l (l.length + 1) [] start h (Nat.lt_succ_self _)
      simpa [FirstParentList] using this⟩

/-! ## Paths in the commit graph -/

theorem reaches_of_offPath {r : Repository} {mainLine : List Commit} {a b : Hash}
    (h : Relation.ReflTransGen (OffStep r mainLine) a b) : Reaches r a b :=
  Relation.ReflTransGen.mono (fun _ _ hs => hs.2) h

theorem parent_of_next {r : Repository} {mainLine : List Commit}
    (hv : ValidChain r mainLine) {i : Nat} {c d : Commit} (hc : mainLine[i]? = some c)
    (hd : mainLine[i + 1]? = some d) : Parent r c.Hash d.Hash :=
  ⟨c, hv.1 c (List.getElem?_mem hc), List.mem_of_mem_head? (hv.2 i c d hc hd)⟩

theorem chain_descends {r : Repository} {mainLine : List Commit}
    (hv : ValidChain r mainLine) {i : Nat} {c : Commit} (hc : mainLine[i]? = some c) :
    ∀ (n : Nat) (d : Commit), mainLine[i + n + 1]? = some d →
      Relation.TransGen (Parent r) c.Hash d.Hash := by
  intro n
  induction n with
  | zero => intro d hd; exact Relation.TransGen.single (parent_of_next hv hc hd)
  | succ n ih =>
    intro d hd
    have hlen : i + (n + 1) + 1 < mainLine.length := (List.getElem?_eq_some.1 hd).1
    have hlen1 : i + n + 1 < mainLine.length := by omega
    have hm : mainLine[i + n + 1]? = some mainLine[i + n + 1] :=
      List.getElem?_eq_getElem hlen1
    exact Relation.TransGen.tail (ih _ hm) (parent_of_next hv hm hd)

theorem chain_descends_lt {r : Repository} {mainLine : List Commit}
    (hv : ValidChain r mainLine) {i j : Nat} {c d : Commit} (hij : i < j)
    (hc : mainLine[i]? = some c) (hd : mainLine[j]? = some d) :
    Relation.TransGen (Parent r) c.Hash d.Hash := by
  obtain ⟨n, hn⟩ : ∃ n, j = i + n + 1 := ⟨j - i - 1, by omega⟩
  subst hn
  exact chain_descends hv hc n d hd

theorem chain_order {r : Repository} {mainLine : List Commit} (hacyc : Acyclic r)
    (hv : ValidChain r mainLine) {q j : Nat} {cq cj : Commit}
    (hq : mainLine[q]? = some cq) (hj : mainLine[j]? = some cj)
    (hr : Reaches r cq.Hash cj.Hash) : q ≤ j := by
  by_contra hlt
  have h1 := chain_descends_lt hv (Nat.lt_of_not_le hlt) hj hq
  exact hacyc _ (h1.trans_left hr)

theorem chain_index_unique {r : Repository} {mainLine : List Commit} (hacyc : Acyclic r)
    (hv : ValidChain r mainLine) {i j : Nat} {c d : Commit}
    (hi : mainLine[i]? = some c) (hj : mainLine[j]? = some d) (hh : c.Hash = d.Hash) :
    i = j := by
  apply le_antisymm
  · exact chain_order hacyc hv hi hj (by rw [hh]; exact Relation.ReflTransGen.refl)
  · exact chain_order hacyc hv hj hi (by rw [hh]; exact Relation.ReflTransGen.refl)

theorem path_split {r : Repository} {mainLine : List Commit} {a h : Hash}
    (hr : Reaches r a h) :
    Relation.ReflTransGen (OffStep r mainLine) a h ∨
    ∃ b ph, OnChain mainLine b ∧ Reaches r a b ∧ Parent r b ph ∧
      Relation.ReflTransGen (OffStep r mainLine) ph h := by
  refine Relation.ReflTransGen.head_induction_on hr ?_ ?_
  · exact Or.inl Relation.ReflTransGen.refl
  · intro a c hac _ ih
    rcases ih with h1 | ⟨b, ph, h1, h2, h3, h4⟩
    · by_cases hon : OnChain mainLine a
      · exact Or.inr ⟨a, c, hon, Relation.ReflTransGen.refl, hac, h1⟩
      · exact Or.inl (Relation.ReflTransGen.head ⟨hon, hac⟩ h1)
    · exact Or.inr ⟨b, ph, h1, Relation.ReflTransGen.head hac h2, h3, h4⟩

theorem sideReach_of_reaches {r : Repository} {mainLine : List Commit}
    (hv : ValidChain r mainLine) {a h : Hash} (ha : OnChain mainLine a)
    (hoff : ¬ OnChain mainLine h) (hr : Reaches r a h) :
    ∃ j cj, mainLine[j]? = some cj ∧ Reaches r a cj.Hash ∧ SideReach r mainLine j h := by
  rcases @path_split r mainLine a h hr with h1 | ⟨b, ph, h1, h2, h3, h4⟩
  · rcases Relation.ReflTransGen.cases_head h1 with h2 | ⟨c, h2, _⟩
    · exact absurd (h2 ▸ ha) hoff
    · exact absurd ha h2.1
  · obtain ⟨cb, hcb, hb⟩ := List.mem_map.1 h1
    obtain ⟨j, hj⟩ := List.mem_iff_getElem?.1 hcb
    have hb1 : cb.Hash = b := hb
    obtain ⟨c1, hc1, hph⟩ := h3
    have hc2 := hv.1 cb hcb
    rw [hb1, hc1] at hc2
    have : c1 = cb := Except.ok.inj hc2
    subst this
    exact ⟨j, c1, hj, hb1 ▸ h2, c1, hj, ph, hph, h4, hoff⟩

theorem reaches_of_sideReach {r : Repository} {mainLine : List Commit}
    (hv : ValidChain r mainLine) {j : Nat} {cj : Commit} {h : Hash}
    (hj : mainLine[j]? = some cj) (hs : SideReach r mainLine j h) :
    Reaches r cj.Hash h := by
  obtain ⟨c, hc, ph, hph, hpath, _⟩ := hs
  rw [hj] at hc
  have : cj = c := Option.some.inj hc
  subst this
  exact Relation.ReflTransGen.head ⟨cj, hv.1 cj (List.getElem?_mem hj), hph⟩
    (reaches_of_offPath hpath)

/-- On a first-parent chain of an acyclic store, the position recorded for a hash is the
largest chain index from which the hash is reached. -/
theorem recorded_position_is_oldest {r : Repository} {mainLine : List Commit}
    {st : VisitState} (hacyc : Acyclic r) (hv : ValidChain r mainLine)
    (hinv : LoopInv r mainLine 0 st) (x : Hash) (v : Nat)
    (hx : mapGet st.earliestMergePoints x = some v) :
    ∃ cv, mainLine[v]? = some cv ∧ Reaches r cv.Hash x ∧
      ∀ q cq, mainLine[q]? = some cq → Reaches r cq.Hash x → q ≤ v := by
  by_cases hon : OnChain mainLine x
  · obtain ⟨_, c, hc, hcx⟩ := hinv.onChain x v hon hx
    refine ⟨c, hc, by rw [hcx]; exact Relation.ReflTransGen.refl, ?_⟩
    intro q cq hq hr
    exact chain_order hacyc hv hq hc (by rw [hcx]; exact hr)
  · obtain ⟨_, hs, hmax, _⟩ := hinv.side x v hon hx
    obtain ⟨cv, hcv, _⟩ := hs
    refine ⟨cv, hcv, reaches_of_sideReach hv hcv ⟨cv, hcv, ‹_›⟩, ?_⟩
    intro q cq hq hr
    obtain ⟨j, cj, hj, hqj, hside⟩ := sideReach_of_reaches hv (onChain_of_getElem? hq) hon hr
    have h1 : q ≤ j := chain_order hacyc hv hq hj hqj
    have h2 : j ≤ v := hmax j hside
    omega

theorem walk_valid (r : Repository) (hcons : StoreConsistent r) :
    ∀ (l : List Commit) (c : Commit), IsFirstParentWalk r l (some c) →
      CommitObject r c.Hash = .ok c → ValidChain r l := by
  intro l
  induction l with
  | nil => intro c h _; cases h
  | cons x rest ih =>
    intro c hw hc
    obtain ⟨hcx, next, hn, hrest⟩ := hw
    have : c = x := Option.some.inj hcx
    subst this
    cases rest with
    | nil =>
      refine ⟨?_, ?_⟩
      · intro d hd
        rw [List.mem_singleton] at hd
        rw [hd]; exact hc
      · intro i a b _ hb
        simp at hb
    | cons y rest1 =>
      have hny : next = some y := hrest.1
      subst hny
      obtain ⟨ph, hph, hy⟩ := (FirstParent_ok_some r c y).1 hn
      have hyh : y.Hash = ph := hcons ph y hy
      have hvy := ih y hrest (by rw [hyh]; exact hy)
      refine ⟨?_, ?_⟩
      · intro d hd
        rcases List.mem_cons.1 hd with h1 | h1
        · rw [h1]; exact hc
        · exact hvy.1 d h1
      · intro i a b ha hb
        cases i with
        | zero =>
          simp only [List.getElem?_cons_zero, Option.some.injEq] at ha
          simp only [zero_add, List.getElem?_cons_succ, List.getElem?_cons_zero,
            Option.some.injEq] at hb
          subst ha hb
          rw [hyh]; exact hph
        | succ i =>
          exact hvy.2 i a b (by simpa using ha) (by simpa using hb)

theorem assigned_of_reaches {r : Repository} {mainLine : List Commit} {st : VisitState}
    (hv : ValidChain r mainLine) (hinv : LoopInv r mainLine 0 st) {a x : Hash}
    (ha : OnChain mainLine a) (hr : Reaches r a x) :
    ∃ v, mapGet st.earliestMergePoints x = some v := by
  by_cases hon : OnChain mainLine x
  · obtain ⟨c, hc, hcx⟩ := List.mem_map.1 hon
    obtain ⟨p, hp⟩ := List.mem_iff_getElem?.1 hc
    obtain ⟨j, _, _, _, _, _, h5, _⟩ := hinv.chain p c (Nat.zero_le _) hp
    have hcx1 : c.Hash = x := hcx
    exact ⟨j, hcx1 ▸ h5⟩
  · obtain ⟨j, _, _, _, hside⟩ := sideReach_of_reaches hv ha hon hr
    have := hinv.complete j x (Nat.zero_le _) hside
    cases hg : mapGet st.earliestMergePoints x with
    | none => rw [hg] at this; cases this
    | some v => exact ⟨v, rfl⟩

theorem head_reaches_chain {r : Repository} {mainLine : List Commit}
    (hv : ValidChain r mainLine) {head c : Commit} {p : Nat}
    (hhead : mainLine[0]? = some head) (hp : mainLine[p]? = some c) :
    Reaches r head.Hash c.Hash := by
  cases p with
  | zero =>
    rw [hhead] at hp
    rw [Option.some.inj hp]
    exact Relation.ReflTransGen.refl
  | succ p => exact (chain_descends_lt hv (Nat.succ_pos p) hhead hp).to_reflTransGen

theorem acyclic_of_decreasing (r : Repository)
    (h : ∀ e ∈ r, ∀ p ∈ e.2.ParentHashes, p < e.1) : Acyclic r := by
  have hstep : ∀ a b, Parent r a b → b < a := by
    rintro a b ⟨c, hc, hb⟩
    exact h (a, c) (CommitObject_ok_mem hc) b hb
  have htrans : ∀ a b, Relation.TransGen (Parent r) a b → b < a := by
    intro a b hab
    induction hab with
    | single h1 => exact hstep _ _ h1
    | tail _ h2 ih => exact lt_trans (hstep _ _ h2) ih
  intro x hx
  exact lt_irrefl _ (htrans x x hx)

theorem resolves_of_closed (r : Repository)
    (h : ∀ e ∈ r, ∀ p ∈ e.2.ParentHashes, (List.lookup p r).isSome) (a : Hash)
    (ha : (List.lookup a r).isSome) :
    ∀ x, Reaches r a x → ∃ c, CommitObject r x = .ok c := by
  have hsome : ∀ x, (List.lookup x r).isSome → ∃ c, CommitObject r x = .ok c := by
    intro x hx
    cases hl : List.lookup x r with
    | none => rw [hl] at hx; cases hx
    | some c => exact ⟨c, (CommitObject_eq_ok_iff r x c).2 hl⟩
  intro x hr
  induction hr with
  | refl => exact hsome a ha
  | tail _ hstep _ =>
    obtain ⟨c, hc, hb⟩ := hstep
    exact hsome _ (h _ (CommitObject_ok_mem hc) _ hb)

theorem side_resolves_of_closed (r : Repository) (mainLine : List Commit)
    (hcl : ∀ e ∈ r, ∀ p ∈ e.2.ParentHashes, (List.lookup p r).isSome)
    (hst : ∀ c ∈ mainLine, List.lookup c.Hash r = some c) :
    ∀ p k, SideReach r mainLine p k → ∃ c, CommitObject r k = .ok c := by
  rintro p k ⟨c, hc, ph, hph, hpath, _⟩
  have hmem : (c.Hash, c) ∈ r := mem_of_mapGet r c.Hash c (hst c (List.getElem?_mem hc))
  exact resolves_of_closed r hcl ph (hcl _ hmem ph hph) k (reaches_of_offPath hpath)

theorem validChain_of_check (r : Repository) (mainLine : List Commit)
    (hst : ∀ c ∈ mainLine, List.lookup c.Hash r = some c)
    (hnext : ∀ i, i < mainLine.length →
      mainLine[i + 1]? = none ∨
      (mainLine[i]?.bind fun c => c.ParentHashes.head?) = mainLine[i + 1]?.map (·.Hash)) :
    ValidChain r mainLine := by
  refine ⟨fun c hc => (CommitObject_eq_ok_iff _ _ _).2 (hst c hc), ?_⟩
  intro i c d hc hd
  have hi : i < mainLine.length := (List.getElem?_eq_some.1 hc).1
  rcases hnext i hi with h1 | h1
  · rw [hd] at h1; cases h1
  · rw [hc, hd] at h1
    exact h1

theorem MergePoints_never_diverges (r : Repository) (mainLine : List Commit) :
    MergePoints r mainLine ≠ .diverge ∧ MergePoints r mainLine ≠ .panic := by
  rcases MergePoints_cases r mainLine with ⟨_, _, h, _, _⟩ | ⟨_, h, _⟩ <;>
    rw [h] <;> constructor <;> intro h1 <;> cases h1

theorem parent_of_lookup (r : Repository) (a b : Hash) (c : Commit)
    (hc : List.lookup a r = some c) (hb : b ∈ c.ParentHashes) : Parent r a b :=
  ⟨c, (CommitObject_eq_ok_iff r a c).2 hc, hb⟩

/-! ## Claims about `MergePoints` -/

/-- C3: every commit of a chain without repeated hashes is its own merge point: when
`MergePoints` succeeds, the table sends the hash of `mainLine[i]` to `mainLine[i]`. -/
theorem MergePoints_chain_commit_is_own_merge_point (r : Repository)
    (mainLine : List Commit) (table : GoMap Commit)
    (hnd : (mainLine.map (·.Hash)).Nodup)
    (hok : MergePoints r mainLine = .ok table)
    (i : Nat) (c : Commit) (hi : mainLine[i]? = some c) :
    mapGet table c.Hash = some c := by
  obtain ⟨st, hinv, ht⟩ := MergePoints_ok_inv hok
  obtain ⟨j, cj, _, _, h3, h4, h5, h6⟩ := hinv.chain i c (Nat.zero_le _) hi
  have hji : j = i := index_unique hnd h3 hi h4
  subst hji
  obtain ⟨m, hm1, hm2⟩ := ht.hit _ h6
  simp only at hm1 hm2
  rw [h4, h5, Option.getD_some, hi] at hm1
  rw [h4] at hm2
  rw [hm2, hm1]

theorem MergePoints_chain_commit_is_own_merge_point_witness :
    mapGet demoTable (mkCommit 6 [3, 5]).Hash = some (mkCommit 6 [3, 5]) :=
  MergePoints_chain_commit_is_own_merge_point demoRepo demoChain demoTable (by decide)
    demo_MergePoints 2 (mkCommit 6 [3, 5]) (by decide)

/-- C4: the table is total over the reachable graph: for a hash-consistent store on which
`MergePoints` succeeds, every hash reached from the head `mainLine[0]` of a non-empty
chain by parent edges of any kind is a key of the table. -/
theorem MergePoints_total_on_reachable (r : Repository) (mainLine : List Commit)
    (table : GoMap Commit) (head : Commit) (hhead : mainLine.head? = some head)
    (hcons : HashConsistent r mainLine) (hok : MergePoints r mainLine = .ok table)
    (h : Hash) (hreach : Relation.ReflTransGen (Edge r mainLine) head.Hash h) :
    (mapGet table h).isSome := by
  obtain ⟨st, hinv, ht⟩ := MergePoints_ok_inv hok
  have hheadOn : OnChain mainLine head.Hash := by
    cases mainLine with
    | nil => simp at hhead
    | cons c cs =>
      simp only [List.head?_cons, Option.some.injEq] at hhead
      subst hhead
      simp [OnChain]
  have hmarked : OnChain mainLine h ∨ (mapGet st.earliestMergePoints h).isSome := by
    induction hreach with
    | refl => exact Or.inl hheadOn
    | @tail x y _ hedge ih =>
      obtain ⟨c, hc, hy⟩ := hedge
      have hchain : ∀ c1, c1 ∈ mainLine → y ∈ c1.ParentHashes →
          OnChain mainLine y ∨ (mapGet st.earliestMergePoints y).isSome := by
        intro c1 hc1 hy1
        obtain ⟨p, hp⟩ := List.mem_iff_getElem?.1 hc1
        exact hinv.proc p c1 (Nat.zero_le _) hp y hy1
      rcases hc with ⟨hc1, _⟩ | hc1
      · exact hchain c hc1 hy
      · by_cases hon : OnChain mainLine x
        · obtain ⟨c1, hc2, hc3⟩ := List.mem_map.1 hon
          have hc4 : CommitObject r c1.Hash = .ok c := by rw [hc3]; exact hc1
          have : c = c1 := hcons.2 c1 hc2 c hc4
          subst this
          exact hchain c hc2 hy
        · rcases ih with h1 | h1
          · exact absurd h1 hon
          · cases hg : mapGet st.earliestMergePoints x with
            | none => rw [hg] at h1; cases h1
            | some v =>
              obtain ⟨_, _, _, c2, hc2, hcl⟩ := hinv.side x v hon hg
              rw [hc1] at hc2
              have : c = c2 := Except.ok.inj hc2
              subst this
              exact hcl y hy
  have hassigned : (mapGet st.earliestMergePoints h).isSome := by
    rcases hmarked with h1 | h1
    · obtain ⟨c1, hc2, hc3⟩ := List.mem_map.1 h1
      obtain ⟨p, hp⟩ := List.mem_iff_getElem?.1 hc2
      obtain ⟨j, cj, _, _, _, _, h5, _⟩ := hinv.chain p c1 (Nat.zero_le _) hp
      have hc4 : c1.Hash = h := hc3
      rw [← hc4]
      exact isSome_of_eq_some h5
    · exact h1
  cases hg : mapGet st.earliestMergePoints h with
  | none => rw [hg] at hassigned; cases hassigned
  | some v =>
    obtain ⟨m, _, hm⟩ := table_of_assigned hinv ht (fun k c _ hc => hcons.1 k c hc) h v hg
    exact isSome_of_eq_some hm

theorem MergePoints_total_on_reachable_witness : (mapGet demoTable 4).isSome := by
  have e1 : Edge demoRepo demoChain 8 7 := ⟨mkCommit 8 [7], Or.inl ⟨by decide, rfl⟩, by decide⟩
  have e2 : Edge demoRepo demoChain 7 6 := ⟨mkCommit 7 [6], Or.inl ⟨by decide, rfl⟩, by decide⟩
  have e3 : Edge demoRepo demoChain 6 5 :=
    ⟨mkCommit 6 [3, 5], Or.inl ⟨by decide, rfl⟩, by decide⟩
  have e4 : Edge demoRepo demoChain 5 4 :=
    ⟨mkCommit 5 [4], Or.inr ((CommitObject_eq_ok_iff _ _ _).2 (by decide)), by decide⟩
  exact MergePoints_total_on_reachable demoRepo demoChain demoTable (mkCommit 8 [7]) rfl
    (hashConsistent_of_stored demoCommits demoChain (by decide)) demo_MergePoints 4
    (((Relation.ReflTransGen.single e1).tail e2).tail e3 |>.tail e4)

/-- C1: `MergePoints` maps every off-chain commit to the oldest chain commit that
contains it: on an acyclic store in which every hash reached from `head` resolves, with
`chain` the result of `FirstParentList` from `head`, the call succeeds and sends every
hash `h` reached from `head`, in particular every one that is not on the chain, to
`chain[p]`, where `p` is the largest index such that `h` is reached from `chain[p]`:
`h` is an ancestor of `chain[p]` and not of `chain[p + 1]`. -/
theorem MergePoints_maps_to_oldest_containing_chain_commit (r : Repository)
    (hcons : StoreConsistent r) (hacyc : Acyclic r) (head : Commit)
    (hhead : CommitObject r head.Hash = .ok head)
    (hres : ∀ h, Reaches r head.Hash h → ∃ c, CommitObject r h = .ok c)
    (fuel : Nat) (chain : List Commit)
    (hchain : FirstParentList fuel r (some head) = .ok chain)
    (h : Hash) (hreach : Reaches r head.Hash h) :
    ∃ table p cp, MergePoints r chain = .ok table ∧ chain[p]? = some cp ∧
      mapGet table h = some cp ∧ Reaches r cp.Hash h ∧
      (∀ q cq, chain[q]? = some cq → Reaches r cq.Hash h → q ≤ p) ∧
      ∀ d, chain[p + 1]? = some d → ¬ Reaches r d.Hash h := by
  have hwalk := (FirstParentList_ok_iff_walk r (some head) chain).1 ⟨fuel, hchain⟩
  have hv : ValidChain r chain := walk_valid r hcons chain head hwalk hhead
  have hhead0 : chain[0]? = some head :=
    ((walk_iff_chain r chain (some head)).1 hwalk).2.1 head rfl
  have hheadOn : OnChain chain head.Hash := onChain_of_getElem? hhead0
  rcases MergePoints_cases r chain with ⟨st, table, hok, hinv, ht⟩ | ⟨e, _, p, k, err, h1, h2, _⟩
  · obtain ⟨v, hx⟩ := assigned_of_reaches hv hinv hheadOn hreach
    obtain ⟨m, hm1, hm2⟩ := table_of_assigned hinv ht (fun k c _ hc => hcons k c hc) h v hx
    obtain ⟨cv, hcv, hr, hmax⟩ := recorded_position_is_oldest hacyc hv hinv h v hx
    rw [hm1] at hcv
    have : m = cv := Option.some.inj hcv
    subst this
    refine ⟨table, v, m, hok, hm1, hm2, hr, hmax, ?_⟩
    intro d hd hrd
    have := hmax (v + 1) d hd hrd
    omega
  · obtain ⟨cp, hcp, _⟩ := h1
    have hr1 := head_reaches_chain hv hhead0 hcp
    have hr2 := reaches_of_sideReach hv hcp ⟨cp, hcp, ‹_›⟩
    obtain ⟨c, hc⟩ := hres k (hr1.trans hr2)
    rw [hc] at h2; cases h2

theorem MergePoints_maps_to_oldest_containing_chain_commit_witness :
    (∃ table p cp, MergePoints demoRepo demoChain = .ok table ∧ demoChain[p]? = some cp ∧
      mapGet table 4 = some cp ∧ Reaches demoRepo cp.Hash 4 ∧
      (∀ q cq, demoChain[q]? = some cq → Reaches demoRepo cq.Hash 4 → q ≤ p) ∧
      ∀ d, demoChain[p + 1]? = some d → ¬ Reaches demoRepo d.Hash 4) ∧
    mapGet demoTable 4 = some (mkCommit 6 [3, 5]) ∧
    mapGet demoTable 5 = some (mkCommit 6 [3, 5]) := by
  have e1 : Parent demoRepo 8 7 := parent_of_lookup _ _ _ (mkCommit 8 [7]) (by decide) (by decide)
  have e2 : Parent demoRepo 7 6 := parent_of_lookup _ _ _ (mkCommit 7 [6]) (by decide) (by decide)
  have e3 : Parent demoRepo 6 5 :=
    parent_of_lookup _ _ _ (mkCommit 6 [3, 5]) (by decide) (by decide)
  have e4 : Parent demoRepo 5 4 := parent_of_lookup _ _ _ (mkCommit 5 [4]) (by decide) (by decide)
  exact ⟨MergePoints_maps_to_oldest_containing_chain_commit demoRepo
    (storeOf_consistent demoCommits) (acyclic_of_decreasing demoRepo (by decide))
    (mkCommit 8 [7]) ((CommitObject_eq_ok_iff _ _ _).2 (by decide))
    (resolves_of_closed demoRepo (by decide) 8 (by decide)) 10 demoChain (by decide) 4
    (((Relation.ReflTransGen.single e1).tail e2).tail e3 |>.tail e4), by decide, by decide⟩

/-- C2, as amended: a commit that side branches of several chain commits reach goes to
the oldest of them: when the store is consistent and resolves every hash the side
branches reach, `MergePoints` succeeds and sends an off-chain hash `h`, reached through
off-chain commits from the parents of at least one chain commit, to `mainLine[p]` with
`p` the largest index among the chain positions that reach `h` in this way. -/
theorem MergePoints_tie_break_oldest (r : Repository) (mainLine : List Commit)
    (hcons : StoreConsistent r)
    (hres : ∀ p k, SideReach r mainLine p k → ∃ c, CommitObject r k = .ok c)
    (h : Hash) (p0 : Nat) (hp0 : SideReach r mainLine p0 h) :
    ∃ table p cp, MergePoints r mainLine = .ok table ∧ mainLine[p]? = some cp ∧
      mapGet table h = some cp ∧ SideReach r mainLine p h ∧
      ∀ q, SideReach r mainLine q h → q ≤ p := by
  rcases MergePoints_cases r mainLine with
    ⟨st, table, hok, hinv, ht⟩ | ⟨e, _, p, k, err, h1, h2, _⟩
  · obtain ⟨v, _, hx, _⟩ := hinv.no_failure p0 h hp0
    have hoff : ¬ OnChain mainLine h := hp0.choose_spec.2.choose_spec.2.2
    obtain ⟨m, hm1, hm2⟩ := table_of_assigned hinv ht (fun k c _ hc => hcons k c hc) h v hx
    obtain ⟨_, hs, hmax, _⟩ := hinv.side h v hoff hx
    exact ⟨table, v, m, hok, hm1, hm2, hs, hmax⟩
  · obtain ⟨c, hc⟩ := hres p k h1
    rw [hc] at h2; cases h2

theorem MergePoints_tie_break_oldest_witness :
    ∃ table p cp, MergePoints tieRepo tieChain = .ok table ∧ tieChain[p]? = some cp ∧
      mapGet table 2 = some cp ∧ SideReach tieRepo tieChain p 2 ∧
      ∀ q, SideReach tieRepo tieChain q 2 → q ≤ p :=
  MergePoints_tie_break_oldest tieRepo tieChain (storeOf_consistent tieCommits)
    (side_resolves_of_closed tieRepo tieChain (by decide) (by decide))
    2 0 ⟨mkCommit 4 [3, 2], rfl, 2, by decide, Relation.ReflTransGen.refl,
      by unfold OnChain; decide⟩

/-- C2 fails as stated: `tieChain` is a first-parent chain of the acyclic store `tieRepo`,
in which every parent hash resolves; the off-chain commit 2 is the second parent of the
chain commits at positions 0 and 1, and `MergePoints` sends it to position 1, the older
of the two, not to position 0. -/
theorem MergePoints_tie_break_not_newest :
    ValidChain tieRepo tieChain ∧ Acyclic tieRepo ∧
    (∀ e ∈ tieRepo, ∀ p ∈ e.2.ParentHashes, (CommitObject tieRepo p).isOk = true) ∧
    tieChain[0]?.map (·.ParentHashes.tail) = some [2] ∧
    tieChain[1]?.map (·.ParentHashes.tail) = some [2] ∧
    SideReach tieRepo tieChain 0 2 ∧ SideReach tieRepo tieChain 1 2 ∧
    MergePoints tieRepo tieChain = .ok tieTable ∧
    mapGet tieTable 2 = tieChain[1]? ∧ mapGet tieTable 2 ≠ tieChain[0]? := by
  refine ⟨validChain_of_check tieRepo tieChain (by decide) (by decide),
    acyclic_of_decreasing tieRepo (by decide), by decide, by decide, by decide, ?_, ?_,
    tie_MergePoints, by decide, by decide⟩
  · exact ⟨mkCommit 4 [3, 2], rfl, 2, by decide, Relation.ReflTransGen.refl,
      by unfold OnChain; decide⟩
  · exact ⟨mkCommit 3 [1, 2], rfl, 2, by decide, Relation.ReflTransGen.refl,
      by unfold OnChain; decide⟩

/-- C5: merge-point positions are monotone along parent edges: on a first-parent chain of
an acyclic store on which `MergePoints` succeeds, for a parent edge from `a` to `b`
with `a` reached from the head, the table sends `a` and `b` to chain commits whose
(unique) chain indices `i` and `j` satisfy `i ≤ j`. -/
theorem MergePoints_positions_monotone (r : Repository) (mainLine : List Commit)
    (table : GoMap Commit) (hcons : StoreConsistent r) (hacyc : Acyclic r)
    (hv : ValidChain r mainLine) (hok : MergePoints r mainLine = .ok table)
    (head : Commit) (hhead : mainLine[0]? = some head) (a b : Hash)
    (ha : Reaches r head.Hash a) (hedge : Parent r a b) :
    ∃ i j ci cj, mainLine[i]? = some ci ∧ mainLine[j]? = some cj ∧
      mapGet table a = some ci ∧ mapGet table b = some cj ∧ i ≤ j ∧
      (∀ i1 : Nat, mainLine[i1]? = some ci → i1 = i) ∧
      (∀ j1 : Nat, mainLine[j1]? = some cj → j1 = j) := by
  obtain ⟨st, hinv, ht⟩ := MergePoints_ok_inv hok
  have hheadOn : OnChain mainLine head.Hash := onChain_of_getElem? hhead
  have hb : Reaches r head.Hash b := Relation.ReflTransGen.tail ha hedge
  obtain ⟨va, hxa⟩ := assigned_of_reaches hv hinv hheadOn ha
  obtain ⟨vb, hxb⟩ := assigned_of_reaches hv hinv hheadOn hb
  obtain ⟨ma, ha1, ha2⟩ := table_of_assigned hinv ht (fun k c _ hc => hcons k c hc) a va hxa
  obtain ⟨mb, hb1, hb2⟩ := table_of_assigned hinv ht (fun k c _ hc => hcons k c hc) b vb hxb
  obtain ⟨ca, hca, hra, _⟩ := recorded_position_is_oldest hacyc hv hinv a va hxa
  obtain ⟨cb, _, _, hmaxb⟩ := recorded_position_is_oldest hacyc hv hinv b vb hxb
  rw [ha1] at hca
  have : ma = ca := Option.some.inj hca
  subst this
  refine ⟨va, vb, ma, mb, ha1, hb1, ha2, hb2, hmaxb va ma ha1 (hra.tail hedge), ?_, ?_⟩
  · intro i1 hi1
    exact chain_index_unique hacyc hv hi1 ha1 rfl
  · intro j1 hj1
    exact chain_index_unique hacyc hv hj1 hb1 rfl

theorem MergePoints_positions_monotone_witness :
    ∃ i j ci cj, demoChain[i]? = some ci ∧ demoChain[j]? = some cj ∧
      mapGet demoTable 4 = some ci ∧ mapGet demoTable 3 = some cj ∧ i ≤ j ∧
      (∀ i1 : Nat, demoChain[i1]? = some ci → i1 = i) ∧
      (∀ j1 : Nat, demoChain[j1]? = some cj → j1 = j) := by
  have e1 : Parent demoRepo 8 7 := parent_of_lookup _ _ _ (mkCommit 8 [7]) (by decide) (by decide)
  have e2 : Parent demoRepo 7 6 := parent_of_lookup _ _ _ (mkCommit 7 [6]) (by decide) (by decide)
  have e3 : Parent demoRepo 6 5 :=
    parent_of_lookup _ _ _ (mkCommit 6 [3, 5]) (by decide) (by decide)
  have e4 : Parent demoRepo 5 4 := parent_of_lookup _ _ _ (mkCommit 5 [4]) (by decide) (by decide)
  have e5 : Parent demoRepo 4 3 := parent_of_lookup _ _ _ (mkCommit 4 [3]) (by decide) (by decide)
  exact MergePoints_positions_monotone demoRepo demoChain demoTable
    (storeOf_consistent demoCommits) (acyclic_of_decreasing demoRepo (by decide))
    (validChain_of_check demoRepo demoChain (by decide) (by decide)) demo_MergePoints
    (mkCommit 8 [7]) rfl 4 3 (((Relation.ReflTransGen.single e1).tail e2).tail e3 |>.tail e4) e5

/-- C6: `MergePoints` fails exactly on unresolved side-branch hashes: it returns an error
if and only if some hash that is not on the chain, and that is reached from the parents
of a chain commit through resolvable off-chain commits, cannot be resolved by the store;
the error text then contains the hash of such a commit.  Hashes on the chain do not
count, whether the store resolves them or not. -/
theorem MergePoints_error_iff_unresolved_side_hash (r : Repository)
    (mainLine : List Commit) :
    ((∃ e, MergePoints r mainLine = .error e) ↔
      ∃ p h err, SideReach r mainLine p h ∧ CommitObject r h = .error err) ∧
    ∀ e, MergePoints r mainLine = .error e →
      ∃ p h err, SideReach r mainLine p h ∧ CommitObject r h = .error err ∧
        Contains e (hashString h) := by
  have hfail : ∀ e, MergePoints r mainLine = .error e →
      ∃ p h err, SideReach r mainLine p h ∧ CommitObject r h = .error err ∧
        Contains e (hashString h) := by
    intro e he
    rcases MergePoints_cases r mainLine with ⟨st, t, h1, _, _⟩ | ⟨e1, h1, p, k, err, h2, h3, h4⟩
    · rw [he] at h1; cases h1
    · rw [he] at h1
      have : e = e1 := Outcome.error.inj h1
      subst this
      exact ⟨p, k, err, h2, h3, h4 ▸ contains_lookupFailure k err⟩
  refine ⟨⟨?_, ?_⟩, hfail⟩
  · rintro ⟨e, he⟩
    obtain ⟨p, h, err, h1, h2, _⟩ := hfail e he
    exact ⟨p, h, err, h1, h2⟩
  · rintro ⟨p, h, err, hr, herr⟩
    rcases MergePoints_cases r mainLine with ⟨st, t, _, hinv, _⟩ | ⟨e1, h1, _⟩
    · obtain ⟨_, c, _, hc⟩ := hinv.no_failure p h hr
      rw [hc] at herr; cases herr
    · exact ⟨e1, h1⟩

/-! ## Claims about `FirstParentList` -/

/-- C10: `FirstParentList` computes the head-first first-parent chain: it returns the
list `l` (for some number of loop iterations) exactly when `l` is empty for a nil start
and otherwise starts with the start commit, continues each commit with the store's
resolution of its first parent hash, and ends in a commit without parents. -/
theorem FirstParentList_computes_first_parent_chain (r : Repository)
    (start : Option Commit) (l : List Commit) :
    (∃ fuel, FirstParentList fuel r start = .ok l) ↔ IsFirstParentChain r start l := by
  rw [FirstParentList_ok_iff_walk, walk_iff_chain]

/-! ## Claims about `SourceHash` -/

theorem scan_cases (pre : List Char) (lines : List (List Char)) :
    ((∀ l ∈ lines, HasPrefix l pre = false) ∧ SourceHash.scan pre lines = ZeroHash) ∨
    ∃ before line after, lines = before ++ line :: after ∧
      (∀ l ∈ before, HasPrefix l pre = false) ∧ HasPrefix line pre = true ∧
      SourceHash.scan pre lines = NewHash (TrimSpace (line.drop pre.length)) := by
  induction lines with
  | nil => exact Or.inl ⟨fun l hl => by simp at hl, rfl⟩
  | cons x rest ih =>
    by_cases hx : HasPrefix x pre = true
    · exact Or.inr ⟨[], x, rest, rfl, fun l hl => by simp at hl, hx, by simp [SourceHash.scan, hx]⟩
    · have hxf : HasPrefix x pre = false := by simpa using hx
      have hscan : SourceHash.scan pre (x :: rest) = SourceHash.scan pre rest := by
        simp [SourceHash.scan, hxf]
      rcases ih with ⟨h1, h2⟩ | ⟨before, line, after, h1, h2, h3, h4⟩
      · refine Or.inl ⟨?_, hscan.trans h2⟩
        intro l hl
        rcases List.mem_cons.1 hl with rfl | h
        · exact hxf
        · exact h1 l h
      · refine Or.inr ⟨x :: before, line, after, by simp [h1], ?_, h3, hscan.trans h4⟩
        intro l hl
        rcases List.mem_cons.1 hl with rfl | h
        · exact hxf
        · exact h2 l h

theorem first_match_unique (pre : List Char) (b1 b2 : List (List Char))
    (l1 l2 : List Char) (a1 a2 : List (List Char))
    (h : b1 ++ l1 :: a1 = b2 ++ l2 :: a2)
    (h1 : ∀ l ∈ b1, HasPrefix l pre = false) (h2 : ∀ l ∈ b2, HasPrefix l pre = false)
    (m1 : HasPrefix l1 pre = true) (m2 : HasPrefix l2 pre = true) : l1 = l2 := by
  induction b1 generalizing b2 with
  | nil =>
    cases b2 with
    | nil => simpa using (List.cons.inj h).1
    | cons y b2 =>
      have : l1 = y := (List.cons.inj h).1
      have hy := h2 y (List.mem_cons_self _ _)
      rw [← this, m1] at hy; cases hy
  | cons x b1 ih =>
    cases b2 with
    | nil =>
      have : x = l2 := (List.cons.inj h).1
      have hx := h1 x (List.mem_cons_self _ _)
      rw [this, m2] at hx; cases hx
    | cons y b2 =>
      exact ih b2 (List.cons.inj h).2 (fun l hl => h1 l (List.mem_cons_of_mem _ hl))
        (fun l hl => h2 l (List.mem_cons_of_mem _ hl))

/-- C7: `SourceHash` returns the first match only: when `line` is the first line of the
message that starts with `tag + ": "`, the result is `NewHash` of the trimmed text after
that prefix on `line`, whatever the later lines are. -/
theorem SourceHash_returns_first_match (c : Commit) (tag : String) (line : List Char)
    (hfirst : FirstTagLine c tag line) : SourceHash c tag = lineHash tag line := by
  obtain ⟨before, after, h1, h2, h3⟩ := hfirst
  rcases scan_cases (tagPrefix tag) (messageLines c) with ⟨h4, _⟩ | ⟨b, l, a, h4, h5, h6, h7⟩
  · have := h4 line (by rw [h1]; simp)
    rw [h3] at this; cases this
  · have hl : line = l := first_match_unique _ _ _ _ _ _ _ (h1.symm.trans h4) h2 h5 h3 h6
    subst hl
    exact h7

theorem SourceHash_returns_first_match_witness :
    SourceHash signedCommit "Kubernetes-commit" = NewHash "abc123".data :=
  SourceHash_returns_first_match signedCommit "Kubernetes-commit"
    "Kubernetes-commit: abc123".data ⟨[], ["Signed-off-by: X".data], by decide, by decide, by decide⟩

/-- C8, as amended: when `SourceHash` returns the zero hash, either no line of the message
starts with `tag + ": "`, or the text after the prefix on the first such line is parsed
to the zero hash by `NewHash`. -/
theorem SourceHash_zero_cases (c : Commit) (tag : String)
    (hzero : SourceHash c tag = ZeroHash) :
    (∀ l ∈ messageLines c, HasPrefix l (tagPrefix tag) = false) ∨
    ∃ line, FirstTagLine c tag line ∧ lineHash tag line = ZeroHash := by
  rcases scan_cases (tagPrefix tag) (messageLines c) with ⟨h4, _⟩ | ⟨b, l, a, h4, h5, h6, h7⟩
  · exact Or.inl h4
  · refine Or.inr ⟨l, ⟨b, a, h4, h5, h6⟩, ?_⟩
    rw [← hzero]
    exact h7.symm

theorem SourceHash_zero_cases_witness :
    (∀ l ∈ messageLines unknownCommit, HasPrefix l (tagPrefix "Kubernetes-commit") = false) ∨
    ∃ line, FirstTagLine unknownCommit "Kubernetes-commit" line ∧
      lineHash "Kubernetes-commit" line = ZeroHash :=
  SourceHash_zero_cases unknownCommit "Kubernetes-commit" (by decide)

/-- C8 fails as stated: the message of `unknownCommit` has a line that starts with
`"Kubernetes-commit: "`, and `SourceHash` returns the zero hash for it. -/
theorem SourceHash_zero_with_tag_line :
    SourceHash unknownCommit "Kubernetes-commit" = ZeroHash ∧
    ∃ l ∈ messageLines unknownCommit, HasPrefix l (tagPrefix "Kubernetes-commit") = true :=
  ⟨by decide, "Kubernetes-commit: unknown".data, by decide, by decide⟩

/-- C9: when no line of the message starts with `tag + ": "`, `SourceHash` returns the
zero hash. -/
theorem SourceHash_zero_of_no_match (c : Commit) (tag : String)
    (hnone : ∀ l ∈ messageLines c, HasPrefix l (tagPrefix tag) = false) :
    SourceHash c tag = ZeroHash := by
  rcases scan_cases (tagPrefix tag) (messageLines c) with ⟨_, h5⟩ | ⟨b, l, a, h4, _, h6, _⟩
  · exact h5
  · have := hnone l (by rw [h4]; simp)
    rw [h6] at this; cases this

theorem SourceHash_zero_of_no_match_witness :
    SourceHash nearMissCommit "Kubernetes-commit" = ZeroHash :=
  SourceHash_zero_of_no_match nearMissCommit "Kubernetes-commit" (by decide)

/-! ## The table and the order of iteration -/

theorem table_char {r : Repository} {mainLine : List Commit} {st : VisitState}
    {table : GoMap Commit} (hinv : LoopInv r mainLine 0 st)
    (ht : TableOf mainLine st table)
    (hcons : ∀ k c, ¬ OnChain mainLine k → CommitObject r k = .ok c → c.Hash = k)
    (x : Hash) :
    mapGet table x = (mapGet st.earliestMergePoints x).bind fun v => mainLine[v]? := by
  cases hx : mapGet st.earliestMergePoints x with
  | some v =>
    obtain ⟨m, hm1, hm2⟩ := table_of_assigned hinv ht hcons x v hx
    rw [hm2, Option.some_bind, hm1]
  | none =>
    rw [Option.none_bind]
    apply ht.miss
    intro e he hex
    obtain ⟨h1, h2⟩ := hinv.seen e he
    have hkey : e.2.Hash = e.1 := by
      rcases h2 with ⟨_, _, h3⟩ | ⟨h3, h4⟩
      · exact h3
      · exact hcons e.1 e.2 h3 h4
    rw [← hkey, hex, hx] at h1
    cases h1

theorem edge_path_of_sideReach {r : Repository} {mainLine : List Commit} {p : Nat}
    {x : Hash} (hs : SideReach r mainLine p x) :
    ∃ c ∈ mainLine, Relation.TransGen (Edge r mainLine) c.Hash x := by
  obtain ⟨c, hc, ph, hph, hpath, _⟩ := hs
  refine ⟨c, List.getElem?_mem hc, ?_⟩
  have h1 : Edge r mainLine c.Hash ph := ⟨c, Or.inl ⟨List.getElem?_mem hc, rfl⟩, hph⟩
  have h2 : Relation.ReflTransGen (Edge r mainLine) ph x :=
    Relation.ReflTransGen.mono (fun a b hs => by
      obtain ⟨_, c1, hc1, hb⟩ := hs
      exact ⟨c1, Or.inr hc1, hb⟩) hpath
  exact Relation.TransGen.head' h1 h2

/-- C19: the table holds nothing but the graph the chain reaches and points only into
the chain: `MergePoints` never indexes the chain out of range, and when it succeeds on
a store that returns commits under their own hash, every value of the table is a commit
of the chain and every key is the hash of a chain commit or is reached from a chain
commit by parent edges. -/
theorem MergePoints_table_within_graph (r : Repository) (mainLine : List Commit) :
    MergePoints r mainLine ≠ .panic ∧
    ∀ table, StoreConsistent r → MergePoints r mainLine = .ok table →
      ∀ x m, mapGet table x = some m →
        m ∈ mainLine ∧
        (OnChain mainLine x ∨
          ∃ c ∈ mainLine, Relation.TransGen (Edge r mainLine) c.Hash x) := by
  refine ⟨(MergePoints_never_diverges r mainLine).2, ?_⟩
  intro table hcons hok x m hx
  obtain ⟨st, hinv, ht⟩ := MergePoints_ok_inv hok
  rw [table_char hinv ht (fun k c _ hc => hcons k c hc) x] at hx
  cases hv : mapGet st.earliestMergePoints x with
  | none => rw [hv] at hx; cases hx
  | some v =>
    rw [hv, Option.some_bind] at hx
    refine ⟨List.getElem?_mem hx, ?_⟩
    by_cases hon : OnChain mainLine x
    · exact Or.inl hon
    · exact Or.inr (edge_path_of_sideReach (hinv.side x v hon hv).2.1)

theorem MergePoints_table_within_graph_witness :
    mkCommit 6 [3, 5] ∈ demoChain ∧
    (OnChain demoChain 4 ∨
      ∃ c ∈ demoChain, Relation.TransGen (Edge demoRepo demoChain) c.Hash 4) :=
  (MergePoints_table_within_graph demoRepo demoChain).2 demoTable
    (storeOf_consistent demoCommits) demo_MergePoints 4 (mkCommit 6 [3, 5]) (by decide)

theorem buildResult_same_entries (mainLine : List Commit) (em : GoMap Nat)
    (l1 l2 : List (Hash × Commit)) (hmem : ∀ e, e ∈ l1 ↔ e ∈ l2)
    (hvalid : ∀ e ∈ l1, ∃ m, mainLine[(mapGet em e.2.Hash).getD 0]? = some m) :
    ∃ t1 t2, buildResult mainLine em l1 [] = .ok t1 ∧
      buildResult mainLine em l2 [] = .ok t2 ∧ ∀ k, mapGet t1 k = mapGet t2 k := by
  obtain ⟨t1, ht1⟩ := buildResult_total mainLine em l1 [] hvalid
  obtain ⟨t2, ht2⟩ := buildResult_total mainLine em l2 []
    (fun e he => hvalid e ((hmem e).2 he))
  obtain ⟨ha1, hb1⟩ := buildResult_ok mainLine em l1 [] t1 ht1
  obtain ⟨ha2, hb2⟩ := buildResult_ok mainLine em l2 [] t2 ht2
  refine ⟨t1, t2, ht1, ht2, fun k => ?_⟩
  by_cases hex : ∃ e ∈ l1, e.2.Hash = k
  · obtain ⟨e, he, hk⟩ := hex
    obtain ⟨m1, hm1, hn1⟩ := ha1 e he
    obtain ⟨m2, hm2, hn2⟩ := ha2 e ((hmem e).1 he)
    rw [hk] at hm1 hn1 hm2 hn2
    rw [hn1, hn2, ← hm1, ← hm2]
  · rw [hb1 k (fun e he hk => hex ⟨e, he, hk⟩),
      hb2 k (fun e he hk => hex ⟨e, (hmem e).2 he, hk⟩)]

theorem MergePointsOrdered_id (r : Repository) (mainLine : List Commit) :
    MergePointsOrdered id r mainLine = MergePoints r mainLine := rfl

/-- C14: `MergePoints` is deterministic: whatever order the loop over the map `seen`
takes in each of two runs on the same chain and store, the two runs return tables with
the same keys and the same chain commit under every key, or the same error. -/
theorem MergePoints_deterministic (order1 order2 : GoMap Commit → List (Hash × Commit))
    (h1 : ∀ m, (order1 m).Perm m) (h2 : ∀ m, (order2 m).Perm m) (r : Repository)
    (mainLine : List Commit) :
    SameOutcome (MergePointsOrdered order1 r mainLine)
      (MergePointsOrdered order2 r mainLine) := by
  have hmlp : ∀ h, (mapGet (buildMainLinePos mainLine 0 []) h).isSome ↔
      OnChain mainLine h := by
    intro h
    rw [buildMainLinePos_isSome]
    simp [mapGet]
  have hloop := mainLoop_spec r mainLine _ hmlp (r.length + 1) (Nat.lt_succ_self _)
    mainLine.length ⟨[], []⟩ (le_refl _) (LoopInv.init r mainLine)
  unfold MergePointsOrdered
  simp only
  cases hw : mainLoop r mainLine (buildMainLinePos mainLine 0 []) (r.length + 1)
      mainLine.length ⟨[], []⟩ with
  | ok st =>
    rw [hw] at hloop
    have hinv : LoopInv r mainLine 0 st := hloop
    have hmem : ∀ e, e ∈ order1 st.seen ↔ e ∈ order2 st.seen :=
      fun e => (h1 st.seen).mem_iff.trans (h2 st.seen).mem_iff.symm
    obtain ⟨t1, t2, e1, e2, hsame⟩ := buildResult_same_entries mainLine
      st.earliestMergePoints (order1 st.seen) (order2 st.seen) hmem
      (fun e he => hinv.lookup_valid e ((h1 st.seen).mem_iff.1 he) _)
    simp only [e1, e2]
    exact hsame
  | error e => exact rfl
  | panic => rw [hw] at hloop; exact hloop.elim
  | diverge => rw [hw] at hloop; exact hloop.elim

theorem MergePoints_deterministic_witness :
    SameOutcome (MergePointsOrdered id demoRepo demoChain)
      (MergePointsOrdered List.reverse demoRepo demoChain) :=
  MergePoints_deterministic id List.reverse (fun m => List.Perm.refl m)
    (fun m => List.reverse_perm m) demoRepo demoChain

/-! ## The order of parents -/

theorem forall₂_of_zip {α β : Type} (R : α → β → Prop) (l1 : List α) (l2 : List β)
    (hlen : l1.length = l2.length) (h : ∀ e ∈ l1.zip l2, R e.1 e.2) :
    List.Forall₂ R l1 l2 :=
  List.forall₂_iff_zip.2 ⟨hlen, fun hab => h _ hab⟩

theorem sameStore_lookup {r1 r2 : Repository} (hs : SameStore r1 r2) (h : Hash) :
    (List.lookup h r1 = none ∧ List.lookup h r2 = none) ∨
    ∃ c1 c2, List.lookup h r1 = some c1 ∧ List.lookup h r2 = some c2 ∧ SameCommit c1 c2 := by
  unfold SameStore at hs
  induction hs with
  | nil => exact Or.inl ⟨rfl, rfl⟩
  | @cons e1 e2 l1 l2 he _ ih =>
    obtain ⟨k1, c1⟩ := e1
    obtain ⟨k2, c2⟩ := e2
    obtain ⟨hk, hc⟩ := he
    simp only at hk hc
    subst hk
    by_cases hh : h = k1
    · subst hh
      exact Or.inr ⟨c1, c2, by simp [List.lookup], by simp [List.lookup], hc⟩
    · have hb : (h == k1) = false := by simpa using hh
      simp only [List.lookup_cons, hb]
      exact ih

theorem sameStore_parent {r1 r2 : Repository} (hs : SameStore r1 r2) (a b : Hash) :
    Parent r1 a b ↔ Parent r2 a b := by
  unfold Parent
  simp only [CommitObject_eq_ok_iff]
  rcases sameStore_lookup hs a with ⟨h1, h2⟩ | ⟨c1, c2, h1, h2, _, _, hp⟩
  · simp [h1, h2]
  · simp only [h1, h2, Option.some.injEq, exists_eq_left']
    exact hp.mem_iff

theorem sameStore_resolves {r1 r2 : Repository} (hs : SameStore r1 r2) (h : Hash) :
    (∃ c, CommitObject r1 h = .ok c) ↔ ∃ c, CommitObject r2 h = .ok c := by
  simp only [CommitObject_eq_ok_iff]
  rcases sameStore_lookup hs h with ⟨h1, h2⟩ | ⟨c1, c2, h1, h2, _⟩
  · simp [h1, h2]
  · simp [h1, h2]

theorem sameStore_consistent {r1 r2 : Repository} (hs : SameStore r1 r2)
    (hc : StoreConsistent r1) : StoreConsistent r2 := by
  intro h c2 h2
  rw [CommitObject_eq_ok_iff] at h2
  rcases sameStore_lookup hs h with ⟨_, h3⟩ | ⟨c1, c3, h1, h3, hh, _⟩
  · rw [h3] at h2; cases h2
  · rw [h3] at h2
    have : c3 = c2 := Option.some.inj h2
    subst this
    rw [← hh]
    exact hc h c1 ((CommitObject_eq_ok_iff _ _ _).2 h1)

theorem sameChain_hashes {mainLine1 mainLine2 : List Commit}
    (hs : SameChain mainLine1 mainLine2) :
    mainLine1.map (·.Hash) = mainLine2.map (·.Hash) := by
  unfold SameChain at hs
  induction hs with
  | nil => rfl
  | cons he _ ih => simp only [List.map_cons, he.1, ih]

theorem sameChain_getElem? {mainLine1 mainLine2 : List Commit}
    (hs : SameChain mainLine1 mainLine2) :
    ∀ (p : Nat), (mainLine1[p]? = none ∧ mainLine2[p]? = none) ∨
      ∃ c1 c2, mainLine1[p]? = some c1 ∧ mainLine2[p]? = some c2 ∧ SameCommit c1 c2 := by
  unfold SameChain at hs
  induction hs with
  | nil => intro p; exact Or.inl ⟨rfl, rfl⟩
  | @cons c1 c2 l1 l2 he _ ih =>
    intro p
    cases p with
    | zero => exact Or.inr ⟨c1, c2, by simp, by simp, he⟩
    | succ p => simpa using ih p

theorem hash_at_of_hashes {mainLine1 mainLine2 : List Commit}
    (hh : mainLine1.map (·.Hash) = mainLine2.map (·.Hash)) {i : Nat} {c1 : Commit}
    (h1 : mainLine1[i]? = some c1) : ∃ c2, mainLine2[i]? = some c2 ∧ c2.Hash = c1.Hash := by
  have h2 : (mainLine1.map (·.Hash))[i]? = some c1.Hash := by
    rw [List.getElem?_map, h1]; rfl
  rw [hh, List.getElem?_map] at h2
  cases h3 : mainLine2[i]? with
  | none => rw [h3] at h2; cases h2
  | some c2 =>
    rw [h3] at h2
    exact ⟨c2, rfl, Option.some.inj h2⟩

theorem sideReach_transfer {r1 r2 : Repository} {mainLine1 mainLine2 : List Commit}
    (hs : SameStore r1 r2) (hc : SameChain mainLine1 mainLine2) (p : Nat) (h : Hash)
    (h1 : SideReach r1 mainLine1 p h) : SideReach r2 mainLine2 p h := by
  have hon : ∀ x, OnChain mainLine1 x ↔ OnChain mainLine2 x := by
    intro x
    unfold OnChain
    rw [sameChain_hashes hc]
  obtain ⟨c1, hc1, ph, hph, hpath, hoff⟩ := h1
  rcases sameChain_getElem? hc p with ⟨h2, _⟩ | ⟨d1, d2, h2, h3, _, _, hp⟩
  · rw [h2] at hc1; cases hc1
  · rw [h2] at hc1
    have : d1 = c1 := Option.some.inj hc1
    subst this
    refine ⟨d2, h3, ph, hp.mem_iff.1 hph, ?_, fun hx => hoff ((hon h).2 hx)⟩
    exact Relation.ReflTransGen.mono
      (fun a b hab => ⟨fun hx => hab.1 ((hon a).2 hx), (sameStore_parent hs a b).1 hab.2⟩)
      hpath

theorem recorded_transfer {r1 r2 : Repository} {mainLine1 mainLine2 : List Commit}
    {st1 st2 : VisitState} (hinv1 : LoopInv r1 mainLine1 0 st1)
    (hinv2 : LoopInv r2 mainLine2 0 st2)
    (hh : mainLine1.map (·.Hash) = mainLine2.map (·.Hash))
    (h12 : ∀ p h, SideReach r1 mainLine1 p h → SideReach r2 mainLine2 p h)
    (h21 : ∀ p h, SideReach r2 mainLine2 p h → SideReach r1 mainLine1 p h)
    (h : Hash) (v : Nat) (hv : mapGet st1.earliestMergePoints h = some v) :
    mapGet st2.earliestMergePoints h = some v := by
  have hon : OnChain mainLine1 h ↔ OnChain mainLine2 h := by
    unfold OnChain
    rw [hh]
  by_cases h1 : OnChain mainLine1 h
  · obtain ⟨_, c1, hc1, hch⟩ := hinv1.onChain h v h1 hv
    obtain ⟨c2, hc2, hc2h⟩ := hash_at_of_hashes hh hc1
    obtain ⟨j2, d2, _, hj2, hd2, hd2h, hem2, _⟩ := hinv2.chain v c2 (Nat.zero_le _) hc2
    obtain ⟨d1, hd1, hd1h⟩ := hash_at_of_hashes hh.symm hd2
    obtain ⟨j1, _, _, hj1, _, _, hem1, _⟩ := hinv1.chain j2 d1 (Nat.zero_le _) hd1
    have hkey : d1.Hash = h := by rw [hd1h, hd2h, hc2h, hch]
    rw [hkey, hv] at hem1
    have : v = j1 := Option.some.inj hem1
    have hvj : j2 = v := by omega
    rw [hc2h, hch, hvj] at hem2
    exact hem2
  · have h2 : ¬ OnChain mainLine2 h := fun hx => h1 (hon.2 hx)
    obtain ⟨_, hs1, hmax1, _⟩ := hinv1.side h v h1 hv
    have hs2 := h12 v h hs1
    have hsome := hinv2.complete v h (Nat.zero_le _) hs2
    cases hw : mapGet st2.earliestMergePoints h with
    | none => rw [hw] at hsome; cases hsome
    | some w =>
      obtain ⟨_, hsw, hmax2, _⟩ := hinv2.side h w h2 hw
      have ha : v ≤ w := hmax2 v hs2
      have hb : w ≤ v := hmax1 w (h21 w h hsw)
      have : w = v := by omega
      rw [this]

theorem sameCommit_symm {c1 c2 : Commit} (h : SameCommit c1 c2) : SameCommit c2 c1 :=
  ⟨h.1.symm, h.2.1.symm, h.2.2.symm⟩

theorem sameChain_symm {mainLine1 mainLine2 : List Commit}
    (h : SameChain mainLine1 mainLine2) : SameChain mainLine2 mainLine1 := by
  unfold SameChain at *
  induction h with
  | nil => exact List.Forall₂.nil
  | cons he _ ih => exact List.Forall₂.cons (sameCommit_symm he) ih

theorem sameStore_symm {r1 r2 : Repository} (h : SameStore r1 r2) : SameStore r2 r1 := by
  unfold SameStore at *
  induction h with
  | nil => exact List.Forall₂.nil
  | cons he _ ih => exact List.Forall₂.cons ⟨he.1.symm, sameCommit_symm he.2⟩ ih

/-- C13: `MergePoints` is independent of the order of sibling parents: for two stores, and
two chains, that differ only in the order in which commits list their parent hashes,
the stores consistent and resolving every hash the side branches reach, both calls
succeed and every hash is a key of both tables or of neither, and as a key it is sent
to the chain commits at one and the same position of the two chains. -/
theorem MergePoints_independent_of_parent_order (r1 r2 : Repository)
    (mainLine1 mainLine2 : List Commit) (hstore : SameStore r1 r2)
    (hchain : SameChain mainLine1 mainLine2) (hcons : StoreConsistent r1)
    (hres : ∀ p k, SideReach r1 mainLine1 p k → ∃ c, CommitObject r1 k = .ok c) :
    ∃ t1 t2, MergePoints r1 mainLine1 = .ok t1 ∧ MergePoints r2 mainLine2 = .ok t2 ∧
      ∀ h, (mapGet t1 h = none ∧ mapGet t2 h = none) ∨
        ∃ (p : Nat) (c1 c2 : Commit), mainLine1[p]? = some c1 ∧ mainLine2[p]? = some c2 ∧
          mapGet t1 h = some c1 ∧ mapGet t2 h = some c2 := by
  have h12 := sideReach_transfer hstore hchain
  have h21 := sideReach_transfer (sameStore_symm hstore) (sameChain_symm hchain)
  have hh := sameChain_hashes hchain
  have hcons2 := sameStore_consistent hstore hcons
  rcases MergePoints_cases r1 mainLine1 with
    ⟨st1, t1, hok1, hinv1, ht1⟩ | ⟨e, _, p, k, err, h1, h2, _⟩
  · rcases MergePoints_cases r2 mainLine2 with
      ⟨st2, t2, hok2, hinv2, ht2⟩ | ⟨e, _, p, k, err, h1, h2, _⟩
    · refine ⟨t1, t2, hok1, hok2, fun h => ?_⟩
      rw [table_char hinv1 ht1 (fun k c _ hc => hcons k c hc) h,
        table_char hinv2 ht2 (fun k c _ hc => hcons2 k c hc) h]
      cases hv : mapGet st1.earliestMergePoints h with
      | none =>
        cases hw : mapGet st2.earliestMergePoints h with
        | none => exact Or.inl ⟨rfl, rfl⟩
        | some w =>
          have := recorded_transfer hinv2 hinv1 hh.symm h21 h12 h w hw
          rw [hv] at this; cases this
      | some v =>
        have hw := recorded_transfer hinv1 hinv2 hh h12 h21 h v hv
        rw [hw]
        obtain ⟨m1, hm1⟩ := hinv1.index_valid h v hv
        obtain ⟨m2, hm2⟩ := hinv2.index_valid h v hw
        exact Or.inr ⟨v, m1, m2, hm1, hm2, by simp [hm1], by simp [hm2]⟩
    · obtain ⟨c, hc⟩ := (sameStore_resolves hstore k).1 (hres p k (h21 p k h1))
      rw [hc] at h2; cases h2
  · obtain ⟨c, hc⟩ := hres p k h1
    rw [hc] at h2; cases h2

theorem MergePoints_independent_of_parent_order_witness :
    ∃ t1 t2, MergePoints demoRepo demoChain = .ok t1 ∧
      MergePoints swappedRepo swappedChain = .ok t2 ∧
      ∀ h, (mapGet t1 h = none ∧ mapGet t2 h = none) ∨
        ∃ (p : Nat) (c1 c2 : Commit), demoChain[p]? = some c1 ∧ swappedChain[p]? = some c2 ∧
          mapGet t1 h = some c1 ∧ mapGet t2 h = some c2 :=
  MergePoints_independent_of_parent_order demoRepo swappedRepo demoChain swappedChain
    (forall₂_of_zip _ _ _ (by decide) (by decide))
    (forall₂_of_zip _ _ _ (by decide) (by decide))
    (storeOf_consistent demoCommits)
    (side_resolves_of_closed demoRepo demoChain (by decide) (by decide))

/-! ## Failure and termination of the first-parent walk -/

theorem FirstParent_error_iff (r : Repository) (c : Commit) (e : String) :
    FirstParent r (some c) = .error e ↔
      ∃ ph err, UnresolvedFirstParent r c ph err ∧
        e = "failed to get " ++ hashString ph ++ ": " ++ err := by
  obtain ⟨h, ps, msg⟩ := c
  unfold UnresolvedFirstParent
  cases ps with
  | nil => simp [FirstParent]
  | cons ph rest =>
    cases hc : CommitObject r ph with
    | error err =>
      simp only [FirstParent, hc, Except.error.injEq, List.head?_cons, Option.some.injEq]
      constructor
      · intro h1; exact ⟨ph, err, ⟨rfl, hc⟩, h1.symm⟩
      · rintro ⟨ph1, err1, ⟨h1, h2⟩, h3⟩
        subst h1
        rw [hc] at h2
        rw [h3, Except.error.inj h2]
    | ok p1 =>
      simp only [FirstParent, hc, List.head?_cons, Option.some.injEq]
      constructor
      · intro h1; cases h1
      · rintro ⟨ph1, err1, ⟨h1, h2⟩, _⟩
        subst h1
        rw [hc] at h2; cases h2

theorem loop_fuel_succ (r : Repository) :
    ∀ (fuel : Nat) (acc : List Commit) (c : Option Commit),
      FirstParentList.loop r fuel acc c ≠ .diverge →
      FirstParentList.loop r (fuel + 1) acc c = FirstParentList.loop r fuel acc c := by
  intro fuel
  induction fuel with
  | zero => intro acc c h; exact absurd rfl h
  | succ fuel ih =>
    intro acc c h
    cases c with
    | none => rfl
    | some x =>
      unfold FirstParentList.loop at h ⊢
      cases hf : FirstParent r (some x) with
      | error err => rfl
      | ok next =>
        simp only [hf] at h ⊢
        exact ih _ _ h

theorem loop_fuel_le (r : Repository) (fuel : Nat) (acc : List Commit)
    (c : Option Commit) (h : FirstParentList.loop r fuel acc c ≠ .diverge) :
    ∀ fuel1, fuel ≤ fuel1 →
      FirstParentList.loop r fuel1 acc c = FirstParentList.loop r fuel acc c := by
  intro fuel1 hle
  induction hle with
  | refl => rfl
  | step _ ih =>
    rw [loop_fuel_succ r _ acc c (by rw [ih]; exact h), ih]

theorem loop_error_walk (r : Repository) :
    ∀ (fuel : Nat) (acc : List Commit) (s : Commit) (e : String),
      FirstParentList.loop r fuel acc (some s) = .error e →
      ∃ c ph err, OnWalk r s c ∧ UnresolvedFirstParent r c ph err ∧
        e = firstParentFailure c ph err := by
  intro fuel
  induction fuel with
  | zero => intro acc s e h; simp [FirstParentList.loop] at h
  | succ fuel ih =>
    intro acc s e h
    unfold FirstParentList.loop at h
    cases hf : FirstParent r (some s) with
    | error err1 =>
      simp only [hf, Outcome.error.injEq] at h
      obtain ⟨ph, err, hu, he⟩ := (FirstParent_error_iff r s err1).1 hf
      refine ⟨s, ph, err, Relation.ReflTransGen.refl, hu, ?_⟩
      rw [← h, he]
      rfl
    | ok next =>
      simp only [hf] at h
      cases next with
      | none =>
        cases fuel with
        | zero => simp [FirstParentList.loop] at h
        | succ fuel => simp [FirstParentList.loop] at h
      | some d =>
        obtain ⟨c, ph, err, hw, hu, he⟩ := ih _ d e h
        exact ⟨c, ph, err, Relation.ReflTransGen.head hf hw, hu, he⟩

theorem walk_error_loop (r : Repository) (s c : Commit) (ph : Hash) (err : String)
    (hw : OnWalk r s c) (hu : UnresolvedFirstParent r c ph err) :
    ∃ fuel, ∀ acc, FirstParentList.loop r fuel acc (some s) =
      .error (firstParentFailure c ph err) := by
  unfold OnWalk at hw
  refine Relation.ReflTransGen.head_induction_on hw ?_ ?_
  · refine ⟨1, fun acc => ?_⟩
    have hf : FirstParent r (some c) =
        .error ("failed to get " ++ hashString ph ++ ": " ++ err) :=
      (FirstParent_error_iff r c _).2 ⟨ph, err, hu, rfl⟩
    simp only [FirstParentList.loop, hf]
    rfl
  · intro a b hab _ ih
    obtain ⟨fuel, hfuel⟩ := ih
    refine ⟨fuel + 1, fun acc => ?_⟩
    have hf : FirstParent r (some a) = .ok (some b) := hab
    simp only [FirstParentList.loop, hf]
    exact hfuel _

theorem contains_firstParentFailure (c : Commit) (ph : Hash) (err : String) :
    Contains (firstParentFailure c ph err) (hashString ph) ∧
    Contains (firstParentFailure c ph err) (hashString c.Hash) :=
  ⟨⟨"failed to get first parent of " ++ hashString c.Hash ++ ": failed to get ",
      ": " ++ err, by
        have h : ∀ X : String, ": " ++ ("failed to get " ++ X) = ": failed to get " ++ X :=
          fun X => by rw [← String.append_assoc]; rfl
        simp [firstParentFailure, String.append_assoc, h]⟩,
    ⟨"failed to get first parent of ",
      ": " ++ ("failed to get " ++ hashString ph ++ ": " ++ err),
      by simp [firstParentFailure, String.append_assoc]⟩⟩

/-- C11: `FirstParentList` fails exactly when a first parent is unresolvable: from a
start commit it returns an error (which carries no list) if and only if some commit on
the first-parent walk from the start has a first parent hash the store cannot resolve;
the error stays the same with more loop iterations allowed, and its text contains both
that parent hash and the hash of the commit being expanded. -/
theorem FirstParentList_error_iff_unresolved_first_parent (r : Repository)
    (start : Commit) :
    ((∃ fuel e, FirstParentList fuel r (some start) = .error e) ↔
      ∃ c ph err, OnWalk r start c ∧ UnresolvedFirstParent r c ph err) ∧
    ∀ fuel e, FirstParentList fuel r (some start) = .error e →
      (∀ fuel1, fuel ≤ fuel1 → FirstParentList fuel1 r (some start) = .error e) ∧
      ∃ c ph err, OnWalk r start c ∧ UnresolvedFirstParent r c ph err ∧
        Contains e (hashString ph) ∧ Contains e (hashString c.Hash) := by
  have hfail : ∀ fuel e, FirstParentList fuel r (some start) = .error e →
      ∃ c ph err, OnWalk r start c ∧ UnresolvedFirstParent r c ph err ∧
        Contains e (hashString ph) ∧ Contains e (hashString c.Hash) := by
    intro fuel e he
    obtain ⟨c, ph, err, h1, h2, h3⟩ := loop_error_walk r fuel [] start e he
    rw [h3]
    exact ⟨c, ph, err, h1, h2, contains_firstParentFailure c ph err⟩
  refine ⟨⟨?_, ?_⟩, ?_⟩
  · rintro ⟨fuel, e, he⟩
    obtain ⟨c, ph, err, h1, h2, _⟩ := hfail fuel e he
    exact ⟨c, ph, err, h1, h2⟩
  · rintro ⟨c, ph, err, h1, h2⟩
    obtain ⟨fuel, hfuel⟩ := walk_error_loop r start c ph err h1 h2
    exact ⟨fuel, _, hfuel []⟩
  · intro fuel e he
    refine ⟨fun fuel1 hle => ?_, hfail fuel e he⟩
    have := loop_fuel_le r fuel [] (some start)
      (by
        have h1 : FirstParentList.loop r fuel [] (some start) = .error e := he
        rw [h1]
        exact fun h => by cases h) fuel1 hle
    exact this.trans he

theorem loop_terminates_aux (r : Repository) (hacyc : Acyclic r) :
    ∀ (n : Nat) (vis : List Hash) (ph : Hash) (c : Commit) (acc : List Commit),
      vis.Nodup → (∀ v ∈ vis, v ∈ r.map Prod.fst ∧ Relation.TransGen (Parent r) v ph) →
      CommitObject r ph = .ok c → r.length ≤ vis.length + n →
      FirstParentList.loop r (n + 2) acc (some c) ≠ .diverge := by
  intro n
  induction n with
  | zero =>
    intro vis ph c acc hnd hvis hc hlen
    exfalso
    have hph : ph ∉ vis := fun hin => hacyc ph (hvis ph hin).2
    have hkey : ph ∈ r.map Prod.fst := List.mem_map.2 ⟨(ph, c), CommitObject_ok_mem hc, rfl⟩
    have hnd1 : (ph :: vis).Nodup := List.nodup_cons.2 ⟨hph, hnd⟩
    have hsub : (ph :: vis) ⊆ r.map Prod.fst := by
      intro x hx
      rcases List.mem_cons.1 hx with rfl | hx1
      · exact hkey
      · exact (hvis x hx1).1
    have := (hnd1.subperm hsub).length_le
    simp only [List.length_cons, List.length_map] at this
    omega
  | succ n ih =>
    intro vis ph c acc hnd hvis hc hlen
    unfold FirstParentList.loop
    cases hf : FirstParent r (some c) with
    | error err => simp
    | ok next =>
      simp only
      cases next with
      | none => simp [FirstParentList.loop]
      | some d =>
        obtain ⟨ph1, hph1, hd⟩ := (FirstParent_ok_some r c d).1 hf
        have hstep : Parent r ph ph1 := ⟨c, hc, List.mem_of_mem_head? hph1⟩
        have hph : ph ∉ vis := fun hin => hacyc ph (hvis ph hin).2
        have hkey : ph ∈ r.map Prod.fst :=
          List.mem_map.2 ⟨(ph, c), CommitObject_ok_mem hc, rfl⟩
        apply ih (ph :: vis) ph1 d _ (List.nodup_cons.2 ⟨hph, hnd⟩) _ hd
        · simp only [List.length_cons]; omega
        · intro v hv
          rcases List.mem_cons.1 hv with rfl | hv1
          · exact ⟨hkey, Relation.TransGen.single hstep⟩
          · exact ⟨(hvis v hv1).1, Relation.TransGen.tail (hvis v hv1).2 hstep⟩

theorem FirstParentList_budget (r : Repository) (hacyc : Acyclic r)
    (start : Option Commit) : FirstParentList (r.length + 3) r start ≠ .diverge := by
  unfold FirstParentList
  cases start with
  | none => simp [FirstParentList.loop]
  | some s =>
    unfold FirstParentList.loop
    cases hf : FirstParent r (some s) with
    | error err => simp
    | ok next =>
      simp only
      cases next with
      | none => simp [FirstParentList.loop]
      | some d =>
        obtain ⟨ph1, _, hd⟩ := (FirstParent_ok_some r s d).1 hf
        exact loop_terminates_aux r hacyc r.length [] ph1 d _ List.nodup_nil
          (fun v hv => by simp at hv) hd (by simp)

theorem validChain_nodup {r : Repository} {l : List Commit} (hacyc : Acyclic r)
    (hv : ValidChain r l) : (l.map (·.Hash)).Nodup := by
  rw [List.nodup_iff_getElem?_ne_getElem?]
  intro i j hij hj heq
  rw [List.length_map] at hj
  have hi : i < l.length := by omega
  rw [List.getElem?_map, List.getElem?_map, List.getElem?_eq_getElem hi,
    List.getElem?_eq_getElem hj] at heq
  have hh : l[i].Hash = l[j].Hash := Option.some.inj heq
  have := chain_index_unique hacyc hv (List.getElem?_eq_getElem hi)
    (List.getElem?_eq_getElem hj) hh
  omega

theorem walk_hashes_nodup (r : Repository) (hacyc : Acyclic r) (hcons : StoreConsistent r)
    (s : Commit) (hs : ∀ c, CommitObject r s.Hash = .ok c → c = s) (l : List Commit)
    (hwalk : IsFirstParentWalk r l (some s)) : (l.map (·.Hash)).Nodup := by
  by_cases hres : ∃ c, CommitObject r s.Hash = .ok c
  · obtain ⟨c, hc⟩ := hres
    have hcs := hs c hc
    subst hcs
    exact validChain_nodup hacyc (walk_valid r hcons l c hwalk hc)
  · cases l with
    | nil => exact List.nodup_nil
    | cons x rest =>
      obtain ⟨hx, next, hn, hrest⟩ := hwalk
      have hxs : s = x := Option.some.inj hx
      subst hxs
      cases rest with
      | nil => simp
      | cons d rest1 =>
        have hnd : next = some d := hrest.1
        subst hnd
        obtain ⟨ph, _, hd⟩ := (FirstParent_ok_some r s d).1 hn
        have hdh : d.Hash = ph := hcons ph d hd
        have hv : ValidChain r (d :: rest1) :=
          walk_valid r hcons (d :: rest1) d hrest (by rw [hdh]; exact hd)
        rw [List.map_cons]
        refine List.nodup_cons.2 ⟨?_, validChain_nodup hacyc hv⟩
        intro hin
        obtain ⟨c, hc, hch⟩ := List.mem_map.1 hin
        have hch1 : c.Hash = s.Hash := hch
        exact hres ⟨c, by rw [← hch1]; exact hv.1 c hc⟩

/-- C12: `FirstParentList` terminates and never revisits a commit on a DAG: on an acyclic
store the loop ends within `r.length + 3` iterations from every start commit, with the
same outcome for every larger bound; and when it succeeds, the store returning commits
under their own hash and the hash of the start commit naming no other commit, no hash
occurs twice in the chain. -/
theorem FirstParentList_terminates_without_revisit (r : Repository) (hacyc : Acyclic r)
    (start : Option Commit) :
    (∃ out, out ≠ .diverge ∧
      ∀ fuel, r.length + 3 ≤ fuel → FirstParentList fuel r start = out) ∧
    ∀ fuel l, StoreConsistent r →
      (∀ s c, start = some s → CommitObject r s.Hash = .ok c → c = s) →
      FirstParentList fuel r start = .ok l → (l.map (·.Hash)).Nodup := by
  constructor
  · exact ⟨FirstParentList (r.length + 3) r start, FirstParentList_budget r hacyc start,
      fun fuel hle => loop_fuel_le r _ [] start (FirstParentList_budget r hacyc start) fuel hle⟩
  · intro fuel l hcons hstart hok
    have hwalk := (FirstParentList_ok_iff_walk r start l).1 ⟨fuel, hok⟩
    cases start with
    | none =>
      have : l = [] := ((walk_iff_chain r l none).1 hwalk).1.2 rfl
      subst this
      exact List.nodup_nil
    | some s =>
      exact walk_hashes_nodup r hacyc hcons s (fun c hc => hstart s c rfl hc) l hwalk

theorem FirstParentList_terminates_without_revisit_witness :
    (∃ out, out ≠ .diverge ∧
      ∀ fuel, demoRepo.length + 3 ≤ fuel →
        FirstParentList fuel demoRepo (some (mkCommit 8 [7])) = out) ∧
    (demoChain.map (·.Hash)).Nodup :=
  ⟨(FirstParentList_terminates_without_revisit demoRepo
      (acyclic_of_decreasing demoRepo (by decide)) (some (mkCommit 8 [7]))).1,
    (FirstParentList_terminates_without_revisit demoRepo
      (acyclic_of_decreasing demoRepo (by decide)) (some (mkCommit 8 [7]))).2 10 demoChain
      (storeOf_consistent demoCommits)
      (fun s c hs hc => by
        cases hs
        rw [CommitObject_eq_ok_iff] at hc
        exact (Option.some.inj hc).symm)
      (by decide)⟩

/-! ## The trace of `MergePoints` -/

theorem forParentsT_fst (f : Hash → VisitState → Outcome VisitState)
    (fT : Hash → VisitState → Outcome VisitState × List Event)
    (hf : ∀ h st, (fT h st).1 = f h st) :
    ∀ phs st, (forParentsT fT phs st).1 = forParents f phs st := by
  intro phs
  induction phs with
  | nil => intro st; rfl
  | cons ph phs ih =>
    intro st
    have h1 := hf ph st
    unfold forParentsT forParents
    rcases hv : fT ph st with ⟨out, evs⟩
    rw [hv] at h1
    simp only at h1
    rw [← h1]
    cases out with
    | ok st1 => exact ih st1
    | error e => rfl
    | panic => rfl
    | diverge => rfl

theorem visitT_fst (r : Repository) (mainLinePos : GoMap Nat) :
    ∀ fuel pos h st,
      (visitT r mainLinePos fuel pos h st).1 = visit r mainLinePos fuel pos h st := by
  intro fuel
  induction fuel with
  | zero => intro pos h st; rfl
  | succ fuel ih =>
    intro pos h st
    unfold visitT visit
    by_cases hon : (mapGet mainLinePos h).isSome
    · rw [if_pos hon, if_pos hon]
    rw [if_neg hon, if_neg hon]
    by_cases hseen : (mapGet st.earliestMergePoints h).isSome
    · rw [if_pos hseen, if_pos hseen]
    rw [if_neg hseen, if_neg hseen]
    cases hs : mapGet st.seen h with
    | some c =>
      simp only [hs]
      exact forParentsT_fst _ _ (ih pos) _ _
    | none =>
      simp only [hs]
      cases hc : CommitObject r h with
      | error err => rfl
      | ok c => exact forParentsT_fst _ _ (ih pos) _ _

theorem mainLoopT_fst (r : Repository) (mainLine : List Commit) (mainLinePos : GoMap Nat)
    (fuel : Nat) :
    ∀ q st, (mainLoopT r mainLine mainLinePos fuel q st).1 =
      mainLoop r mainLine mainLinePos fuel q st := by
  intro q
  induction q with
  | zero => intro st; rfl
  | succ p ih =>
    intro st
    unfold mainLoopT mainLoop
    cases hc : mainLine[p]? with
    | none => rfl
    | some c =>
      simp only
      have h1 := forParentsT_fst _ _ (visitT_fst r mainLinePos fuel p) c.ParentHashes
        { earliestMergePoints := mapSet st.earliestMergePoints c.Hash p
          seen := mapSet st.seen c.Hash c }
      rcases hv : forParentsT (visitT r mainLinePos fuel p) c.ParentHashes
        { earliestMergePoints := mapSet st.earliestMergePoints c.Hash p
          seen := mapSet st.seen c.Hash c } with ⟨out, evs⟩
      rw [hv] at h1
      simp only at h1
      rw [← h1]
      cases out with
      | ok st1 => exact ih st1
      | error e => rfl
      | panic => rfl
      | diverge => rfl

theorem eventsOf_append (a b : List Hash) : eventsOf (a ++ b) = eventsOf a ++ eventsOf b := by
  simp [eventsOf, List.flatMap_append]

theorem eventsOf_cons (k : Hash) (a : List Hash) :
    eventsOf (k :: a) = .mark k :: .lookup k :: eventsOf a := by
  simp [eventsOf, List.flatMap_cons]

theorem none_of_mono {em em1 : GoMap Nat}
    (hmono : ∀ k v, mapGet em k = some v → mapGet em1 k = some v) {k : Hash}
    (h : mapGet em1 k = none) : mapGet em k = none := by
  cases hg : mapGet em k with
  | none => rfl
  | some v => rw [hmono k v hg] at h; cases h

theorem TraceSpec.seq {r : Repository} {mainLine : List Commit} {pos : Nat}
    {R R1 R2 : Hash → Prop} {st st1 : VisitState} {evs1 : List Event}
    {rest : Outcome VisitState × List Event}
    (hR1 : ∀ h, R1 h → R h) (hR2 : ∀ h, R2 h → R h)
    (hpost : VisitPost r mainLine pos R1 st st1)
    (hrest : ∀ st2, rest.1 = .ok st2 → ∀ k, (mapGet st1.earliestMergePoints k).isSome →
      (mapGet st2.earliestMergePoints k).isSome)
    (h1 : TraceSpec r mainLine R1 st (.ok st1, evs1))
    (h2 : TraceSpec r mainLine R2 st1 rest) :
    TraceSpec r mainLine R st (rest.1, evs1 ++ rest.2) := by
  obtain ⟨new1, e1, nd1, p1, q1⟩ := h1
  obtain ⟨new2, e2, nd2, p2, q2⟩ := h2
  simp only at e1 q1
  refine ⟨new1 ++ new2, by rw [eventsOf_append, e1, e2], ?_, ?_, ?_⟩
  · refine List.Nodup.append nd1 nd2 ?_
    intro k hk1 hk2
    have := (q1 k hk1).1
    rw [(p2 k hk2).1] at this
    cases this
  · intro k hk
    rcases List.mem_append.1 hk with hk1 | hk2
    · obtain ⟨a, b, h, hh, hp⟩ := p1 k hk1
      exact ⟨a, b, h, hR1 h hh, hp⟩
    · obtain ⟨a, b, h, hh, hp⟩ := p2 k hk2
      exact ⟨none_of_mono hpost.mono a, b, h, hR2 h hh, hp⟩
  · simp only
    cases hout : rest.1 with
    | ok st2 =>
      rw [hout] at q2
      intro k hk
      rcases List.mem_append.1 hk with hk1 | hk2
      · exact ⟨hrest st2 hout k (q1 k hk1).1, (q1 k hk1).2⟩
      · exact q2 k hk2
    | error e =>
      rw [hout] at q2
      obtain ⟨front, last, hf, hres, herr⟩ := q2
      refine ⟨new1 ++ front, last, by rw [hf, List.append_assoc], ?_, herr⟩
      intro k hk
      rcases List.mem_append.1 hk with hk1 | hk2
      · exact (q1 k hk1).2
      · exact hres k hk2
    | panic => trivial
    | diverge => trivial

theorem TraceSpec.weaken {r : Repository} {mainLine : List Commit}
    {R R1 : Hash → Prop} {st : VisitState} {res : Outcome VisitState × List Event}
    (hR : ∀ h, R1 h → R h) (h1 : TraceSpec r mainLine R1 st res) :
    TraceSpec r mainLine R st res := by
  obtain ⟨new1, e1, nd1, p1, q1⟩ := h1
  refine ⟨new1, e1, nd1, ?_, q1⟩
  intro k hk
  obtain ⟨a, b, h, hh, hp⟩ := p1 k hk
  exact ⟨a, b, h, hR h hh, hp⟩

theorem forParentsT_trace (r : Repository) (mainLine : List Commit) (pos budget : Nat)
    (fT : Hash → VisitState → Outcome VisitState × List Event)
    (hspec : ∀ h st, SeenMarked st →
      VisitSpec r mainLine pos budget (· = h) st (fT h st).1)
    (htrace : ∀ h st, SeenMarked st → TraceSpec r mainLine (· = h) st (fT h st)) :
    ∀ phs st, SeenMarked st →
      TraceSpec r mainLine (· ∈ phs) st (forParentsT fT phs st) := by
  intro phs
  induction phs with
  | nil =>
    intro st _
    exact ⟨[], rfl, List.nodup_nil, fun k hk => by simp at hk, fun k hk => by simp at hk⟩
  | cons ph phs ih =>
    intro st hs
    have h1 := hspec ph st hs
    have h2 := htrace ph st hs
    unfold forParentsT
    rcases hv : fT ph st with ⟨out, evs⟩
    rw [hv] at h1 h2
    cases out with
    | ok st1 =>
      have hpost : VisitPost r mainLine pos (· = ph) st st1 := h1
      have hs1 := hpost.seenMarked hs
      have hrestspec := forParents_spec r mainLine pos budget (fun h st => (fT h st).1)
        hspec phs st1 hs1
      rw [← forParentsT_fst (fun h st => (fT h st).1) fT (fun _ _ => rfl) phs st1]
        at hrestspec
      refine TraceSpec.seq (fun h hh => ?_) (fun h hh => List.mem_cons_of_mem _ hh) hpost
        ?_ h2 (ih st1 hs1)
      · rw [show h = ph from hh]; exact List.mem_cons_self _ _
      · intro st2 hout k hk
        rw [hout] at hrestspec
        have hp2 : VisitPost r mainLine pos (· ∈ phs) st1 st2 := hrestspec
        exact hp2.isSome_mono k hk
    | error e =>
      exact TraceSpec.weaken (fun h hh => by rw [show h = ph from hh]; exact List.mem_cons_self _ _) h2
    | panic =>
      exact TraceSpec.weaken (fun h hh => by rw [show h = ph from hh]; exact List.mem_cons_self _ _) h2
    | diverge =>
      exact TraceSpec.weaken (fun h hh => by rw [show h = ph from hh]; exact List.mem_cons_self _ _) h2

theorem visitT_trace (r : Repository) (mainLine : List Commit) (mainLinePos : GoMap Nat)
    (hmlp : ∀ h, (mapGet mainLinePos h).isSome ↔ OnChain mainLine h) (pos : Nat) :
    ∀ fuel h st, SeenMarked st →
      TraceSpec r mainLine (· = h) st (visitT r mainLinePos fuel pos h st) := by
  intro fuel
  induction fuel with
  | zero =>
    intro h st _
    exact ⟨[], rfl, List.nodup_nil, fun k hk => by simp at hk, trivial⟩
  | succ fuel ih =>
    intro h st hs
    have hspecT : ∀ k st, SeenMarked st →
        VisitSpec r mainLine pos fuel (· = k) st (visitT r mainLinePos fuel pos k st).1 := by
      intro k st hst
      rw [visitT_fst]
      exact visit_spec r mainLine mainLinePos hmlp pos fuel k st hst
    unfold visitT
    by_cases hon : (mapGet mainLinePos h).isSome
    · rw [if_pos hon]
      exact ⟨[], rfl, List.nodup_nil, fun k hk => by simp at hk, fun k hk => by simp at hk⟩
    rw [if_neg hon]
    by_cases hseen : (mapGet st.earliestMergePoints h).isSome
    · rw [if_pos hseen]
      exact ⟨[], rfl, List.nodup_nil, fun k hk => by simp at hk, fun k hk => by simp at hk⟩
    rw [if_neg hseen]
    have hoff : ¬ OnChain mainLine h := fun hc => hon ((hmlp _).2 hc)
    have hnone : mapGet st.earliestMergePoints h = none := by
      cases hg : mapGet st.earliestMergePoints h with
      | none => rfl
      | some v => rw [hg] at hseen; exact absurd rfl hseen
    have hnoseen : mapGet st.seen h = none := by
      cases hg : mapGet st.seen h with
      | none => rfl
      | some c =>
        have := hs _ (mem_of_mapGet _ _ _ hg)
        rw [hnone] at this; cases this
    simp only [hnoseen]
    cases hc : CommitObject r h with
    | error err =>
      refine ⟨[h], rfl, List.nodup_singleton h, ?_, [], h, rfl, fun k hk => by simp at hk,
        err, hc⟩
      intro k hk
      rw [List.mem_singleton] at hk
      subst hk
      exact ⟨hnone, hoff, k, rfl, Relation.ReflTransGen.refl⟩
    | ok c =>
      simp only
      have hget2 : ∀ k, mapGet (mapSet st.earliestMergePoints h pos) k =
          if k = h then some pos else mapGet st.earliestMergePoints k :=
        fun k => mapGet_mapSet _ _ _ _
      have hs2 : SeenMarked
          { earliestMergePoints := mapSet st.earliestMergePoints h pos
            seen := mapSet st.seen h c } := by
        intro e he
        show (mapGet (mapSet st.earliestMergePoints h pos) e.1).isSome
        rw [hget2]
        rcases (mem_mapSet _ _ _ _).1 he with h1 | ⟨h1, h2⟩
        · subst h1; simp
        · rw [if_neg h2]; exact hs e h1
      have hrec := forParentsT_trace r mainLine pos fuel (visitT r mainLinePos fuel pos)
        hspecT (fun k st hst => ih k st hst) c.ParentHashes _ hs2
      have hrecspec := forParents_spec r mainLine pos fuel
        (fun k st => (visitT r mainLinePos fuel pos k st).1) hspecT c.ParentHashes _ hs2
      rw [← forParentsT_fst (fun k st => (visitT r mainLinePos fuel pos k st).1)
        (visitT r mainLinePos fuel pos) (fun _ _ => rfl)] at hrecspec
      generalize forParentsT (visitT r mainLinePos fuel pos) c.ParentHashes
        { earliestMergePoints := mapSet st.earliestMergePoints h pos
          seen := mapSet st.seen h c } = rest at hrec hrecspec
      obtain ⟨new1, e1, nd1, p1, q1⟩ := hrec
      refine ⟨h :: new1, by rw [eventsOf_cons, e1], ?_, ?_, ?_⟩
      · refine List.nodup_cons.2 ⟨fun hin => ?_, nd1⟩
        have h5 : mapGet (mapSet st.earliestMergePoints h pos) h = none := (p1 h hin).1
        rw [hget2, if_pos rfl] at h5
        cases h5
      · intro k hk
        rcases List.mem_cons.1 hk with rfl | hk1
        · exact ⟨hnone, hoff, k, rfl, Relation.ReflTransGen.refl⟩
        · obtain ⟨a, b, ph, hph, hpath⟩ := p1 k hk1
          have a1 : mapGet (mapSet st.earliestMergePoints h pos) k = none := a
          rw [hget2] at a1
          by_cases hkh : k = h
          · rw [if_pos hkh] at a1; cases a1
          · rw [if_neg hkh] at a1
            exact ⟨a1, b, h, rfl, Relation.ReflTransGen.head ⟨hoff, c, hc, hph⟩ hpath⟩
      · simp only
        cases hout : rest.1 with
        | ok st3 =>
          rw [hout] at q1 hrecspec
          have hp : VisitPost r mainLine pos (· ∈ c.ParentHashes) _ st3 := hrecspec
          intro k hk
          rcases List.mem_cons.1 hk with rfl | hk1
          · refine ⟨hp.isSome_mono k ?_, c, hc⟩
            show (mapGet (mapSet st.earliestMergePoints k pos) k).isSome
            rw [hget2, if_pos rfl]; rfl
          · exact q1 k hk1
        | error e =>
          rw [hout] at q1
          obtain ⟨front, last, hf, hres, herr⟩ := q1
          refine ⟨h :: front, last, by rw [hf]; rfl, ?_, herr⟩
          intro k hk
          rcases List.mem_cons.1 hk with rfl | hk1
          · exact ⟨c, hc⟩
          · exact hres k hk1
        | panic => trivial
        | diverge => trivial

theorem chainParent_sideReach {r : Repository} {mainLine : List Commit} {k : Hash}
    (hoff : ¬ OnChain mainLine k)
    (h : ∃ h, ChainParent mainLine h ∧
      Relation.ReflTransGen (OffStep r mainLine) h k) :
    ∃ p, SideReach r mainLine p k := by
  obtain ⟨ph, ⟨p, c, hc, hph⟩, hpath⟩ := h
  exact ⟨p, c, hc, ph, hph, hpath, hoff⟩

theorem mainLoopT_trace (r : Repository) (mainLine : List Commit) (mainLinePos : GoMap Nat)
    (hmlp : ∀ h, (mapGet mainLinePos h).isSome ↔ OnChain mainLine h) (fuel : Nat)
    (hfuel : r.length < fuel) :
    ∀ q st, q ≤ mainLine.length → LoopInv r mainLine q st →
      TraceSpec r mainLine (ChainParent mainLine) st
        (mainLoopT r mainLine mainLinePos fuel q st) := by
  intro q
  induction q with
  | zero =>
    intro st _ _
    exact ⟨[], rfl, List.nodup_nil, fun k hk => by simp at hk, fun k hk => by simp at hk⟩
  | succ p ih =>
    intro st hq hinv
    unfold mainLoopT
    have hp : p < mainLine.length := hq
    rw [List.getElem?_eq_getElem hp]
    simp only
    have hcp : mainLine[p]? = some mainLine[p] := List.getElem?_eq_getElem hp
    generalize mainLine[p] = cp at hcp
    have hget1 : ∀ k, mapGet (mapSet st.earliestMergePoints cp.Hash p) k =
        if k = cp.Hash then some p else mapGet st.earliestMergePoints k :=
      fun k => mapGet_mapSet _ _ _ _
    have hmono1 : ∀ k, mapGet (mapSet st.earliestMergePoints cp.Hash p) k = none →
        mapGet st.earliestMergePoints k = none := by
      intro k hk
      rw [hget1] at hk
      by_cases hkc : k = cp.Hash
      · rw [if_pos hkc] at hk; cases hk
      · rw [if_neg hkc] at hk; exact hk
    have hs1 : SeenMarked
        { earliestMergePoints := mapSet st.earliestMergePoints cp.Hash p
          seen := mapSet st.seen cp.Hash cp } := by
      intro e he
      show (mapGet (mapSet st.earliestMergePoints cp.Hash p) e.1).isSome
      rw [hget1]
      rcases (mem_mapSet _ _ _ _).1 he with h1 | ⟨h1, h2⟩
      · subst h1; simp
      · rw [if_neg h2]; exact (hinv.seen e h1).1
    have hspecT : ∀ k st, SeenMarked st →
        VisitSpec r mainLine p fuel (· = k) st (visitT r mainLinePos fuel p k st).1 := by
      intro k st hst
      rw [visitT_fst]
      exact visit_spec r mainLine mainLinePos hmlp p fuel k st hst
    have hrec := forParentsT_trace r mainLine p fuel (visitT r mainLinePos fuel p) hspecT
      (fun k st hst => visitT_trace r mainLine mainLinePos hmlp p fuel k st hst)
      cp.ParentHashes _ hs1
    have hrecspec := forParents_spec r mainLine p fuel
      (fun k st => (visitT r mainLinePos fuel p k st).1) hspecT cp.ParentHashes _ hs1
    rw [← forParentsT_fst (fun k st => (visitT r mainLinePos fuel p k st).1)
      (visitT r mainLinePos fuel p) (fun _ _ => rfl)] at hrecspec
    have hroot : ∀ h, h ∈ cp.ParentHashes → ChainParent mainLine h :=
      fun h hh => ⟨p, cp, hcp, hh⟩
    have hlift : ∀ res, TraceSpec r mainLine (· ∈ cp.ParentHashes)
        { earliestMergePoints := mapSet st.earliestMergePoints cp.Hash p
          seen := mapSet st.seen cp.Hash cp } res →
        TraceSpec r mainLine (ChainParent mainLine)
          st res := by
      rintro res ⟨new1, e1, nd1, p1, q1⟩
      refine ⟨new1, e1, nd1, ?_, q1⟩
      intro k hk
      obtain ⟨a, b, h, hh, hpath⟩ := p1 k hk
      exact ⟨hmono1 k a, b, h, hroot h hh, hpath⟩
    rcases hv : forParentsT (visitT r mainLinePos fuel p) cp.ParentHashes
        { earliestMergePoints := mapSet st.earliestMergePoints cp.Hash p
          seen := mapSet st.seen cp.Hash cp } with ⟨out, evs⟩
    rw [hv] at hrec hrecspec
    cases out with
    | ok st2 =>
      have hpost : VisitPost r mainLine p (· ∈ cp.ParentHashes) _ st2 := hrecspec
      have hinv2 := hinv.step hcp hpost
      have hrest := ih st2 (Nat.le_of_lt hp) hinv2
      simp only
      obtain ⟨new1, e1, nd1, p1, q1⟩ := hlift _ hrec
      obtain ⟨new2, e2, nd2, p2, q2⟩ := hrest
      simp only at e1 q1
      refine ⟨new1 ++ new2, by rw [eventsOf_append, e1, e2], ?_, ?_, ?_⟩
      · refine List.Nodup.append nd1 nd2 ?_
        intro k hk1 hk2
        have := (q1 k hk1).1
        rw [(p2 k hk2).1] at this
        cases this
      · intro k hk
        rcases List.mem_append.1 hk with hk1 | hk2
        · exact p1 k hk1
        · obtain ⟨a, b, c⟩ := p2 k hk2
          refine ⟨hmono1 k (none_of_mono hpost.mono a), b, c⟩
      · have hloopspec := mainLoop_spec r mainLine mainLinePos hmlp fuel hfuel p st2
          (Nat.le_of_lt hp) hinv2
        rw [← mainLoopT_fst] at hloopspec
        simp only
        cases hout : (mainLoopT r mainLine mainLinePos fuel p st2).1 with
        | ok st3 =>
          rw [hout] at q2
          intro k hk
          rcases List.mem_append.1 hk with hk1 | hk2
          · rw [hout] at hloopspec
            have hinv3 : LoopInv r mainLine 0 st3 := hloopspec
            obtain ⟨_, hoffk, hroots⟩ := p1 k hk1
            obtain ⟨p3, hside⟩ := chainParent_sideReach hoffk hroots
            exact ⟨hinv3.complete p3 k (Nat.zero_le _) hside, (q1 k hk1).2⟩
          · exact q2 k hk2
        | error e =>
          rw [hout] at q2
          obtain ⟨front, last, hf, hres, herr⟩ := q2
          refine ⟨new1 ++ front, last, by rw [hf, List.append_assoc], ?_, herr⟩
          intro k hk
          rcases List.mem_append.1 hk with hk1 | hk2
          · exact (q1 k hk1).2
          · exact hres k hk2
        | panic => trivial
        | diverge => trivial
    | error e => exact hlift _ hrec
    | panic => exact hlift _ hrec
    | diverge => exact hlift _ hrec

theorem marks_eventsOf (new : List Hash) :
    (eventsOf new).filterMap (fun
      | .mark h => some h
      | .lookup _ => none) = new := by
  induction new with
  | nil => rfl
  | cons k rest ih => rw [eventsOf_cons]; simp [List.filterMap_cons, ih]

theorem lookups_eventsOf (new : List Hash) :
    (eventsOf new).filterMap (fun
      | .mark _ => none
      | .lookup h => some h) = new := by
  induction new with
  | nil => rfl
  | cons k rest ih => rw [eventsOf_cons]; simp [List.filterMap_cons, ih]

theorem mainLinePos_spec (mainLine : List Commit) :
    ∀ h, (mapGet (buildMainLinePos mainLine 0 []) h).isSome ↔ OnChain mainLine h := by
  intro h
  rw [buildMainLinePos_isSome]
  simp [mapGet]

theorem MergePoints_eq_of_loop (r : Repository) (mainLine : List Commit) :
    (∀ e, (mainLoopT r mainLine (buildMainLinePos mainLine 0 []) (r.length + 1)
        mainLine.length ⟨[], []⟩).1 = .error e → MergePoints r mainLine = .error e) := by
  intro e he
  rw [mainLoopT_fst] at he
  unfold MergePoints MergePointsFuel
  simp only [he]

/-- The hashes of the non-trivial visits of a call of `MergePoints`: they are distinct,
each is looked up, each is an off-chain hash that a side branch reaches, and the store
resolves all of them, but the last one of a call that fails. -/
theorem MergePoints_trace (r : Repository) (mainLine : List Commit) :
    ∃ new : List Hash, nonTrivialVisits r mainLine = new ∧ storeLookups r mainLine = new ∧
      new.Nodup ∧ (∀ k ∈ new, ¬ OnChain mainLine k ∧ ∃ p, SideReach r mainLine p k) ∧
      ((∀ k ∈ new, ∃ c, CommitObject r k = .ok c) ∨
        ((∃ e, MergePoints r mainLine = .error e) ∧
          ∃ front last, new = front ++ [last] ∧
            ∀ k ∈ front, ∃ c, CommitObject r k = .ok c)) := by
  have hmlp := mainLinePos_spec mainLine
  have htrace := mainLoopT_trace r mainLine _ hmlp (r.length + 1) (Nat.lt_succ_self _)
    mainLine.length ⟨[], []⟩ (le_refl _) (LoopInv.init r mainLine)
  have hspec := mainLoop_spec r mainLine _ hmlp (r.length + 1) (Nat.lt_succ_self _)
    mainLine.length ⟨[], []⟩ (le_refl _) (LoopInv.init r mainLine)
  rw [← mainLoopT_fst] at hspec
  have herr := MergePoints_eq_of_loop r mainLine
  obtain ⟨new, e1, nd, p1, q1⟩ := htrace
  refine ⟨new, ?_, ?_, nd, ?_, ?_⟩
  · unfold nonTrivialVisits MergePointsEvents
    rw [e1, marks_eventsOf]
  · unfold storeLookups MergePointsEvents
    rw [e1, lookups_eventsOf]
  · intro k hk
    obtain ⟨_, hoff, hroots⟩ := p1 k hk
    exact ⟨hoff, chainParent_sideReach hoff hroots⟩
  · cases hout : (mainLoopT r mainLine (buildMainLinePos mainLine 0 []) (r.length + 1)
        mainLine.length ⟨[], []⟩).1 with
    | ok st =>
      rw [hout] at q1
      exact Or.inl fun k hk => (q1 k hk).2
    | error e =>
      rw [hout] at q1
      obtain ⟨front, last, hf, hres, _⟩ := q1
      exact Or.inr ⟨⟨e, herr e hout⟩, front, last, hf, hres⟩
    | panic => rw [hout] at hspec; exact hspec.elim
    | diverge => rw [hout] at hspec; exact hspec.elim

theorem mem_storeHashes_of_resolved {r : Repository} {k : Hash}
    (h : ∃ c, CommitObject r k = .ok c) : k ∈ storeHashes r := by
  obtain ⟨c, hc⟩ := h
  exact List.mem_dedup.2 (List.mem_map.2 ⟨(k, c), CommitObject_ok_mem hc, rfl⟩)

theorem length_le_of_nodup_subset {l : List Hash} {u : List Hash} (hnd : l.Nodup)
    (hsub : ∀ k ∈ l, k ∈ u) : l.length ≤ u.length :=
  (hnd.subperm hsub).length_le

theorem forParents_fuel (f g : Hash → VisitState → Outcome VisitState)
    (hfg : ∀ h st, f h st ≠ .diverge → g h st = f h st) :
    ∀ phs st, forParents f phs st ≠ .diverge → forParents g phs st = forParents f phs st := by
  intro phs
  induction phs with
  | nil => intro st _; rfl
  | cons ph phs ih =>
    intro st h
    unfold forParents at h ⊢
    cases hv : f ph st with
    | ok st1 =>
      rw [hv] at h
      rw [hfg ph st (by rw [hv]; exact fun h1 => by cases h1), hv]
      exact ih st1 h
    | error e =>
      rw [hfg ph st (by rw [hv]; exact fun h1 => by cases h1), hv]
    | panic =>
      rw [hfg ph st (by rw [hv]; exact fun h1 => by cases h1), hv]
    | diverge => rw [hv] at h; exact absurd rfl h

theorem visit_fuel_succ (r : Repository) (mainLinePos : GoMap Nat) :
    ∀ fuel pos h st, visit r mainLinePos fuel pos h st ≠ .diverge →
      visit r mainLinePos (fuel + 1) pos h st = visit r mainLinePos fuel pos h st := by
  intro fuel
  induction fuel with
  | zero => intro pos h st hne; exact absurd rfl hne
  | succ fuel ih =>
    intro pos h st hne
    unfold visit at hne ⊢
    by_cases hon : (mapGet mainLinePos h).isSome
    · rw [if_pos hon, if_pos hon]
    rw [if_neg hon] at hne ⊢
    rw [if_neg hon]
    by_cases hseen : (mapGet st.earliestMergePoints h).isSome
    · rw [if_pos hseen, if_pos hseen]
    rw [if_neg hseen] at hne ⊢
    rw [if_neg hseen]
    cases hs : mapGet st.seen h with
    | some c =>
      simp only [hs] at hne ⊢
      exact forParents_fuel _ _ (ih pos) _ _ hne
    | none =>
      simp only [hs] at hne ⊢
      cases hc : CommitObject r h with
      | error err => rfl
      | ok c =>
        simp only [hc] at hne ⊢
        exact forParents_fuel _ _ (ih pos) _ _ hne

theorem mainLoop_fuel_succ (r : Repository) (mainLine : List Commit)
    (mainLinePos : GoMap Nat) (fuel : Nat) :
    ∀ q st, mainLoop r mainLine mainLinePos fuel q st ≠ .diverge →
      mainLoop r mainLine mainLinePos (fuel + 1) q st =
        mainLoop r mainLine mainLinePos fuel q st := by
  intro q
  induction q with
  | zero => intro st _; rfl
  | succ p ih =>
    intro st hne
    unfold mainLoop at hne ⊢
    cases hc : mainLine[p]? with
    | none => rfl
    | some c =>
      simp only [hc] at hne ⊢
      have hfp := forParents_fuel (visit r mainLinePos fuel p) (visit r mainLinePos (fuel + 1) p)
        (visit_fuel_succ r mainLinePos fuel p) c.ParentHashes
        { earliestMergePoints := mapSet st.earliestMergePoints c.Hash p
          seen := mapSet st.seen c.Hash c }
      cases hv : forParents (visit r mainLinePos fuel p) c.ParentHashes
        { earliestMergePoints := mapSet st.earliestMergePoints c.Hash p
          seen := mapSet st.seen c.Hash c } with
      | ok st2 =>
        rw [hv] at hne hfp
        rw [hfp (fun h1 => by cases h1)]
        exact ih st2 hne
      | error e =>
        rw [hv] at hfp
        rw [hfp (fun h1 => by cases h1)]
      | panic =>
        rw [hv] at hfp
        rw [hfp (fun h1 => by cases h1)]
      | diverge => rw [hv] at hne; exact absurd rfl hne

theorem MergePointsFuel_stable (r : Repository) (mainLine : List Commit) :
    ∀ fuel, r.length < fuel → MergePointsFuel fuel r mainLine = MergePoints r mainLine := by
  intro fuel hfuel
  have hmlp := mainLinePos_spec mainLine
  have hstep : ∀ n, r.length < n →
      MergePointsFuel (n + 1) r mainLine = MergePointsFuel n r mainLine := by
    intro n hn
    have hspec := mainLoop_spec r mainLine _ hmlp n hn mainLine.length ⟨[], []⟩ (le_refl _)
      (LoopInv.init r mainLine)
    have hne : mainLoop r mainLine (buildMainLinePos mainLine 0 []) n mainLine.length
        ⟨[], []⟩ ≠ .diverge := by
      intro h1
      rw [h1] at hspec
      exact hspec
    unfold MergePointsFuel
    simp only
    rw [mainLoop_fuel_succ r mainLine _ n _ _ hne]
  have hle : r.length + 1 ≤ fuel := hfuel
  unfold MergePoints
  induction hle with
  | refl => rfl
  | step hm ih => rw [hstep _ (Nat.lt_of_succ_le hm), ih (Nat.lt_of_succ_le hm)]

theorem visits_le_of_resolved {r : Repository} {new : List Hash} (hnd : new.Nodup)
    (hres : ∀ k ∈ new, ∃ c, CommitObject r k = .ok c) :
    new.length ≤ (storeHashes r).length :=
  length_le_of_nodup_subset hnd fun k hk => mem_storeHashes_of_resolved (hres k hk)

/-- C17, as amended: `MergePoints` terminates on every finite store, cyclic or not: the
recursion budget is never used up and every larger budget gives the same result.  The
visits that do not return at once take distinct hashes, and the store resolves all of
them but a last one that fails, so their number is at most the number of distinct
hashes of the store plus one; it is at most the number of distinct hashes of the store
when the call succeeds, and when the hashes of the chain commits are in the store. -/
theorem MergePoints_terminates_with_bounded_visits (r : Repository)
    (mainLine : List Commit) :
    MergePoints r mainLine ≠ .diverge ∧
    (∀ fuel, r.length < fuel → MergePointsFuel fuel r mainLine = MergePoints r mainLine) ∧
    (nonTrivialVisits r mainLine).Nodup ∧
    (nonTrivialVisits r mainLine).length ≤ (storeHashes r).length + 1 ∧
    ((∃ t, MergePoints r mainLine = .ok t) →
      (nonTrivialVisits r mainLine).length ≤ (storeHashes r).length) ∧
    ((∀ c ∈ mainLine, c.Hash ∈ storeHashes r) →
      (nonTrivialVisits r mainLine).length ≤ (storeHashes r).length) := by
  obtain ⟨new, hv, _, hnd, hside, hcases⟩ := MergePoints_trace r mainLine
  rw [hv]
  refine ⟨(MergePoints_never_diverges r mainLine).1, MergePointsFuel_stable r mainLine, hnd,
    ?_, ?_, ?_⟩
  · rcases hcases with hres | ⟨_, front, last, hf, hres⟩
    · exact Nat.le_succ_of_le (visits_le_of_resolved hnd hres)
    · have hndf : front.Nodup := by
        rw [hf] at hnd
        exact (List.nodup_append.1 hnd).1
      have := visits_le_of_resolved hndf hres
      rw [hf, List.length_append, List.length_singleton]
      omega
  · rintro ⟨t, ht⟩
    rcases hcases with hres | ⟨⟨e, he⟩, _⟩
    · exact visits_le_of_resolved hnd hres
    · rw [ht] at he; cases he
  · intro hstored
    rcases hcases with hres | ⟨_, front, last, hf, hres⟩
    · exact visits_le_of_resolved hnd hres
    · have hlast : last ∈ new := by rw [hf]; simp
      obtain ⟨_, p, c, hc, _⟩ := hside last hlast
      have hcOn : OnChain mainLine c.Hash := onChain_of_getElem? hc
      have hndf : front.Nodup := by
        rw [hf] at hnd
        exact (List.nodup_append.1 hnd).1
      have hnotin : c.Hash ∉ front := by
        intro hin
        exact (hside c.Hash (by rw [hf]; exact List.mem_append_left _ hin)).1 hcOn
      have hnd2 : (c.Hash :: front).Nodup := List.nodup_cons.2 ⟨hnotin, hndf⟩
      have := length_le_of_nodup_subset hnd2 (u := storeHashes r) (by
        intro k hk
        rcases List.mem_cons.1 hk with rfl | hk1
        · exact hstored c (List.getElem?_mem hc)
        · exact mem_storeHashes_of_resolved (hres k hk1))
      rw [hf, List.length_append, List.length_singleton]
      simpa using this

theorem cyclic_MergePoints : MergePoints cyclicRepo cyclicChain =
    .ok [(1, mkCommit 1 [10]), (10, mkCommit 1 [10]), (11, mkCommit 1 [10])] := by decide

theorem MergePoints_terminates_with_bounded_visits_witness :
    MergePoints cyclicRepo cyclicChain ≠ .diverge ∧
    (nonTrivialVisits cyclicRepo cyclicChain).length ≤ (storeHashes cyclicRepo).length :=
  ⟨(MergePoints_terminates_with_bounded_visits cyclicRepo cyclicChain).1,
    (MergePoints_terminates_with_bounded_visits cyclicRepo cyclicChain).2.2.2.2.2
      (by decide)⟩

/-- C17 fails as stated: with a store that holds no object and a chain whose only commit
names the parent 5, the visit of 5 does not return at once (it marks 5 and fails to
resolve it), while the store has no hash at all. -/
theorem MergePoints_visits_exceed_store_hashes :
    nonTrivialVisits [] orphanChain = [5] ∧ storeHashes [] = [] ∧
    ¬ (nonTrivialVisits [] orphanChain).length ≤ (storeHashes []).length := by
  decide

/-- C18: memoization bounds the store lookups: during a call of `MergePoints` no hash is
looked up twice, every hash looked up is off the chain and reached from the parents of
a chain commit through off-chain commits, so the number of lookups is at most the
number of distinct hashes in any list that holds the off-chain hashes the chain
reaches; the length of the chain does not enter the bound. -/
theorem MergePoints_lookups_bounded (r : Repository) (mainLine : List Commit) :
    (storeLookups r mainLine).Nodup ∧
    (∀ h ∈ storeLookups r mainLine, ¬ OnChain mainLine h ∧ ∃ p, SideReach r mainLine p h) ∧
    ∀ reached : List Hash, (∀ h p, SideReach r mainLine p h → h ∈ reached) →
      (storeLookups r mainLine).length ≤ reached.dedup.length := by
  obtain ⟨new, _, hl, hnd, hside, _⟩ := MergePoints_trace r mainLine
  rw [hl]
  refine ⟨hnd, hside, fun reached hr => ?_⟩
  apply length_le_of_nodup_subset hnd
  intro k hk
  obtain ⟨_, p, hp⟩ := hside k hk
  exact List.mem_dedup.2 (hr k p hp)

theorem MergePoints_lookups_bounded_witness :
    (storeLookups demoRepo demoChain).length ≤ [5, 4].dedup.length :=
  (MergePoints_lookups_bounded demoRepo demoChain).2.2 [5, 4] (by
    intro h p hp
    have hoff : ¬ OnChain demoChain h := hp.choose_spec.2.choose_spec.2.2
    obtain ⟨c, hc⟩ := side_resolves_of_closed demoRepo demoChain (by decide) (by decide) p h hp
    have hkey : h ∈ demoRepo.map Prod.fst :=
      List.mem_map.2 ⟨(h, c), CommitObject_ok_mem hc, rfl⟩
    have hall : ∀ k ∈ demoRepo.map Prod.fst, ¬ OnChain demoChain k → k ∈ [5, 4] := by
      unfold OnChain
      decide
    exact hall h hkey hoff)

/-! ## The printed lookup table -/

theorem length_flatMap_pair {α β : Type} (f g : α → β) (l : List α) :
    (l.flatMap fun i => [f i, g i]).length = 2 * l.length := by
  induction l with
  | nil => rfl
  | cons a l ih => simp only [List.flatMap_cons, List.length_append, ih, List.length_cons,
      List.length_nil]; omega

theorem hashString_length (h : Hash) : (hashString h).data.length = 40 := by
  unfold hashString
  simp only [length_flatMap_pair, List.length_range]

theorem flatMap_pair_inj {α β : Type} (f1 g1 f2 g2 : α → β) (l : List α)
    (h : (l.flatMap fun i => [f1 i, g1 i]) = l.flatMap fun i => [f2 i, g2 i]) :
    ∀ i ∈ l, f1 i = f2 i ∧ g1 i = g2 i := by
  induction l with
  | nil => intro i hi; simp at hi
  | cons a l ih =>
    simp only [List.flatMap_cons, List.cons_append, List.nil_append, List.cons.injEq] at h
    intro i hi
    rcases List.mem_cons.1 hi with rfl | hi1
    · exact ⟨h.1, h.2.1⟩
    · exact ih h.2.2 i hi1

theorem hexDigit_inj : ∀ a, a < 16 → ∀ b, b < 16 → hexDigit a = hexDigit b → a = b := by
  decide

theorem byte_eq_of_digits (b1 b2 : Nat) (v1 : b1 < 256) (v2 : b2 < 256)
    (ha : hexDigit (b1 / 16) = hexDigit (b2 / 16))
    (hb : hexDigit (b1 % 16) = hexDigit (b2 % 16)) : b1 = b2 := by
  have hq := hexDigit_inj _ (by omega) _ (by omega) ha
  have hr := hexDigit_inj _ (Nat.mod_lt _ (by norm_num)) _ (Nat.mod_lt _ (by norm_num)) hb
  omega

theorem mod_pow_eq_of_digits (h1 h2 : Nat) :
    ∀ n, (∀ j, j < n → h1 / 256 ^ j % 256 = h2 / 256 ^ j % 256) →
      h1 % 256 ^ n = h2 % 256 ^ n := by
  intro n
  induction n with
  | zero => intro _; simp [Nat.mod_one]
  | succ n ih =>
    intro hd
    rw [Nat.mod_pow_succ, Nat.mod_pow_succ, ih (fun j hj => hd j (Nat.lt_succ_of_lt hj)),
      hd n (Nat.lt_succ_self n)]

theorem hashString_inj (h1 h2 : Hash) (v1 : h1 < 2 ^ 160) (v2 : h2 < 2 ^ 160)
    (heq : hashString h1 = hashString h2) : h1 = h2 := by
  have hdata := congrArg String.data heq
  unfold hashString at hdata
  simp only at hdata
  have hpairs := flatMap_pair_inj _ _ _ _ _ hdata
  have hdig : ∀ j, j < 20 → h1 / 256 ^ j % 256 = h2 / 256 ^ j % 256 := by
    intro j hj
    obtain ⟨ha, hb⟩ := hpairs (19 - j) (List.mem_range.2 (by omega))
    have hj' : 19 - (19 - j) = j := by omega
    rw [hj'] at ha hb
    exact byte_eq_of_digits _ _ (Nat.mod_lt _ (by norm_num)) (Nat.mod_lt _ (by norm_num)) ha hb
  have hmod := mod_pow_eq_of_digits h1 h2 20 hdig
  have hp : (256 : Nat) ^ 20 = 2 ^ 160 := by norm_num
  rw [hp, Nat.mod_eq_of_lt v1, Nat.mod_eq_of_lt v2] at hmod
  exact hmod

theorem lex_append_of_lex {a b : List Char} (h : List.Lex (· < ·) a b) :
    a.length = b.length → ∀ x y, List.Lex (· < ·) (a ++ x) (b ++ y) := by
  induction h with
  | nil => intro hlen; simp at hlen
  | cons _ ih =>
    intro hlen x y
    exact List.Lex.cons (ih (by simpa using hlen) x y)
  | rel hr =>
    intro _ x y
    exact List.Lex.rel hr

theorem le_of_append_le {a b x y : List Char} (hlen : a.length = b.length)
    (h : a ++ x ≤ b ++ y) : a ≤ b := by
  by_contra hnot
  have hlt : b < a := not_le.1 hnot
  have : b ++ y < a ++ x := lex_append_of_lex hlt hlen.symm y x
  exact absurd h (not_le.2 this)

theorem entryLine_data (e : Hash × Hash) :
    (entryLine e).data = (hashString e.1).data ++ (" ".data ++ (hashString e.2).data) := by
  simp [entryLine, String.data_append]

theorem key_le_of_line_le {a b : Hash × Hash} (h : stringLE (entryLine a) (entryLine b)) :
    (hashString a.1).data ≤ (hashString b.1).data := by
  unfold stringLE at h
  rw [entryLine_data, entryLine_data] at h
  exact le_of_append_le (by rw [hashString_length, hashString_length]) h

theorem sorted_sortStrings (lines : List String) : List.Sorted stringLE (sortStrings lines) := by
  haveI : IsTotal String stringLE := ⟨fun a b => le_total a.data b.data⟩
  haveI : IsTrans String stringLE := ⟨fun a b c hab hbc => le_trans (α := List Char) hab hbc⟩
  exact List.sorted_insertionSort stringLE lines

theorem sortStrings_eq_of_perm {l1 l2 : List String} (h : l1.Perm l2) :
    sortStrings l1 = sortStrings l2 := by
  haveI : IsAntisymm String stringLE := ⟨fun a b hab hba => by
    have : a.data = b.data := le_antisymm (α := List Char) hab hba
    exact String.ext this⟩
  apply List.eq_of_perm_of_sorted (r := stringLE) _ (sorted_sortStrings l1)
    (sorted_sortStrings l2)
  exact (List.perm_insertionSort stringLE l1).trans
    (h.trans (List.perm_insertionSort stringLE l2).symm)

theorem printedLines_eq_map (table : List (Hash × Hash)) :
    printedLines table =
      (table.insertionSort fun a b => stringLE (entryLine a) (entryLine b)).map entryLine := by
  unfold printedLines sortStrings
  exact (List.map_insertionSort (r := fun a b => stringLE (entryLine a) (entryLine b))
    (s := stringLE) entryLine table (fun _ _ _ _ => Iff.rfl)).symm

/-- C15: the printed lookup table is sorted and complete: for a table with distinct keys
that are 20 byte hashes, the lines printed without `-l` are the lines
`<mainline hash> <derived hash>` of the entries, one per entry, in ascending
lexicographic order; the mainline hashes of successive lines ascend strictly, so no two
lines are equal, also where two mainline hashes have the same derived hash; and the
order in which the loop meets the entries of the map makes no difference. -/
theorem printed_table_sorted_and_complete (table : List (Hash × Hash))
    (hkeys : (table.map Prod.fst).Nodup) (hvalid : ∀ e ∈ table, e.1 < 2 ^ 160) :
    ∃ entries : List (Hash × Hash), entries.Perm table ∧
      printedLines table = entries.map entryLine ∧
      List.Sorted stringLE (printedLines table) ∧
      List.Sorted stringLT (entries.map fun e => hashString e.1) ∧
      (printedLines table).Nodup ∧
      ∀ order : List (Hash × Hash), order.Perm table →
        printedLines order = printedLines table := by
  have hperm : (table.insertionSort fun a b => stringLE (entryLine a) (entryLine b)).Perm
      table := List.perm_insertionSort _ table
  have heq := printedLines_eq_map table
  generalize (table.insertionSort fun a b => stringLE (entryLine a) (entryLine b)) = entries
    at hperm heq
  have hsorted : List.Sorted stringLE (printedLines table) := sorted_sortStrings _
  have hp1 : entries.Pairwise fun a b => stringLE (entryLine a) (entryLine b) := by
    have h1 := hsorted
    rw [heq] at h1
    exact List.pairwise_map.1 h1
  have hp2 : entries.Pairwise fun a b => a.1 ≠ b.1 := by
    have h1 : (entries.map Prod.fst).Nodup := (hperm.map Prod.fst).nodup_iff.2 hkeys
    exact List.pairwise_map.1 h1
  have hp3 : entries.Pairwise fun a b => stringLT (hashString a.1) (hashString b.1) := by
    refine List.Pairwise.imp_of_mem ?_ (hp1.and hp2)
    intro a b ha hb hab
    have hle := key_le_of_line_le hab.1
    have hne : (hashString a.1).data ≠ (hashString b.1).data := by
      intro hd
      exact hab.2 (hashString_inj a.1 b.1 (hvalid a (hperm.mem_iff.1 ha))
        (hvalid b (hperm.mem_iff.1 hb)) (String.ext hd))
    exact lt_of_le_of_ne hle hne
  refine ⟨entries, hperm, heq, hsorted, List.pairwise_map.2 hp3, ?_, ?_⟩
  · rw [heq]
    refine List.pairwise_map.2 (hp3.imp ?_)
    intro a b hlt hline
    have hle : (hashString b.1).data ≤ (hashString a.1).data :=
      key_le_of_line_le (a := b) (b := a) (by rw [hline]; exact le_refl (α := List Char) _)
    exact absurd hle (not_le.2 hlt)
  · intro order ho
    exact sortStrings_eq_of_perm (ho.map entryLine)

set_option maxRecDepth 100000 in
theorem collapsed_printedLines :
    printedLines collapsedTable = [entryLine (1, 7), entryLine (2, 7), entryLine (3, 8)] := by
  decide

theorem printed_table_sorted_and_complete_witness :
    ∃ entries : List (Hash × Hash), entries.Perm collapsedTable ∧
      printedLines collapsedTable = entries.map entryLine ∧
      List.Sorted stringLE (printedLines collapsedTable) ∧
      List.Sorted stringLT (entries.map fun e => hashString e.1) ∧
      (printedLines collapsedTable).Nodup ∧
      ∀ order : List (Hash × Hash), order.Perm collapsedTable →
        printedLines order = printedLines collapsedTable :=
  printed_table_sorted_and_complete collapsedTable (by decide) (by decide)

/-! ## Evaluation of a failing first-parent walk -/

theorem shallow_FirstParentList :
    FirstParentList 10 shallowRepo (some (mkCommit 8 [7])) =
      .error ("failed to get first parent of 0000000000000000000000000000000000000007: " ++
        "failed to get 0000000000000000000000000000000000000006: object not found") := by
  decide

end PublishingBot
